import Mathlib

/-!
# Verification of the red-black-tree Dictionary of C-DataStructures

A shallow embedding of `src/Dictionary.c` (and, for the concurrency claims,
of `src/tools/Synchronize.c`).

Modelling conventions:

* C pointers to keys and values are modelled by `Ptr := Nat`, with `0`
  playing the role of `NULL`.  The code never dereferences keys or values;
  it only stores and compares them, so an abstract address is a faithful
  model.
* The `dict_Node` graph with its `parent` back-references is modelled by a
  zipper: a subtree (`Tree`) in focus plus the list of ancestor `Frame`s
  (`Path`).  A `Frame` records on which side the focused subtree hangs
  (`dir`, `false` = `LEFT`, `true` = `RIGHT`, as in `Dictionary.c` lines
  37-38), the ancestor's colour/key/value and the sibling subtree.
* `io_assert` failures, and the null-pointer dereferences the C code would
  perform on states it considers impossible, are modelled by `Option`:
  `none` means the call aborts and produces no new state.
* `size_t` arithmetic: `Dict.size` is a `Nat`; the only subtraction is
  `size - 1` guarded by a successful binary search, so wrap-around of
  `size_t` is never exercised.
-/

namespace CDS

/-- A C pointer; `0` models `NULL`. -/
abbrev Ptr := Nat

/-- Node colours, `Dictionary.c` lines 35-36 (`RED` is `false`, `BLACK` is `true`). -/
inductive Color where
  | red
  | black
deriving DecidableEq, Repr

/-- The subtree reachable from one `dict_Node` (`Dictionary.c` lines 50-55).
The `parent` back-reference is represented by the `Path` below. -/
inductive Tree where
  | nil
  | node (color : Color) (key value : Ptr) (left right : Tree)
deriving DecidableEq, Repr

/-- One ancestor in the zipper: the data of the parent node and the subtree
hanging on the other side.  `dir` is the direction of the focused child below
this parent (`DIRECTION(child, parent)` in `Dictionary.c` line 44). -/
structure Frame where
  dir : Bool
  color : Color
  key : Ptr
  value : Ptr
  sibling : Tree
deriving DecidableEq, Repr

/-- The chain of ancestors of the focus, innermost first. -/
abbrev Path := List Frame

/-- The `COLOR` macro (`Dictionary.c` line 46): `NULL` counts as `BLACK`. -/
def colorOf : Tree → Color
  | .nil => .black
  | .node c _ _ _ _ => c

/-- Re-attach a focused subtree below its innermost ancestor. -/
def plugFrame (t : Tree) (f : Frame) : Tree :=
  if f.dir then .node f.color f.key f.value f.sibling t
  else .node f.color f.key f.value t f.sibling

/-- Rebuild the whole tree from a zipper. -/
def plug (t : Tree) : Path → Tree
  | [] => t
  | f :: p => plug (plugFrame t f) p

/-- `dict_rotate` (`Dictionary.c` lines 576-595) expressed on the zipper: the
focus is the `child` argument, `f` is its parent.  The result is the subtree
standing where the parent used to stand; re-attaching it to the rest of the
path is the grandparent-adoption of lines 583-590. -/
def rotateUp (child : Tree) (f : Frame) : Tree :=
  match child with
  | .nil => .nil
  | .node cc ck cv cl cr =>
    if f.dir then
      .node cc ck cv (.node f.color f.key f.value f.sibling cl) cr
    else
      .node cc ck cv cl (.node f.color f.key f.value cr f.sibling)

/-- The node found by a search: its own fields plus its ancestor path. -/
structure Loc where
  color : Color
  key : Ptr
  value : Ptr
  left : Tree
  right : Tree
  path : Path
deriving DecidableEq, Repr

/-- The subtree rooted at a `Loc`. -/
def Loc.tree (loc : Loc) : Tree :=
  .node loc.color loc.key loc.value loc.left loc.right

/-- `dict_binary_search` (`Dictionary.c` lines 498-520).  Returns `none` when
the (sub)tree is empty — the C function returns `NULL` — and otherwise the
last visited node together with the final value of `*compared`.  Note the
pointer-identity shortcut of line 509: the user comparator is consulted only
when the searched key is not the very pointer stored at the current node. -/
def bsearch (cmp : Ptr → Ptr → Int) (key : Ptr) : Tree → Path → Option (Loc × Int)
  | .nil, _ => none
  | .node c k v l r, path =>
    let compared : Int := if key = k then 0 else cmp key k
    if compared < 0 ∧ l ≠ .nil then
      bsearch cmp key l (⟨false, c, k, v, r⟩ :: path)
    else if compared > 0 ∧ r ≠ .nil then
      bsearch cmp key r (⟨true, c, k, v, l⟩ :: path)
    else
      some (⟨c, k, v, l, r, path⟩, compared)

/-- `dict_red_red` (`Dictionary.c` lines 602-639).  The focus is the `child`
argument; the result is the whole rebuilt tree.  `none` models the
`io_assert(!ROOT(child))` of line 606 and the assertion inside `dict_uncle`
when the RED parent is the root.  The C code re-colours the parent BLACK
after the recursive call (line 638); the recursion never inspects or alters
that node, so the recolouring is applied before recursing here. -/
def red_red (child : Tree) : Path → Option Tree
  | [] => none
  | f :: path =>
    if ¬(colorOf child = .red ∧ f.color = .red) then
      some (plug (plugFrame child f) path)
    else
      match path with
      | [] => none
      | g :: path' =>
        if colorOf g.sibling = .red then
          match g.sibling with
          | .nil => none
          | .node _ uk uv ul ur =>
            let uncleB : Tree := .node .black uk uv ul ur
            let parentB : Frame := { f with color := .black }
            let gtree (gcol : Color) : Tree :=
              if g.dir then .node gcol g.key g.value uncleB (plugFrame child parentB)
              else .node gcol g.key g.value (plugFrame child parentB) uncleB
            match path' with
            | [] => some (gtree g.color)
            | _ :: _ => red_red (gtree .red) path'
        else
          let gRed : Frame := { g with color := .red }
          if f.dir ≠ g.dir then
            match child with
            | .nil => none
            | .node _ ck cv cl cr =>
              let childB : Tree := .node .black ck cv cl cr
              some (plug (rotateUp (rotateUp childB f) gRed) path')
          else
            let parentB : Frame := { f with color := .black }
            some (plug (rotateUp (plugFrame child parentB) gRed) path')

/-- The far nephew seen from a parent frame: `CHILD(sibling, !direction)`
(`Dictionary.c` line 658). -/
def farNephew (f : Frame) : Tree :=
  match f.sibling with
  | .nil => .nil
  | .node _ _ _ sl sr => if f.dir then sl else sr

/-- Termination measure for the double-black fixup: Case Three shortens the
path, Case Two trades a BLACK parent for a longer path with a RED one, and
Case Five turns the far nephew RED. -/
def dbMeasure : Path → Nat
  | [] => 0
  | f :: rest =>
    2 * rest.length + (if f.color = .black then 4 else 0) +
      (if colorOf (farNephew f) = .red then 0 else 1)

/-- The body of `dict_double_black` (`Dictionary.c` lines 647-698),
structurally recursive on an explicit recursion budget `fuel`.  The focused
subtree is never re-coloured or restructured by the C procedure, so the
function returns only the rebuilt context of that node.  `none` models the
`io_assert(!ROOT(double_black))` of line 652, the null dereferences the C
code would perform on a `NULL` sibling (line 657) or a `NULL` far nephew
(line 696), and an exhausted budget.  Every recursive call strictly decreases
`dbMeasure`, so a budget above the measure never runs out
(`dbGo_congr` below): with the budget chosen in `double_black` this function
computes exactly what the C recursion computes. -/
def dbGo : Nat → Tree → Path → Option Path
  | 0, _, _ => none
  | _ + 1, _, [] => none
  | n + 1, focus, f :: rest =>
    match f.sibling with
    | .nil => none
    | .node sc sk sv sl sr =>
      let nc : Tree := if f.dir then sr else sl
      let nf : Tree := if f.dir then sl else sr
      if f.color = .black ∧ sc = .red ∧ colorOf nc = .black ∧ colorOf nf = .black then
        dbGo n focus
          (⟨f.dir, .red, f.key, f.value, nc⟩ :: ⟨f.dir, .black, sk, sv, nf⟩ :: rest)
      else if f.color = .black ∧ sc = .black ∧ colorOf nc = .black ∧ colorOf nf = .black then
        let fRed : Frame := { f with sibling := .node .red sk sv sl sr }
        match rest with
        | [] => some [fRed]
        | _ :: _ =>
          match dbGo n (plugFrame focus fRed) rest with
          | none => none
          | some path2 => some (fRed :: path2)
      else if f.color = .red ∧ sc = .black ∧ colorOf nc = .black ∧ colorOf nf = .black then
        some (⟨f.dir, .black, f.key, f.value, .node .red sk sv sl sr⟩ :: rest)
      else if colorOf nc = .red ∧ colorOf nf = .black then
        match nc with
        | .nil => none
        | .node _ nk nv nl nr =>
          let sib2 : Tree :=
            if f.dir then .node .black nk nv (.node .red sk sv sl nl) nr
            else .node .black nk nv nl (.node .red sk sv nr sr)
          dbGo n focus (⟨f.dir, f.color, f.key, f.value, sib2⟩ :: rest)
      else
        match nf with
        | .nil => none
        | .node _ fk fv fl fr =>
          let nfB : Tree := .node .black fk fv fl fr
          let scol : Color := if rest = [] then .black else f.color
          some (⟨f.dir, .black, f.key, f.value, nc⟩ :: ⟨f.dir, scol, sk, sv, nfB⟩ :: rest)

/-- `dict_double_black` (`Dictionary.c` lines 647-698): the C recursion, run
with a budget its own measure shows it can never exhaust. -/
def double_black (focus : Tree) (path : Path) : Option Path :=
  dbGo (dbMeasure path + 1) focus path

/-- `dict_delete` (`Dictionary.c` lines 466-488): splice out the focused node,
promoting its surviving child; when the root is deleted the promoted child
is re-coloured BLACK.  `none` models the assertions of lines 468-470. -/
def dict_delete (focus : Tree) (path : Path) : Option Tree :=
  match focus with
  | .nil => none
  | .node _ _ _ l r =>
    if l ≠ .nil ∧ r ≠ .nil then none
    else
      let surviving : Tree := if l ≠ .nil then l else r
      match path with
      | [] =>
        match surviving with
        | .nil => some .nil
        | .node _ k v sl sr => some (.node .black k v sl sr)
      | f :: p => some (plug (plugFrame surviving f) p)

/-- Key and value of the leftmost node of a tree (the in-order successor data
read by `dict_successor`, `Dictionary.c` lines 527-535). -/
def leftmostKV : Tree → Option (Ptr × Ptr)
  | .nil => none
  | .node _ k v l _ =>
    match l with
    | .nil => some (k, v)
    | .node _ _ _ _ _ => leftmostKV l

/-- The zipper descent of `dict_successor` (`Dictionary.c` lines 527-535):
walk to the leftmost node, pushing the frames traversed on the way. -/
def leftmostZip : Tree → Path → Tree × Path
  | .nil, path => (.nil, path)
  | .node c k v l r, path =>
    match l with
    | .nil => (.node c k v .nil r, path)
    | .node _ _ _ _ _ => leftmostZip l (⟨false, c, k, v, r⟩ :: path)

/-- The Dictionary structure (`Dictionary.c` lines 58-69).  The comparator
function pointer is passed as an explicit parameter of each operation; the
lock handle is modelled separately (see the `Lock` section). -/
structure Dict where
  root : Tree
  size : Nat
deriving DecidableEq, Repr

/-- `Dictionary_new` (`Dictionary.c` lines 106-116): the empty dictionary. -/
def dict_new : Dict := ⟨.nil, 0⟩

/-- `dict_get` (`Dictionary.c` lines 123-139).  `none` models the `io_assert`
on a `NULL` key; the returned `Ptr` is `0` (i.e. `NULL`) when no mapping with
a matching key exists. -/
def dict_get (cmp : Ptr → Ptr → Int) (d : Dict) (key : Ptr) : Option Ptr :=
  if key = 0 then none
  else
    some (match bsearch cmp key d.root [] with
          | some (loc, compared) => if compared = 0 then loc.value else 0
          | none => 0)

/-- `dict_size` (`Dictionary.c` lines 145-158). -/
def dict_size (d : Dict) : Nat := d.size

/-- `dict_empty` (`Dictionary.c` lines 164-177). -/
def dict_empty (d : Dict) : Bool := d.size = 0

/-- `dict_contains` (`Dictionary.c` lines 183-198). -/
def dict_contains (cmp : Ptr → Ptr → Int) (d : Dict) (key : Ptr) : Option Bool :=
  if key = 0 then none
  else
    some (match bsearch cmp key d.root [] with
          | some (_, compared) => compared = 0
          | none => false)

/-- `dict_put` (`Dictionary.c` lines 235-278).  Returns the replaced value
(`0` models the `NULL` returned for a fresh mapping) and the new dictionary;
`none` models the `io_assert`s on `NULL` key/value and any assertion inside
the red-red fixup. -/
def dict_put (cmp : Ptr → Ptr → Int) (d : Dict) (key value : Ptr) : Option (Ptr × Dict) :=
  if key = 0 ∨ value = 0 then none
  else
    match bsearch cmp key d.root [] with
    | none =>
      some (0, { root := .node .black key value .nil .nil, size := d.size + 1 })
    | some (loc, compared) =>
      if compared = 0 then
        some (loc.value,
          { root := plug (.node loc.color loc.key value loc.left loc.right) loc.path,
            size := d.size })
      else
        let newNode : Tree := .node .red key value .nil .nil
        let f : Frame :=
          if compared > 0 then ⟨true, loc.color, loc.key, loc.value, loc.left⟩
          else ⟨false, loc.color, loc.key, loc.value, loc.right⟩
        match red_red newNode (f :: loc.path) with
        | none => none
        | some t => some (0, { root := t, size := d.size + 1 })

/-- `dict_remove` (`Dictionary.c` lines 285-322).  Returns the value the C
code returns (`removed = located->value` at line 313, read after the
two-children retargeting) together with the new dictionary; `0` models the
`NULL` returned when no mapping matches. -/
def dict_remove (cmp : Ptr → Ptr → Int) (d : Dict) (key : Ptr) : Option (Ptr × Dict) :=
  if key = 0 then none
  else
    match bsearch cmp key d.root [] with
    | none => some (0, d)
    | some (loc, compared) =>
      if compared = 0 then
        let fp : Tree × Path :=
          if loc.left ≠ .nil ∧ loc.right ≠ .nil then
            match leftmostKV loc.right with
            | some (sk, sv) =>
              leftmostZip loc.right (⟨true, loc.color, sk, sv, loc.left⟩ :: loc.path)
            | none => (.nil, [])
          else (loc.tree, loc.path)
        let focus := fp.1
        let path := fp.2
        let fixed : Option Path :=
          if colorOf focus = .black ∧ path ≠ [] then double_black focus path
          else some path
        match fixed with
        | none => none
        | some path2 =>
          let removed : Ptr :=
            match focus with
            | .node _ _ v _ _ => v
            | .nil => 0
          match dict_delete focus path2 with
          | none => none
          | some t => some (removed, { root := t, size := d.size - 1 })
      else some (0, d)

/-- `dict_clear` (`Dictionary.c` lines 328-356): the post-order sweep only
frees node memory; the resulting state is the reset of lines 351-352. -/
def dict_clear (_d : Dict) : Dict := ⟨.nil, 0⟩

/-! ## Iterators (`dict_Iterator`, `Dictionary.c` lines 72-79 and 373-436)

The `Vector` collaborator is used only through `vect_push_front`,
`vect_front`, `vect_pop_front` and `vect_empty`, i.e. as a stack; it is
modelled by a `List Tree` with its head as the top.  The `current` pointer is
modelled by the subtree rooted at that node: under the distinct-keys
hypothesis of the theorems this value determines the node uniquely, so value
equality coincides with the pointer equality the C code tests. -/

/-- Number of nodes of a tree. -/
def Tree.count : Tree → Nat
  | .nil => 0
  | .node _ _ _ l r => l.count + 1 + r.count

/-- Total node count of all subtrees on the iterator stack. -/
def stackCount (st : List Tree) : Nat := (st.map Tree.count).sum

/-- The three traversal orders (`dict_iter_traversal`). -/
inductive Traversal where
  | inOrder
  | preOrder
  | postOrder
deriving DecidableEq, Repr

/-- Iterator state (`Dictionary.c` lines 72-79). -/
structure DIter where
  current : Option Tree
  stack : List Tree
deriving DecidableEq, Repr

/-- `dict_iter` (`Dictionary.c` lines 373-398): push the root unless the
dictionary is empty; `current` starts at the root except for pre-order.
`none` models `vect_push_front`'s `NULL` assertion, reachable only from an
inconsistent dictionary (non-zero size with a `NULL` root). -/
def dict_iter (d : Dict) (ty : Traversal) : Option DIter :=
  if dict_empty d then some ⟨none, []⟩
  else if d.root = .nil then none
  else some ⟨if ty = .preOrder then none else some d.root, [d.root]⟩

/-- `dict_iter_has_next` (`Dictionary.c` lines 421-425). -/
def dict_iter_has_next (st : DIter) : Bool := st.stack ≠ []

/-- The loop of `Dictionary.c` lines 750-752: the rightmost node of a
subtree, `none` for an empty subtree. -/
def rightmostNode : Tree → Option Tree
  | .nil => none
  | .node c k v l r =>
    match r with
    | .nil => some (.node c k v l r)
    | .node _ _ _ _ _ => rightmostNode r

/-- Height of a tree (length of the longest root-to-leaf chain). -/
def Tree.height : Tree → Nat
  | .nil => 0
  | .node _ _ _ l r => 1 + max l.height r.height

/-- Termination measure for the iterator loops: the height of the subtree on
top of the stack (each non-returning loop iteration descends into a child). -/
def topHeight : List Tree → Nat
  | [] => 0
  | t :: _ => t.height

/-- The while-loop of `dict_iter_in_order` (`Dictionary.c` lines 743-767).
When the loop does not return, the in-order predecessor exists, hence the
left child is non-`NULL` and is the node pushed last, so the next iteration
works on it. -/
def iterInOrderGo (stack : List Tree) (current : Option Tree) : Option (Tree × List Tree) :=
  match stack with
  | [] => none
  | next :: stack0 =>
    match next with
    | .nil => none
    | .node c k v l r =>
      let pred := rightmostNode l
      let stack1 := if pred ≠ current ∧ r ≠ .nil then r :: stack0 else stack0
      if h : pred = none ∨ pred = current then
        some (.node c k v l r, stack1)
      else
        -- here the predecessor exists, so the left child is non-NULL; by the
        -- guard of line 764 it is pushed after the peeked node and the next
        -- loop iteration works on it
        iterInOrderGo (l :: .node c k v l r :: stack1) current
termination_by topHeight stack
decreasing_by
  simp only [topHeight, Tree.height]
  omega

/-- `dict_iter_in_order` (`Dictionary.c` lines 736-770): one call; the
returned node also becomes the new `current`. -/
def dict_iter_in_order (st : DIter) : Option (Tree × DIter) :=
  match iterInOrderGo st.stack st.current with
  | none => none
  | some (t, stack2) => some (t, ⟨some t, stack2⟩)

/-- `dict_iter_pre_order` (`Dictionary.c` lines 776-790): pop, then push the
right and left children (left ends on top); `current` is not consulted. -/
def dict_iter_pre_order (st : DIter) : Option (Tree × DIter) :=
  match st.stack with
  | [] => none
  | .nil :: _ => none
  | .node c k v l r :: stack =>
    some (.node c k v l r,
      ⟨st.current,
       (if l ≠ .nil then [l] else []) ++ (if r ≠ .nil then [r] else []) ++ stack⟩)

/-- `NULL`-aware pointer to a subtree: what the C comparisons against
`iter->current` see for a (possibly `NULL`) child pointer. -/
def optTree (t : Tree) : Option Tree := if t = .nil then none else some t

/-- The while-loop of `dict_iter_post_order` (`Dictionary.c` lines 804-822).
When the loop does not return, the peeked node is not a leaf, so the last
pushed child (the left one, or the right one if the left is `NULL`) is the
node the next iteration works on. -/
def iterPostGo (stack : List Tree) (current : Option Tree) : Option (Tree × List Tree) :=
  match stack with
  | [] => none
  | next :: stack0 =>
    match next with
    | .nil => none
    | .node c k v l r =>
      if h : (l = .nil ∧ r = .nil) ∨ optTree l = current ∨ optTree r = current then
        some (.node c k v l r, stack0)
      else
        iterPostGo
          ((if l = .nil then [] else [l]) ++ (if r = .nil then [] else [r]) ++
            .node c k v l r :: stack0) current
termination_by topHeight stack
decreasing_by
  split_ifs with h1 h2
  · exact absurd (Or.inl ⟨h1, h2⟩) h
  all_goals simp_all only [topHeight, Tree.height, List.nil_append, List.cons_append,
    List.singleton_append]
  all_goals omega

/-- `dict_iter_post_order` (`Dictionary.c` lines 797-825). -/
def dict_iter_post_order (st : DIter) : Option (Tree × DIter) :=
  match iterPostGo st.stack st.current with
  | none => none
  | some (t, stack2) => some (t, ⟨some t, stack2⟩)

/-- `iter->next(iter)` dispatch (`Dictionary.c` lines 389-395 and 724-729). -/
def iterNext (ty : Traversal) (st : DIter) : Option (Tree × DIter) :=
  match ty with
  | .inOrder => dict_iter_in_order st
  | .preOrder => dict_iter_pre_order st
  | .postOrder => dict_iter_post_order st

/-- A `while (dict_iter_has_next) dict_iter_next` loop collecting the
(key, value) pairs (`Dictionary.c` lines 405-415), fuelled by call count. -/
def iterRun (ty : Traversal) : Nat → DIter → Option (List (Ptr × Ptr))
  | 0, _ => none
  | fuel + 1, st =>
    if ¬ dict_iter_has_next st then some []
    else
      match iterNext ty st with
      | none => none
      | some (.nil, _) => none
      | some (.node _ k v _ _, st2) =>
        match iterRun ty fuel st2 with
        | none => none
        | some rest => some ((k, v) :: rest)

/-- The complete traversal a caller performs with `dict_iter` /
`dict_iter_has_next` / `dict_iter_next`. -/
def dictTraverse (d : Dict) (ty : Traversal) : Option (List (Ptr × Ptr)) :=
  match dict_iter d ty with
  | none => none
  | some st => iterRun ty (stackCount st.stack + 1) st

/-- `dict_clone` (`Dictionary.c` lines 204-227): replay the pre-order
(key, value) sequence into a fresh dictionary via `dict_put`. -/
def dict_clone (cmp : Ptr → Ptr → Int) (d : Dict) : Option Dict :=
  match dictTraverse d .preOrder with
  | none => none
  | some kvs =>
    kvs.foldlM (fun acc kv => (dict_put cmp acc kv.1 kv.2).map Prod.snd) dict_new

/-! ## Functional traversal sequences and the red-black invariants -/

/-- In-order (key, value) sequence. -/
def inorderKV : Tree → List (Ptr × Ptr)
  | .nil => []
  | .node _ k v l r => inorderKV l ++ (k, v) :: inorderKV r

/-- Pre-order (key, value) sequence. -/
def preorderKV : Tree → List (Ptr × Ptr)
  | .nil => []
  | .node _ k v l r => (k, v) :: (preorderKV l ++ preorderKV r)

/-- Post-order (key, value) sequence. -/
def postorderKV : Tree → List (Ptr × Ptr)
  | .nil => []
  | .node _ k v l r => postorderKV l ++ postorderKV r ++ [(k, v)]

/-- No RED node has a RED child (equivalently, a RED parent). -/
def noRedRed : Tree → Bool
  | .nil => true
  | .node c _ _ l r =>
    (c = .black || (colorOf l = .black && colorOf r = .black)) && noRedRed l && noRedRed r

/-- The common number of BLACK nodes on every path to a null leaf, when all
such paths agree (from every node, recursively). -/
def blackHeight? : Tree → Option Nat
  | .nil => some 0
  | .node c _ _ l r =>
    match blackHeight? l, blackHeight? r with
    | some hl, some hr =>
      if hl = hr then some (hl + (if c = .black then 1 else 0)) else none
    | _, _ => none

/-- Keys strictly increasing in comparator order. -/
def keysSorted (cmp : Ptr → Ptr → Int) : List Ptr → Bool
  | [] => true
  | [_] => true
  | a :: b :: t => decide (cmp a b < 0) && keysSorted cmp (b :: t)

/-- The four structural invariants of C1: BLACK (or absent) root, no red-red
adjacency, consistent black-height, strictly increasing in-order keys. -/
def rbValid (cmp : Ptr → Ptr → Int) (t : Tree) : Bool :=
  colorOf t = .black && noRedRed t && (blackHeight? t).isSome &&
    keysSorted cmp ((inorderKV t).map Prod.fst)

/-! ## The reader-writer lock (`src/tools/Synchronize.c`)

Used for claim C3.  The state of one `ReadWriteSync` (lines 58-66) consists
of the reader/writer counts and the two binary semaphores (`true` =
available).  The three mutexes are held only transiently inside each
operation and are per-thread re-entrant Windows mutexes; in the
single-threaded executions below they never block and are omitted. -/

/-- A lock event on a dictionary's own `ReadWriteSync`. -/
inductive LockEv where
  | readStart
  | readEnd
  | writeStart
  | writeEnd
deriving DecidableEq, Repr

/-- `ReadWriteSync` state. -/
structure SyncSt where
  readers : Nat
  writers : Nat
  readerBlock : Bool
  writerBlock : Bool
deriving DecidableEq, Repr

/-- `ReadWriteSync_new` (`Synchronize.c` lines 75-97): both semaphores start
at their maximum count 1. -/
def syncInit : SyncSt := ⟨0, 0, true, true⟩

/-- One event executed by the single running thread.  `none` means the thread
blocks forever in a `sem_wait` (`WaitForSingleObject` with an INFINITE
timeout, with nobody left to signal) or fails a release assertion. -/
def syncStep (s : SyncSt) : LockEv → Option SyncSt
  | .readStart =>
    -- sync_read_start (Synchronize.c 106-122): the reader-block semaphore is
    -- taken and released again within the call; the writer-block semaphore is
    -- taken by the first reader.
    if ¬ s.readerBlock then none
    else if s.readers + 1 = 1 then
      if ¬ s.writerBlock then none
      else some { s with readers := s.readers + 1, writerBlock := false }
    else some { s with readers := s.readers + 1 }
  | .readEnd =>
    -- sync_read_end (129-141)
    if s.readers = 0 then none
    else if s.readers - 1 = 0 then
      some { s with readers := 0, writerBlock := true }
    else some { s with readers := s.readers - 1 }
  | .writeStart =>
    -- sync_write_start (149-163): the first writer takes the reader-block
    -- semaphore and keeps it; every writer then takes the writer-block one.
    if s.writers + 1 = 1 then
      if ¬ s.readerBlock then none
      else if ¬ s.writerBlock then none
      else some { s with writers := 1, readerBlock := false, writerBlock := false }
    else if ¬ s.writerBlock then none
    else some { s with writers := s.writers + 1, writerBlock := false }
  | .writeEnd =>
    -- sync_write_end (169-184): writer-block is signalled first.
    if s.writers = 0 then none
    else if s.writers - 1 = 0 then
      some { s with writers := 0, writerBlock := true, readerBlock := true }
    else some { s with writers := s.writers - 1, writerBlock := true }

/-- Execute a sequence of lock events; `none` as soon as one blocks. -/
def syncRun (s : SyncSt) : List LockEv → Option SyncSt
  | [] => some s
  | e :: es =>
    match syncStep s e with
    | none => none
    | some s2 => syncRun s2 es

/-- Lock events `dict_empty` issues on its own instance
(`Dictionary.c` lines 164-177). -/
def dict_empty_lockTrace : List LockEv := [.readStart, .readEnd]

/-- `dict_iter` locks its dictionary only through the `dict_empty` call of
line 381. -/
def dict_iter_lockTrace : List LockEv := dict_empty_lockTrace

/-- Own-instance lock events of `dict_clear` (`Dictionary.c` lines 328-356):
a write lock wrapped around the iterator construction's events. -/
def dict_clear_lockTrace : List LockEv :=
  [.writeStart] ++ dict_iter_lockTrace ++ [.writeEnd]

/-- Own-instance lock events of `dict_clone` (`Dictionary.c` lines 204-227):
a read lock around the iterator construction's events (the `dict_put` calls
go to the freshly constructed copy's separate lock). -/
def dict_clone_lockTrace : List LockEv :=
  [.readStart] ++ dict_iter_lockTrace ++ [.readEnd]

/-! ## Concrete comparators used in the theorems -/

/-- The usual total order on `Nat` keys, as a C comparator. -/
def natCmp (a b : Ptr) : Int := if a < b then -1 else if a = b then 0 else 1

/-- A comparator that never returns 0 — not even on a key compared with
itself.  Used to exhibit the pointer-identity shortcut of
`dict_binary_search`. -/
def irrCmp (a b : Ptr) : Int := if a < b then -1 else 1

/-! ## Comparator laws, the order invariant and the association-list model -/

/-- Total-preorder laws the spec (section 6) requires of the user-supplied
comparator. -/
structure CmpLawful (cmp : Ptr → Ptr → Int) : Prop where
  refl : ∀ a, cmp a a = 0
  asymm : ∀ a b, cmp a b < 0 ↔ cmp b a > 0
  lt_trans : ∀ a b c, cmp a b < 0 → cmp b c < 0 → cmp a c < 0
  compat : ∀ a b c, cmp a b = 0 → cmp a c = cmp b c

/-- A predicate holds of every (key, value) pair in a tree. -/
inductive ForallT (p : Ptr → Ptr → Prop) : Tree → Prop where
  | nil : ForallT p .nil
  | node {c : Color} {k v : Ptr} {l r : Tree} :
      ForallT p l → p k v → ForallT p r → ForallT p (.node c k v l r)

/-- Invariant 5 of spec section 3: binary-search order per the comparator. -/
inductive Ordered (cmp : Ptr → Ptr → Int) : Tree → Prop where
  | nil : Ordered cmp .nil
  | node {c : Color} {k v : Ptr} {l r : Tree} :
      ForallT (fun a _ => cmp a k < 0) l →
      ForallT (fun a _ => cmp k a < 0) r →
      Ordered cmp l → Ordered cmp r → Ordered cmp (.node c k v l r)

/-- Effect of `dict_put` on the in-order association sequence: replace the
value in place at a matching entry (pointer-identical or comparator-equal
key, keeping the stored key), or insert `(k, v)` at its comparator
position. -/
def modelInsert (cmp : Ptr → Ptr → Int) (k v : Ptr) : List (Ptr × Ptr) → List (Ptr × Ptr)
  | [] => [(k, v)]
  | (a, b) :: t =>
    if k = a ∨ cmp k a = 0 then (a, v) :: t
    else if cmp k a < 0 then (k, v) :: (a, b) :: t
    else (a, b) :: modelInsert cmp k v t

/-- Effect of `dict_remove` on the in-order association sequence: delete the
matching entry, if any. -/
def modelDelete (cmp : Ptr → Ptr → Int) (k : Ptr) : List (Ptr × Ptr) → List (Ptr × Ptr)
  | [] => []
  | (a, b) :: t =>
    if k = a ∨ cmp k a = 0 then t
    else (a, b) :: modelDelete cmp k t

/-- A tree with every value erased: the "node structure" (colours, keys and
links) the shape-preservation claims talk about. -/
def eraseVals : Tree → Tree
  | .nil => .nil
  | .node c k _ l r => .node c k 0 (eraseVals l) (eraseVals r)

/-- The in-order entries contributed by the ancestors on the left of the
focused hole. -/
def pathPre : Path → List (Ptr × Ptr)
  | [] => []
  | f :: p =>
    pathPre p ++ (if f.dir then inorderKV f.sibling ++ [(f.key, f.value)] else [])

/-- The in-order entries contributed by the ancestors on the right of the
focused hole. -/
def pathPost : Path → List (Ptr × Ptr)
  | [] => []
  | f :: p =>
    (if f.dir then [] else (f.key, f.value) :: inorderKV f.sibling) ++ pathPost p

/-- Full well-formedness of a dictionary state. -/
def Inv (cmp : Ptr → Ptr → Int) (d : Dict) : Prop :=
  colorOf d.root = .black ∧ noRedRed d.root = true ∧ (blackHeight? d.root).isSome
    ∧ Ordered cmp d.root ∧ d.size = d.root.count
    ∧ ForallT (fun k v => k ≠ 0 ∧ v ≠ 0) d.root

/-- Dictionary states reachable from `Dictionary_new` by completed `dict_put`,
`dict_remove` and `dict_clear` calls. -/
inductive Reachable (cmp : Ptr → Ptr → Int) : Dict → Prop where
  | new : Reachable cmp dict_new
  | put {d : Dict} {k v r : Ptr} {d2 : Dict} :
      Reachable cmp d → dict_put cmp d k v = some (r, d2) → Reachable cmp d2
  | remove {d : Dict} {k r : Ptr} {d2 : Dict} :
      Reachable cmp d → dict_remove cmp d k = some (r, d2) → Reachable cmp d2
  | clear {d : Dict} : Reachable cmp d → Reachable cmp (dict_clear d)

/-- Every node of a tree, as the subtree hanging from it: the candidate
values of the `current` pointer during an iteration. -/
def subtrees : Tree → List Tree
  | .nil => []
  | .node c k v l r => .node c k v l r :: (subtrees l ++ subtrees r)

/-- Insert a list of mappings in order via `dict_put`, stopping at the first
incomplete call (used for the N-key round-trip claim). -/
def putAll (cmp : Ptr → Ptr → Int) (d : Dict) : List (Ptr × Ptr) → Option Dict
  | [] => some d
  | (k, v) :: t =>
    match dict_put cmp d k v with
    | none => none
    | some (_, d2) => putAll cmp d2 t

/-- Contribution of a node of the given colour to the black height. -/
def colorBit (c : Color) : Nat := if c = .black then 1 else 0

/-- Black-height bookkeeping of a zipper context: given the black height of
the subtree standing in the hole, the black height of the whole tree — when
every sibling subtree is consistent and matches the hole's height. -/
def ctxBH : Path → Nat → Option Nat
  | [], h => some h
  | f :: p, h =>
    if blackHeight? f.sibling = some h then ctxBH p (h + colorBit f.color)
    else none

/-- Red-red cleanliness of a zipper context for a hole occupant of the given
root colour: every sibling subtree is clean, and every RED frame has a BLACK
occupant below it and a BLACK sibling. -/
def ctxRR : Path → Color → Prop
  | [], _ => True
  | f :: p, c =>
    noRedRed f.sibling = true ∧
    (f.color = .red → c = .black ∧ colorOf f.sibling = .black) ∧
    ctxRR p f.color

/-! # Theorems -/

/-! ## Structural lemmas about zippers and in-order sequences -/

theorem plug_append (t : Tree) (a b : Path) : plug t (a ++ b) = plug (plug t a) b := by
  induction a generalizing t with
  | nil => rfl
  | cons f p ih => simp [plug, ih]

theorem inorder_plugFrame (t : Tree) (f : Frame) :
    inorderKV (plugFrame t f) =
      (if f.dir then inorderKV f.sibling ++ [(f.key, f.value)] else []) ++
        inorderKV t ++
        (if f.dir then [] else (f.key, f.value) :: inorderKV f.sibling) := by
  cases hd : f.dir <;> simp [plugFrame, hd, inorderKV]

theorem inorder_plug (t : Tree) (p : Path) :
    inorderKV (plug t p) = pathPre p ++ inorderKV t ++ pathPost p := by
  induction p generalizing t with
  | nil => simp [plug, pathPre, pathPost]
  | cons f p ih =>
    simp only [plug, ih, inorder_plugFrame, pathPre, pathPost]
    cases hd : f.dir <;> simp

theorem rotateUp_inorder (f : Frame) (c : Color) (k v : Ptr) (l r : Tree) :
    inorderKV (rotateUp (.node c k v l r) f) = inorderKV (plugFrame (.node c k v l r) f) := by
  cases hd : f.dir <;> simp [rotateUp, plugFrame, hd, inorderKV]

theorem count_eq_length (t : Tree) : t.count = (inorderKV t).length := by
  induction t with
  | nil => rfl
  | node c k v l r ihl ihr => simp [Tree.count, inorderKV, ihl, ihr]; omega

/-- The red-red fixup only rotates and recolours, so the in-order sequence of
the whole tree is untouched. -/
theorem red_red_inorder {child : Tree} {p : Path} :
    ∀ {t : Tree}, red_red child p = some t → inorderKV t = inorderKV (plug child p) := by
  induction child, p using red_red.induct with
  | case1 child => intro t h; exact Option.noConfusion h
  | case2 child f p hcol =>
    intro t h
    rw [red_red.eq_def] at h
    simp only [if_pos hcol] at h
    obtain rfl := Option.some.inj h
    rfl
  | case3 child f hcol =>
    intro t h
    rw [red_red.eq_def] at h
    simp only [if_neg hcol] at h
    exact Option.noConfusion h
  | case4 child f hcol g tail hred hnil =>
    intro t h
    rw [hnil] at hred
    simp [colorOf] at hred
  | case5 child f hcol g hred uc uk uv ul ur hsib =>
    intro t h
    rw [red_red.eq_def] at h
    rw [hsib] at hred
    simp only [if_neg hcol, hsib, if_pos hred] at h
    obtain rfl := Option.some.inj h
    show _ = inorderKV (plug (plugFrame (plugFrame child f) g) [])
    cases hgd : g.dir <;> cases hfd : f.dir <;>
      simp [plug, plugFrame, inorderKV, hgd, hfd, hsib]
  | case6 child f hcol g hred uc uk uv ul ur hsib uncleB parentB gtree h1 tail2 =>
    rename_i ih
    intro t h
    rw [red_red.eq_def] at h
    rw [hsib] at hred
    simp only [if_neg hcol, hsib, if_pos hred] at h
    rw [ih h]
    rw [show plug child (f :: g :: h1 :: tail2) =
          plug (plugFrame (plugFrame child f) g) (h1 :: tail2) from rfl]
    rw [inorder_plug, inorder_plug]
    cases hgd : g.dir <;> cases hfd : f.dir <;>
      simp [plugFrame, inorderKV, hgd, hfd, hsib, gtree, uncleB, parentB]
  | case7 f g tail hsibred hdir hcol =>
    intro t h
    simp [colorOf] at hcol
  | case8 f g tail hsibred hdir cc ck cv cl cr hcol =>
    intro t h
    rw [red_red.eq_def] at h
    simp only [if_neg hcol, if_neg hsibred, if_pos hdir] at h
    obtain rfl := Option.some.inj h
    show _ = inorderKV (plug (plugFrame (plugFrame (.node cc ck cv cl cr) f) g) tail)
    rw [inorder_plug, inorder_plug]
    suffices hx : inorderKV (rotateUp (rotateUp (Tree.node Color.black ck cv cl cr) f)
        ⟨g.dir, Color.red, g.key, g.value, g.sibling⟩) =
        inorderKV (plugFrame (plugFrame (Tree.node cc ck cv cl cr) f) g) by
      rw [hx]
    cases hgd : g.dir <;> cases hfd : f.dir <;>
      simp_all [rotateUp, plugFrame, inorderKV]
  | case9 child f hcol g tail hsibred hdir =>
    intro t h
    rw [red_red.eq_def] at h
    simp only [if_neg hcol, if_neg hsibred, if_neg hdir] at h
    obtain rfl := Option.some.inj h
    show _ = inorderKV (plug (plugFrame (plugFrame child f) g) tail)
    rw [inorder_plug, inorder_plug]
    have hfg : f.dir = g.dir := not_not.mp hdir
    suffices hx : inorderKV (rotateUp
        (plugFrame child ⟨f.dir, Color.black, f.key, f.value, f.sibling⟩)
        ⟨g.dir, Color.red, g.key, g.value, g.sibling⟩) =
        inorderKV (plugFrame (plugFrame child f) g) by
      rw [hx]
    cases hgd : g.dir <;> rw [hgd] at hfg <;>
      simp [rotateUp, plugFrame, inorderKV, hgd, hfg]

/-- Case Two of the double-black fixup strictly decreases the measure. -/
theorem dbMeasure_case2 (f : Frame) (rest : Path) (d : Bool) (sk sv : Ptr) (nc nf : Tree)
    (hb : f.color = .black) :
    dbMeasure (⟨d, .red, f.key, f.value, nc⟩ :: ⟨d, .black, sk, sv, nf⟩ :: rest) <
      dbMeasure (f :: rest) := by
  simp [dbMeasure, hb]
  split_ifs <;> omega

/-- Case Three of the double-black fixup strictly decreases the measure. -/
theorem dbMeasure_case3 (f g : Frame) (rest : Path) (hb : f.color = .black) :
    dbMeasure (g :: rest) < dbMeasure (f :: g :: rest) := by
  simp [dbMeasure, hb]
  split_ifs <;> omega

/-- Replacing the head frame by one of the same colour whose far nephew is
RED, when the old far nephew was BLACK, strictly decreases the measure
(Case Five of the double-black fixup). -/
theorem dbMeasure_case5 (f f2 : Frame) (rest : Path) (hc : f2.color = f.color)
    (hold : colorOf (farNephew f) = .black) (hnew : colorOf (farNephew f2) = .red) :
    dbMeasure (f2 :: rest) < dbMeasure (f :: rest) := by
  simp [dbMeasure, hc, hnew, hold]

/-- The double-black recursion is insensitive to any budget above its
measure: the budget chosen in `double_black` therefore computes the same
result as the unbounded C recursion. -/
theorem dbGo_congr : ∀ {n : Nat} {m : Nat} {focus : Tree} {p : Path},
    dbMeasure p < n → dbMeasure p < m → dbGo n focus p = dbGo m focus p := by
  intro n
  induction n with
  | zero => intro m focus p hn; omega
  | succ n ih =>
    intro m focus p hn hm
    match m with
    | 0 => omega
    | m + 1 =>
      match p with
      | [] => rfl
      | f :: rest =>
        rw [dbGo, dbGo]
        cases hs : f.sibling with
        | nil => rfl
        | node sc sk sv sl sr =>
          have hmf : dbMeasure (f :: rest) ≤ n := by omega
          have hmf2 : dbMeasure (f :: rest) ≤ m := by omega
          have hfar : farNephew f = if f.dir then sl else sr := by
            rw [farNephew, hs]
          cases hd : f.dir with
          | false =>
            simp only [hd, Bool.false_eq_true, if_false] at hfar ⊢
            split_ifs with h2 h3 h4 h5
            · have hlt := dbMeasure_case2 f rest false sk sv sl sr h2.1
              exact ih (Nat.lt_of_lt_of_le hlt hmf) (Nat.lt_of_lt_of_le hlt hmf2)
            · cases rest with
              | nil => rfl
              | cons g rest2 =>
                rw [ih (Nat.lt_of_lt_of_le (dbMeasure_case3 f g rest2 h3.1) hmf)
                    (Nat.lt_of_lt_of_le (dbMeasure_case3 f g rest2 h3.1) hmf2)]
            · rfl
            · cases hnc : sl with
              | nil => rfl
              | node nco nk nv nl nr =>
                have hdec : dbMeasure (⟨false, f.color, f.key, f.value,
                    Tree.node .black nk nv nl (.node .red sk sv nr sr)⟩ :: rest) <
                    dbMeasure (f :: rest) := by
                  refine dbMeasure_case5 f _ rest rfl ?_ ?_
                  · rw [hfar]; exact h5.2
                  · simp [farNephew, colorOf]
                exact ih (Nat.lt_of_lt_of_le hdec hmf) (Nat.lt_of_lt_of_le hdec hmf2)
            · rfl
            · rfl
          | true =>
            simp only [hd, if_true] at hfar ⊢
            split_ifs with h2 h3 h4 h5
            · have hlt := dbMeasure_case2 f rest true sk sv sr sl h2.1
              exact ih (Nat.lt_of_lt_of_le hlt hmf) (Nat.lt_of_lt_of_le hlt hmf2)
            · cases rest with
              | nil => rfl
              | cons g rest2 =>
                rw [ih (Nat.lt_of_lt_of_le (dbMeasure_case3 f g rest2 h3.1) hmf)
                    (Nat.lt_of_lt_of_le (dbMeasure_case3 f g rest2 h3.1) hmf2)]
            · rfl
            · cases hnc : sr with
              | nil => rfl
              | node nco nk nv nl nr =>
                have hdec : dbMeasure (⟨true, f.color, f.key, f.value,
                    Tree.node .black nk nv (.node .red sk sv sl nl) nr⟩ :: rest) <
                    dbMeasure (f :: rest) := by
                  refine dbMeasure_case5 f _ rest rfl ?_ ?_
                  · rw [hfar]; exact h5.2
                  · simp [farNephew, colorOf]
                exact ih (Nat.lt_of_lt_of_le hdec hmf) (Nat.lt_of_lt_of_le hdec hmf2)
            · rfl
            · rfl

/-- The double-black fixup only rotates and recolours ancestors and never
touches the focused subtree, so the in-order entries on each side of the
focus are unchanged. -/
theorem dbGo_pre_post : ∀ {n : Nat} {focus : Tree} {p p2 : Path},
    dbGo n focus p = some p2 → pathPre p2 = pathPre p ∧ pathPost p2 = pathPost p := by
  intro n
  induction n with
  | zero => intro focus p p2 h; exact Option.noConfusion h
  | succ n ih =>
    intro focus p p2 h
    match p with
    | [] => exact Option.noConfusion h
    | f :: rest =>
      rw [dbGo] at h
      cases hs : f.sibling with
      | nil => rw [hs] at h; exact Option.noConfusion h
      | node sc sk sv sl sr =>
        rw [hs] at h
        cases hd : f.dir with
        | false =>
          simp only [hd, Bool.false_eq_true, if_false] at h
          split_ifs at h with h2 h3 h4 h5
          · obtain ⟨hpre, hpost⟩ := ih h
            rw [hpre, hpost]
            simp [pathPre, pathPost, hs, hd, inorderKV]
          · cases rest with
            | nil =>
              obtain rfl := Option.some.inj h
              simp [pathPre, pathPost, hs, hd, inorderKV]
            | cons g rest2 =>
              dsimp only at h
              cases hin : dbGo n (plugFrame focus
                  ⟨false, f.color, f.key, f.value, Tree.node .red sk sv sl sr⟩)
                  (g :: rest2) with
              | none => rw [hin] at h; exact Option.noConfusion h
              | some path2 =>
                rw [hin] at h
                obtain rfl := Option.some.inj h
                obtain ⟨hpre, hpost⟩ := ih hin
                simp [pathPre, pathPost, hs, hd, inorderKV, hpre, hpost]
          · obtain rfl := Option.some.inj h
            simp [pathPre, pathPost, hs, hd, inorderKV]
          · cases hnc : sl with
            | nil => rw [hnc] at h; exact Option.noConfusion h
            | node nco nk nv nl nr =>
              rw [hnc] at h
              obtain ⟨hpre, hpost⟩ := ih h
              rw [hpre, hpost]
              simp_all [pathPre, pathPost, inorderKV]
          · cases hnf : sr with
            | nil => rw [hnf] at h; exact Option.noConfusion h
            | node fc fk fv fl fr =>
              rw [hnf] at h
              obtain rfl := Option.some.inj h
              simp_all [pathPre, pathPost, inorderKV]
          · cases hnf : sr with
            | nil => rw [hnf] at h; exact Option.noConfusion h
            | node fc fk fv fl fr =>
              rw [hnf] at h
              obtain rfl := Option.some.inj h
              simp_all [pathPre, pathPost, inorderKV]
        | true =>
          simp only [hd, if_true] at h
          split_ifs at h with h2 h3 h4 h5
          · obtain ⟨hpre, hpost⟩ := ih h
            rw [hpre, hpost]
            simp [pathPre, pathPost, hs, hd, inorderKV]
          · cases rest with
            | nil =>
              obtain rfl := Option.some.inj h
              simp [pathPre, pathPost, hs, hd, inorderKV]
            | cons g rest2 =>
              dsimp only at h
              cases hin : dbGo n (plugFrame focus
                  ⟨true, f.color, f.key, f.value, Tree.node .red sk sv sl sr⟩)
                  (g :: rest2) with
              | none => rw [hin] at h; exact Option.noConfusion h
              | some path2 =>
                rw [hin] at h
                obtain rfl := Option.some.inj h
                obtain ⟨hpre, hpost⟩ := ih hin
                simp [pathPre, pathPost, hs, hd, inorderKV, hpre, hpost]
          · obtain rfl := Option.some.inj h
            simp [pathPre, pathPost, hs, hd, inorderKV]
          · cases hnc : sr with
            | nil => rw [hnc] at h; exact Option.noConfusion h
            | node nco nk nv nl nr =>
              rw [hnc] at h
              obtain ⟨hpre, hpost⟩ := ih h
              rw [hpre, hpost]
              simp_all [pathPre, pathPost, inorderKV]
          · cases hnf : sl with
            | nil => rw [hnf] at h; exact Option.noConfusion h
            | node fc fk fv fl fr =>
              rw [hnf] at h
              obtain rfl := Option.some.inj h
              simp_all [pathPre, pathPost, inorderKV]
          · cases hnf : sl with
            | nil => rw [hnf] at h; exact Option.noConfusion h
            | node fc fk fv fl fr =>
              rw [hnf] at h
              obtain rfl := Option.some.inj h
              simp_all [pathPre, pathPost, inorderKV]

/-- `double_black` lifted version of `dbGo_pre_post`. -/
theorem double_black_pre_post {focus : Tree} {p p2 : Path}
    (h : double_black focus p = some p2) :
    pathPre p2 = pathPre p ∧ pathPost p2 = pathPost p :=
  dbGo_pre_post h

/-! ## The binary search and the order invariant -/

theorem forallT_iff_mem {p : Ptr → Ptr → Prop} {t : Tree} :
    ForallT p t ↔ ∀ kv ∈ inorderKV t, p kv.1 kv.2 := by
  induction t with
  | nil =>
    constructor
    · intro _ kv hkv; simp [inorderKV] at hkv
    · intro _; exact ForallT.nil
  | node c k v l r ihl ihr =>
    constructor
    · intro hf kv hkv
      cases hf with
      | node hl hk hr =>
        simp only [inorderKV, List.mem_append, List.mem_cons] at hkv
        rcases hkv with h | h | h
        · exact ihl.1 hl kv h
        · cases h; exact hk
        · exact ihr.1 hr kv h
    · intro hmem
      refine ForallT.node (ihl.2 fun kv h => hmem kv ?_)
        (hmem (k, v) (by simp [inorderKV]))
        (ihr.2 fun kv h => hmem kv ?_) <;>
        simp [inorderKV, h]

theorem plugFrame_color (x : Tree) (g : Frame) : colorOf (plugFrame x g) = g.color := by
  cases hd : g.dir <;> simp [plugFrame, hd, colorOf]

theorem plug_getLast_color : ∀ {frames : Path} {x t : Tree} {g : Frame},
    plug x frames = t → frames.getLast? = some g → colorOf t = g.color := by
  intro frames
  induction frames with
  | nil => intro x t g _ hg; exact absurd hg (by simp)
  | cons f rest ih =>
    intro x t g hp hg
    cases rest with
    | nil =>
      have hfg : f = g := by simpa using hg
      subst hfg
      exact hp ▸ plugFrame_color x f
    | cons f2 rest2 =>
      rw [List.getLast?_cons_cons] at hg
      exact ih hp hg

theorem bsearch_spec {cmp : Ptr → Ptr → Int} {key : Ptr} :
    ∀ {t : Tree} {p : Path} {loc : Loc} {c : Int},
      bsearch cmp key t p = some (loc, c) →
      ∃ frames, loc.path = frames ++ p ∧ plug loc.tree frames = t ∧
        c = (if key = loc.key then 0 else cmp key loc.key) ∧
        (c < 0 → loc.left = .nil) ∧ (0 < c → loc.right = .nil) := by
  intro t
  induction t with
  | nil => intro p loc c h; exact Option.noConfusion h
  | node tc tk tv l r ihl ihr =>
    intro p loc c h
    rw [bsearch] at h
    by_cases h1 : (if key = tk then (0 : Int) else cmp key tk) < 0 ∧ l ≠ .nil
    · rw [if_pos h1] at h
      obtain ⟨frames, hpath, hplug, hc, hlt, hgt⟩ := ihl h
      exact ⟨frames ++ [⟨false, tc, tk, tv, r⟩], by simp [hpath],
        by rw [plug_append, hplug]; rfl, hc, hlt, hgt⟩
    · rw [if_neg h1] at h
      by_cases h2 : 0 < (if key = tk then (0 : Int) else cmp key tk) ∧ r ≠ .nil
      · rw [if_pos h2] at h
        obtain ⟨frames, hpath, hplug, hc, hlt, hgt⟩ := ihr h
        exact ⟨frames ++ [⟨true, tc, tk, tv, l⟩], by simp [hpath],
          by rw [plug_append, hplug]; rfl, hc, hlt, hgt⟩
      · rw [if_neg h2] at h
        obtain ⟨rfl, rfl⟩ : (⟨tc, tk, tv, l, r, p⟩ : Loc) = loc ∧
            (if key = tk then (0 : Int) else cmp key tk) = c := by
          have := Prod.mk.injEq .. ▸ Option.some.inj h
          exact ⟨this.1, this.2⟩
        refine ⟨[], rfl, rfl, rfl, fun hc => ?_, fun hc => ?_⟩
        · by_contra hne
          exact h1 ⟨hc, hne⟩
        · by_contra hne
          exact h2 ⟨hc, hne⟩

/-- A successful search with `compared = 0` found a comparator-equal stored
entry. -/
theorem bsearch_found_mem {cmp : Ptr → Ptr → Int} {key : Ptr} {t : Tree} {p : Path}
    {loc : Loc} (hL : CmpLawful cmp) (h : bsearch cmp key t p = some (loc, 0)) :
    cmp key loc.key = 0 ∧ (loc.key, loc.value) ∈ inorderKV t := by
  obtain ⟨frames, _, hplug, hc, _, _⟩ := bsearch_spec h
  constructor
  · by_cases hk : key = loc.key
    · rw [hk]; exact hL.refl _
    · rw [if_neg hk] at hc; omega
  · rw [← hplug, inorder_plug]
    simp [Loc.tree, inorderKV]

/-- A search that ends with `compared ≠ 0` means no stored key is
comparator-equal to the searched key. -/
theorem bsearch_miss {cmp : Ptr → Ptr → Int} {key : Ptr} (hL : CmpLawful cmp) :
    ∀ {t : Tree} {p : Path} {loc : Loc} {c : Int}, Ordered cmp t →
      bsearch cmp key t p = some (loc, c) → c ≠ 0 →
      ∀ kv ∈ inorderKV t, cmp key kv.1 ≠ 0 := by
  intro t
  induction t with
  | nil => intro p loc c _ h; exact absurd h (by simp [bsearch])
  | node tc tk tv l r ihl ihr =>
    intro p loc c hord h hc0
    obtain ⟨hfl, hfr, hol, hor⟩ :
        ForallT (fun a _ => cmp a tk < 0) l ∧ ForallT (fun a _ => cmp tk a < 0) r ∧
          Ordered cmp l ∧ Ordered cmp r := by
      cases hord with
      | node hfl hfr hol hor => exact ⟨hfl, hfr, hol, hor⟩
    have hkey_root : ∀ c1 : Int, (if key = tk then (0 : Int) else cmp key tk) = c1 →
        c1 ≠ 0 → cmp key tk ≠ 0 := by
      intro c1 hc1 hne
      by_cases hk : key = tk
      · rw [if_pos hk] at hc1; omega
      · rw [if_neg hk] at hc1; omega
    have hcross_r : cmp key tk < 0 → ∀ kv ∈ inorderKV r, cmp key kv.1 ≠ 0 := by
      intro hlt kv hkv heq
      have h1 : cmp tk kv.1 < 0 := (forallT_iff_mem.1 hfr) kv hkv
      have h2 : cmp key tk = cmp kv.1 tk := hL.compat key kv.1 tk heq
      have h3 : cmp kv.1 tk > 0 := (hL.asymm tk kv.1).1 h1
      omega
    have hcross_l : 0 < cmp key tk → ∀ kv ∈ inorderKV l, cmp key kv.1 ≠ 0 := by
      intro hlt kv hkv heq
      have h1 : cmp kv.1 tk < 0 := (forallT_iff_mem.1 hfl) kv hkv
      have h2 : cmp key tk = cmp kv.1 tk := hL.compat key kv.1 tk heq
      omega
    rw [bsearch] at h
    by_cases h1 : (if key = tk then (0 : Int) else cmp key tk) < 0 ∧ l ≠ .nil
    · rw [if_pos h1] at h
      have hklt : cmp key tk < 0 := by
        rcases h1 with ⟨h1a, -⟩
        by_cases hk : key = tk
        · rw [if_pos hk] at h1a; omega
        · rw [if_neg hk] at h1a; exact h1a
      intro kv hkv
      simp only [inorderKV, List.mem_append, List.mem_cons] at hkv
      rcases hkv with hin | hin | hin
      · exact ihl hol h hc0 kv hin
      · cases hin; dsimp only; omega
      · exact hcross_r hklt kv hin
    · rw [if_neg h1] at h
      by_cases h2 : 0 < (if key = tk then (0 : Int) else cmp key tk) ∧ r ≠ .nil
      · rw [if_pos h2] at h
        have hkgt : 0 < cmp key tk := by
          rcases h2 with ⟨h2a, -⟩
          by_cases hk : key = tk
          · rw [if_pos hk] at h2a; omega
          · rw [if_neg hk] at h2a; exact h2a
        intro kv hkv
        simp only [inorderKV, List.mem_append, List.mem_cons] at hkv
        rcases hkv with hin | hin | hin
        · exact hcross_l hkgt kv hin
        · cases hin; dsimp only; omega
        · exact ihr hor h hc0 kv hin
      · rw [if_neg h2] at h
        have hc : (if key = tk then (0 : Int) else cmp key tk) = c := by
          have := Prod.mk.injEq .. ▸ Option.some.inj h
          exact this.2
        have hroot := hkey_root c hc hc0
        have hcval : cmp key tk = c := by
          by_cases hk : key = tk
          · rw [if_pos hk] at hc
            exact absurd (hk ▸ hL.refl key) hroot
          · rw [if_neg hk] at hc; exact hc
        intro kv hkv
        simp only [inorderKV, List.mem_append, List.mem_cons] at hkv
        rcases hkv with hin | hin | hin
        · rcases Int.lt_or_lt_of_ne hc0 with hneg | hpos
          · have hlnil : l = .nil := by
              by_contra hne
              exact h1 ⟨by rw [hc]; omega, hne⟩
            rw [hlnil] at hin
            simp [inorderKV] at hin
          · exact hcross_l (by omega) kv hin
        · cases hin; exact hroot
        · rcases Int.lt_or_lt_of_ne hc0 with hneg | hpos
          · exact hcross_r (by omega) kv hin
          · have hrnil : r = .nil := by
              by_contra hne
              exact h2 ⟨by rw [hc]; omega, hne⟩
            rw [hrnil] at hin
            simp [inorderKV] at hin

/-- A comparator-equal stored entry is always found by the search. -/
theorem bsearch_found_of_mem {cmp : Ptr → Ptr → Int} {key k0 v0 : Ptr}
    (hL : CmpLawful cmp) :
    ∀ {t : Tree} {p : Path}, Ordered cmp t → (k0, v0) ∈ inorderKV t →
      cmp key k0 = 0 →
      ∃ loc : Loc, bsearch cmp key t p = some (loc, 0) ∧ loc.key = k0 ∧ loc.value = v0 := by
  intro t
  induction t with
  | nil => intro p _ hmem; simp [inorderKV] at hmem
  | node tc tk tv l r ihl ihr =>
    intro p hord hmem hkey
    obtain ⟨hfl, hfr, hol, hor⟩ :
        ForallT (fun a _ => cmp a tk < 0) l ∧ ForallT (fun a _ => cmp tk a < 0) r ∧
          Ordered cmp l ∧ Ordered cmp r := by
      cases hord with
      | node hfl hfr hol hor => exact ⟨hfl, hfr, hol, hor⟩
    simp only [inorderKV, List.mem_append, List.mem_cons] at hmem
    rcases hmem with hin | hin | hin
    · have hk0 : cmp k0 tk < 0 := (forallT_iff_mem.1 hfl) (k0, v0) hin
      have hklt : cmp key tk < 0 := by rw [hL.compat key k0 tk hkey]; exact hk0
      have hkne : key ≠ tk := by
        intro hk; rw [hk] at hklt; have := hL.refl tk; omega
      have hlne : l ≠ .nil := by
        intro hl; rw [hl] at hin; simp [inorderKV] at hin
      rw [bsearch, if_pos (by rw [if_neg hkne]; exact ⟨hklt, hlne⟩)]
      exact ihl hol hin hkey
    · rw [Prod.mk.injEq] at hin
      obtain ⟨h1, h2⟩ := hin
      subst h1; subst h2
      have hc0 : (if key = k0 then (0 : Int) else cmp key k0) = 0 := by
        by_cases hk : key = k0
        · rw [if_pos hk]
        · rw [if_neg hk]; exact hkey
      rw [bsearch]
      rw [if_neg (by rw [hc0]; simp), if_neg (by rw [hc0]; simp)]
      exact ⟨⟨tc, k0, v0, l, r, p⟩, by rw [hc0], rfl, rfl⟩
    · have hk0 : cmp tk k0 < 0 := (forallT_iff_mem.1 hfr) (k0, v0) hin
      have hkgt : 0 < cmp key tk := by
        have h2 : cmp key tk = cmp k0 tk := hL.compat key k0 tk hkey
        have h3 : cmp k0 tk > 0 := (hL.asymm tk k0).1 hk0
        omega
      have hkne : key ≠ tk := by
        intro hk; rw [hk] at hkgt; have := hL.refl tk; omega
      have hrne : r ≠ .nil := by
        intro hr; rw [hr] at hin; simp [inorderKV] at hin
      rw [bsearch, if_neg (by rw [if_neg hkne]; omega),
        if_pos (by rw [if_neg hkne]; exact ⟨hkgt, hrne⟩)]
      exact ihr hor hin hkey

/-- The tree-structural order invariant is equivalent to strict sortedness of
the in-order sequence. -/
theorem ordered_iff_pairwise {cmp : Ptr → Ptr → Int} (hL : CmpLawful cmp) : ∀ {t : Tree},
    Ordered cmp t ↔ List.Pairwise (fun a b : Ptr × Ptr => cmp a.1 b.1 < 0) (inorderKV t) := by
  intro t
  induction t with
  | nil => simp [inorderKV]; exact Ordered.nil
  | node c k v l r ihl ihr =>
    rw [inorderKV, List.pairwise_append, List.pairwise_cons]
    constructor
    · intro hord
      cases hord with
      | node hfl hfr hol hor =>
        refine ⟨ihl.1 hol, ⟨fun b hb => (forallT_iff_mem.1 hfr) b hb, ihr.1 hor⟩,
          fun a ha b hb => ?_⟩
        have h1 : cmp a.1 k < 0 := (forallT_iff_mem.1 hfl) a ha
        rcases List.mem_cons.1 hb with rfl | hb2
        · exact h1
        · exact hL.lt_trans _ _ _ h1 ((forallT_iff_mem.1 hfr) b hb2)
    · rintro ⟨hpl, ⟨hk, hpr⟩, hcross⟩
      refine Ordered.node (forallT_iff_mem.2 fun kv h => ?_)
        (forallT_iff_mem.2 fun kv h => hk kv h) (ihl.2 hpl) (ihr.2 hpr)
      exact hcross kv h (k, v) (List.mem_cons_self _ _)

/-- The executable sortedness check agrees with `List.Pairwise`. -/
theorem keysSorted_iff_pairwise {cmp : Ptr → Ptr → Int} (hL : CmpLawful cmp) :
    ∀ {l : List Ptr}, keysSorted cmp l = true ↔ List.Pairwise (fun a b => cmp a b < 0) l := by
  intro l
  induction l with
  | nil => simp [keysSorted]
  | cons a t ih =>
    cases t with
    | nil => simp [keysSorted]
    | cons b t2 =>
      rw [keysSorted, Bool.and_eq_true, decide_eq_true_iff, ih]
      constructor
      · rintro ⟨hab, hp⟩
        have hb := (List.pairwise_cons.1 hp).1
        refine List.pairwise_cons.2 ⟨fun x hx => ?_, hp⟩
        rcases List.mem_cons.1 hx with rfl | hx2
        · exact hab
        · exact hL.lt_trans _ _ _ hab (hb x hx2)
      · intro hp
        exact ⟨(List.pairwise_cons.1 hp).1 b (List.mem_cons_self _ _),
          (List.pairwise_cons.1 hp).2⟩

/-- Entries of `modelInsert` come from the original list, or carry the new
value under the new key or an old key. -/
theorem modelInsert_mem {cmp : Ptr → Ptr → Int} {k v : Ptr} :
    ∀ {L : List (Ptr × Ptr)} {kv : Ptr × Ptr}, kv ∈ modelInsert cmp k v L →
      kv ∈ L ∨ kv.2 = v ∧ (kv.1 = k ∨ kv.1 ∈ L.map Prod.fst) := by
  intro L
  induction L with
  | nil =>
    intro kv h
    simp [modelInsert] at h
    subst h
    exact Or.inr ⟨rfl, Or.inl rfl⟩
  | cons ab t ih =>
    intro kv h
    obtain ⟨a, b⟩ := ab
    rw [modelInsert] at h
    split_ifs at h with h1 h2
    · rcases List.mem_cons.1 h with rfl | h3
      · exact Or.inr ⟨rfl, Or.inr (by simp)⟩
      · exact Or.inl (List.mem_cons_of_mem _ h3)
    · rcases List.mem_cons.1 h with rfl | h3
      · exact Or.inr ⟨rfl, Or.inl rfl⟩
      · exact Or.inl h3
    · rcases List.mem_cons.1 h with rfl | h3
      · exact Or.inl (List.mem_cons_self _ _)
      · rcases ih h3 with h4 | ⟨h4, h5⟩
        · exact Or.inl (List.mem_cons_of_mem _ h4)
        · exact Or.inr ⟨h4, h5.imp id (by simp; tauto)⟩

/-- `modelInsert` preserves strict sortedness. -/
theorem modelInsert_sorted {cmp : Ptr → Ptr → Int} {k v : Ptr} (hL : CmpLawful cmp) :
    ∀ {L : List (Ptr × Ptr)},
      List.Pairwise (fun a b : Ptr × Ptr => cmp a.1 b.1 < 0) L →
      List.Pairwise (fun a b : Ptr × Ptr => cmp a.1 b.1 < 0) (modelInsert cmp k v L) := by
  intro L
  induction L with
  | nil => intro _; simp [modelInsert]
  | cons ab t ih =>
    intro hp
    obtain ⟨a, b⟩ := ab
    rw [List.pairwise_cons] at hp
    obtain ⟨ha, hp⟩ := hp
    rw [modelInsert]
    split_ifs with h1 h2
    · exact List.pairwise_cons.2 ⟨ha, hp⟩
    · refine List.pairwise_cons.2 ⟨fun x hx => ?_, List.pairwise_cons.2 ⟨ha, hp⟩⟩
      rcases List.mem_cons.1 hx with rfl | hx2
      · exact h2
      · exact hL.lt_trans _ _ _ h2 (ha x hx2)
    · refine List.pairwise_cons.2 ⟨fun x hx => ?_, ih hp⟩
      have hka : 0 < cmp k a := by
        rcases Int.lt_trichotomy (cmp k a) 0 with hlt | heq | hgt
        · exact absurd hlt h2
        · exact absurd (Or.inr heq) h1
        · exact hgt
      have hak : cmp a k < 0 := (hL.asymm a k).2 hka
      rcases modelInsert_mem hx with hx2 | ⟨_, hx3 | hx3⟩
      · exact ha x hx2
      · rw [hx3]; exact hak
      · simp only [List.mem_map] at hx3
        obtain ⟨y, hy, hyx⟩ := hx3
        have := ha y hy
        rw [← hyx]
        exact this

/-- Deleting is a sublist operation. -/
theorem modelDelete_sublist {cmp : Ptr → Ptr → Int} {k : Ptr} :
    ∀ {L : List (Ptr × Ptr)}, List.Sublist (modelDelete cmp k L) L := by
  intro L
  induction L with
  | nil => exact List.Sublist.refl _
  | cons ab t ih =>
    obtain ⟨a, b⟩ := ab
    rw [modelDelete]
    split_ifs with h1
    · exact List.Sublist.cons _ (List.Sublist.refl t)
    · exact List.Sublist.cons₂ _ ih

/-- Inserting below an entry that compares greater stays on the left of it. -/
theorem modelInsert_lt_append {cmp : Ptr → Ptr → Int} {k v x w : Ptr}
    (hne : k ≠ x) (hlt : cmp k x < 0) :
    ∀ (A B : List (Ptr × Ptr)),
      modelInsert cmp k v (A ++ (x, w) :: B) = modelInsert cmp k v A ++ (x, w) :: B := by
  intro A
  induction A with
  | nil =>
    intro B
    have hnm : ¬(k = x ∨ cmp k x = 0) := by
      rintro (rfl | h0)
      · exact hne rfl
      · rw [h0] at hlt; exact absurd hlt (by norm_num)
    rw [List.nil_append]
    simp only [modelInsert]
    rw [if_neg hnm, if_pos hlt]
    rfl
  | cons ab t ih =>
    intro B
    obtain ⟨a, b⟩ := ab
    rw [List.cons_append, modelInsert, modelInsert]
    split_ifs <;> simp [ih]

/-- Inserting passes over entries it neither matches nor precedes. -/
theorem modelInsert_skip {cmp : Ptr → Ptr → Int} {k v : Ptr} :
    ∀ {A B : List (Ptr × Ptr)},
      (∀ a ∈ A, ¬(k = a.1 ∨ cmp k a.1 = 0) ∧ ¬(cmp k a.1 < 0)) →
      modelInsert cmp k v (A ++ B) = A ++ modelInsert cmp k v B := by
  intro A
  induction A with
  | nil => intro B _; rfl
  | cons ab t ih =>
    intro B hA
    obtain ⟨a, b⟩ := ab
    obtain ⟨hm, hl⟩ := hA (a, b) (List.mem_cons_self _ _)
    rw [List.cons_append, modelInsert, if_neg hm, if_neg hl, List.cons_append,
      ih fun y hy => hA y (List.mem_cons_of_mem _ hy)]

/-- Deleting removes the first matching entry. -/
theorem modelDelete_of_match {cmp : Ptr → Ptr → Int} {k k1 v1 : Ptr}
    (hk : k = k1 ∨ cmp k k1 = 0) :
    ∀ {P Q : List (Ptr × Ptr)}, (∀ a ∈ P, ¬(k = a.1 ∨ cmp k a.1 = 0)) →
      modelDelete cmp k (P ++ (k1, v1) :: Q) = P ++ Q := by
  intro P
  induction P with
  | nil => intro Q _; rw [List.nil_append, modelDelete, if_pos hk]; rfl
  | cons ab t ih =>
    intro Q hP
    obtain ⟨a, b⟩ := ab
    rw [List.cons_append, modelDelete, if_neg (hP (a, b) (List.mem_cons_self _ _)),
      List.cons_append, ih fun y hy => hP y (List.mem_cons_of_mem _ hy)]

/-- Deleting without any matching entry is the identity. -/
theorem modelDelete_of_nomatch {cmp : Ptr → Ptr → Int} {k : Ptr} :
    ∀ {L : List (Ptr × Ptr)}, (∀ a ∈ L, ¬(k = a.1 ∨ cmp k a.1 = 0)) →
      modelDelete cmp k L = L := by
  intro L
  induction L with
  | nil => intro _; rfl
  | cons ab t ih =>
    intro hL2
    obtain ⟨a, b⟩ := ab
    rw [modelDelete, if_neg (hL2 (a, b) (List.mem_cons_self _ _)),
      ih fun y hy => hL2 y (List.mem_cons_of_mem _ hy)]

/-- Overwriting: with no match or insertion point in the prefix, the matching
entry's value is replaced in place, keeping the stored key. -/
theorem modelInsert_of_match {cmp : Ptr → Ptr → Int} {k v k1 v1 : Ptr}
    (hk : k = k1 ∨ cmp k k1 = 0) :
    ∀ {P Q : List (Ptr × Ptr)},
      (∀ a ∈ P, ¬(k = a.1 ∨ cmp k a.1 = 0) ∧ ¬(cmp k a.1 < 0)) →
      modelInsert cmp k v (P ++ (k1, v1) :: Q) = P ++ (k1, v) :: Q := by
  intro P
  induction P with
  | nil => intro Q _; rw [List.nil_append, modelInsert, if_pos hk]; rfl
  | cons ab t ih =>
    intro Q hP
    obtain ⟨a, b⟩ := ab
    obtain ⟨hm, hl⟩ := hP (a, b) (List.mem_cons_self _ _)
    rw [List.cons_append, modelInsert, if_neg hm, if_neg hl, List.cons_append,
      ih fun y hy => hP y (List.mem_cons_of_mem _ hy)]

theorem pathPre_append : ∀ (a b : Path), pathPre (a ++ b) = pathPre b ++ pathPre a := by
  intro a b
  induction a with
  | nil => simp [pathPre]
  | cons f p ih => simp [pathPre, ih]

theorem pathPost_append : ∀ (a b : Path), pathPost (a ++ b) = pathPost a ++ pathPost b := by
  intro a b
  induction a with
  | nil => simp [pathPost]
  | cons f p ih => simp [pathPost, ih]

/-- The binary search completes on every non-empty (sub)tree. -/
theorem bsearch_isSome {cmp : Ptr → Ptr → Int} {key : Ptr} :
    ∀ {t : Tree} {p : Path}, t ≠ .nil → (bsearch cmp key t p).isSome := by
  intro t
  induction t with
  | nil => intro p h; exact absurd rfl h
  | node c k v l r ihl ihr =>
    intro p _
    rw [bsearch]
    by_cases h1 : (if key = k then (0 : Int) else cmp key k) < 0 ∧ l ≠ .nil
    · rw [if_pos h1]; exact ihl h1.2
    · rw [if_neg h1]
      by_cases h2 : 0 < (if key = k then (0 : Int) else cmp key k) ∧ r ≠ .nil
      · rw [if_pos h2]; exact ihr h2.2
      · rw [if_neg h2]; rfl

/-- In an ordered tree the searched key compares above every in-order
predecessor of the final position and below every in-order successor. -/
theorem bsearch_window {cmp : Ptr → Ptr → Int} {key : Ptr} (hL : CmpLawful cmp) :
    ∀ {t : Tree} {p : Path} {loc : Loc} {c : Int}, Ordered cmp t →
      bsearch cmp key t p = some (loc, c) →
      ∃ frames, loc.path = frames ++ p ∧ plug loc.tree frames = t ∧
        (∀ kv ∈ pathPre frames, 0 < cmp key kv.1) ∧
        (∀ kv ∈ pathPost frames, cmp key kv.1 < 0) := by
  intro t
  induction t with
  | nil => intro p loc c _ h; exact Option.noConfusion h
  | node tc tk tv l r ihl ihr =>
    intro p loc c hord h
    obtain ⟨hfl, hfr, hol, hor⟩ :
        ForallT (fun a _ => cmp a tk < 0) l ∧ ForallT (fun a _ => cmp tk a < 0) r ∧
          Ordered cmp l ∧ Ordered cmp r := by
      cases hord with
      | node hfl hfr hol hor => exact ⟨hfl, hfr, hol, hor⟩
    rw [bsearch] at h
    by_cases h1 : (if key = tk then (0 : Int) else cmp key tk) < 0 ∧ l ≠ .nil
    · rw [if_pos h1] at h
      have hklt : cmp key tk < 0 := by
        rcases h1 with ⟨h1a, -⟩
        by_cases hk : key = tk
        · rw [if_pos hk] at h1a; omega
        · rw [if_neg hk] at h1a; exact h1a
      obtain ⟨frames, hpath, hplug, hpre, hpost⟩ := ihl hol h
      refine ⟨frames ++ [⟨false, tc, tk, tv, r⟩], by simp [hpath],
        by rw [plug_append, hplug]; rfl, ?_, ?_⟩
      · intro kv hkv
        rw [pathPre_append] at hkv
        simp only [pathPre, List.append_nil, List.nil_append] at hkv
        exact hpre kv hkv
      · intro kv hkv
        rw [pathPost_append] at hkv
        simp only [pathPost, List.append_nil] at hkv
        rcases List.mem_append.1 hkv with hin | hin
        · exact hpost kv hin
        · rcases List.mem_cons.1 hin with rfl | hin2
          · exact hklt
          · exact hL.lt_trans _ _ _ hklt ((forallT_iff_mem.1 hfr) kv hin2)
    · rw [if_neg h1] at h
      by_cases h2 : 0 < (if key = tk then (0 : Int) else cmp key tk) ∧ r ≠ .nil
      · rw [if_pos h2] at h
        have hkgt : 0 < cmp key tk := by
          rcases h2 with ⟨h2a, -⟩
          by_cases hk : key = tk
          · rw [if_pos hk] at h2a; omega
          · rw [if_neg hk] at h2a; exact h2a
        obtain ⟨frames, hpath, hplug, hpre, hpost⟩ := ihr hor h
        refine ⟨frames ++ [⟨true, tc, tk, tv, l⟩], by simp [hpath],
          by rw [plug_append, hplug]; rfl, ?_, ?_⟩
        · intro kv hkv
          rw [pathPre_append] at hkv
          simp only [pathPre, List.nil_append] at hkv
          rcases List.mem_append.1 hkv with hin | hin
          · rcases List.mem_append.1 hin with hin2 | hin2
            · have hlt : cmp kv.1 tk < 0 := (forallT_iff_mem.1 hfl) kv hin2
              have htk : cmp tk key < 0 := (hL.asymm tk key).2 hkgt
              exact (hL.asymm kv.1 key).1 (hL.lt_trans _ _ _ hlt htk)
            · rcases List.mem_singleton.1 hin2 with rfl
              exact hkgt
          · exact hpre kv hin
        · intro kv hkv
          rw [pathPost_append] at hkv
          rcases List.mem_append.1 hkv with hin | hin
          · exact hpost kv hin
          · exact absurd hin (by simp [pathPost])
      · rw [if_neg h2] at h
        obtain ⟨rfl, -⟩ : (⟨tc, tk, tv, l, r, p⟩ : Loc) = loc ∧
            (if key = tk then (0 : Int) else cmp key tk) = c := by
          have := Prod.mk.injEq .. ▸ Option.some.inj h
          exact ⟨this.1, this.2⟩
        exact ⟨[], rfl, rfl, by simp [pathPre], by simp [pathPost]⟩

/-- The subtree in focus of an ordered zipper is itself ordered. -/
theorem ordered_plug_down {cmp : Ptr → Ptr → Int} :
    ∀ {p : Path} {x : Tree}, Ordered cmp (plug x p) → Ordered cmp x := by
  intro p
  induction p with
  | nil => intro x h; exact h
  | cons f rest ih =>
    intro x h
    have h2 : Ordered cmp (plugFrame x f) := ih h
    rw [plugFrame] at h2
    split_ifs at h2 <;> cases h2 with
    | node hfl hfr hol hor => first | exact hor | exact hol

theorem eraseVals_plugFrame_congr {x y : Tree} (f : Frame)
    (h : eraseVals x = eraseVals y) :
    eraseVals (plugFrame x f) = eraseVals (plugFrame y f) := by
  rw [plugFrame, plugFrame]
  split_ifs <;> simp [eraseVals, h]

theorem eraseVals_plug_congr : ∀ {p : Path} {x y : Tree}, eraseVals x = eraseVals y →
    eraseVals (plug x p) = eraseVals (plug y p) := by
  intro p
  induction p with
  | nil => intro x y h; exact h
  | cons f rest ih => intro x y h; exact ih (eraseVals_plugFrame_congr f h)

/-- With no matching entry and a comparator-smaller head (or no head at all),
`modelInsert` places the new entry in front. -/
theorem modelInsert_front {cmp : Ptr → Ptr → Int} {k v : Ptr} {B : List (Ptr × Ptr)}
    (h : ∀ b ∈ B.head?, ¬(k = b.1 ∨ cmp k b.1 = 0) ∧ cmp k b.1 < 0) :
    modelInsert cmp k v B = (k, v) :: B := by
  cases B with
  | nil => rfl
  | cons b t =>
    obtain ⟨hm, hl⟩ := h b rfl
    obtain ⟨a, b2⟩ := b
    rw [modelInsert, if_neg hm, if_pos hl]

/-- With no matching entry anywhere, the inserted pair is present
afterwards. -/
theorem modelInsert_self_mem {cmp : Ptr → Ptr → Int} {k v : Ptr} :
    ∀ {L : List (Ptr × Ptr)}, (∀ a ∈ L, ¬(k = a.1 ∨ cmp k a.1 = 0)) →
      (k, v) ∈ modelInsert cmp k v L := by
  intro L
  induction L with
  | nil => intro _; simp [modelInsert]
  | cons ab t ih =>
    intro h
    obtain ⟨a, b⟩ := ab
    rw [modelInsert, if_neg (h (a, b) (List.mem_cons_self _ _))]
    split_ifs with h2
    · exact List.mem_cons_self _ _
    · exact List.mem_cons_of_mem _ (ih fun y hy => h y (List.mem_cons_of_mem _ hy))

/-- With no matching entry anywhere, every old entry survives the insert. -/
theorem modelInsert_preserves {cmp : Ptr → Ptr → Int} {k v : Ptr} :
    ∀ {L : List (Ptr × Ptr)}, (∀ a ∈ L, ¬(k = a.1 ∨ cmp k a.1 = 0)) →
      ∀ kv ∈ L, kv ∈ modelInsert cmp k v L := by
  intro L
  induction L with
  | nil => intro _ kv h; exact absurd h (by simp)
  | cons ab t ih =>
    intro h kv hkv
    obtain ⟨a, b⟩ := ab
    rw [modelInsert, if_neg (h (a, b) (List.mem_cons_self _ _))]
    split_ifs with h2
    · exact List.mem_cons_of_mem _ hkv
    · rcases List.mem_cons.1 hkv with rfl | h3
      · exact List.mem_cons_self _ _
      · exact List.mem_cons_of_mem _
          (ih (fun y hy => h y (List.mem_cons_of_mem _ hy)) kv h3)

/-- With no matching entry, inserting grows the list by exactly one. -/
theorem modelInsert_length {cmp : Ptr → Ptr → Int} {k v : Ptr} :
    ∀ {L : List (Ptr × Ptr)}, (∀ a ∈ L, ¬(k = a.1 ∨ cmp k a.1 = 0)) →
      (modelInsert cmp k v L).length = L.length + 1 := by
  intro L
  induction L with
  | nil => intro _; rfl
  | cons ab t ih =>
    intro h
    obtain ⟨a, b⟩ := ab
    rw [modelInsert, if_neg (h (a, b) (List.mem_cons_self _ _))]
    split_ifs with h2
    · rfl
    · simp only [List.length_cons, ih fun y hy => h y (List.mem_cons_of_mem _ hy)]

/-- `Dictionary_compare` laws hold for the natural-number comparator. -/
theorem natCmp_lt {x y : Ptr} (h : natCmp x y < 0) : x < y := by
  by_contra hxy
  rw [natCmp, if_neg hxy] at h
  split_ifs at h <;> norm_num at h

theorem natCmp_lawful : CmpLawful natCmp := by
  constructor
  · intro a; simp [natCmp]
  · intro a b
    rcases Nat.lt_trichotomy a b with h | h | h
    · rw [natCmp, if_pos h, natCmp, if_neg (Nat.lt_asymm h),
        if_neg (Ne.symm (Nat.ne_of_lt h))]
      norm_num
    · subst h
      simp [natCmp]
    · rw [natCmp, if_neg (Nat.lt_asymm h), if_neg (Ne.symm (Nat.ne_of_lt h)),
        natCmp, if_pos h]
      norm_num
  · intro a b c h1 h2
    rw [natCmp, if_pos (Nat.lt_trans (natCmp_lt h1) (natCmp_lt h2))]
    norm_num
  · intro a b c h
    have hab : a = b := by
      by_cases h1 : a < b
      · rw [natCmp, if_pos h1] at h; norm_num at h
      · rw [natCmp, if_neg h1] at h
        by_cases h2 : a = b
        · exact h2
        · rw [if_neg h2] at h; norm_num at h
    rw [hab]

theorem rotateUp_color (c : Color) (k v : Ptr) (l r : Tree) (f : Frame) :
    colorOf (rotateUp (.node c k v l r) f) = c := by
  cases hfd : f.dir <;> simp [rotateUp, hfd, colorOf]

/-- The red-red fixup leaves a BLACK root when the bottom frame of the path
(the root of the whole tree) is BLACK. -/
theorem red_red_black {child : Tree} {p : Path} :
    ∀ {t : Tree}, red_red child p = some t →
      (∀ g ∈ p.getLast?, g.color = .black) → colorOf t = .black := by
  induction child, p using red_red.induct with
  | case1 child => intro t h _; exact Option.noConfusion h
  | case2 child f path hcol =>
    intro t h hlast
    rw [red_red.eq_def] at h
    simp only [if_pos hcol] at h
    obtain rfl := Option.some.inj h
    cases path with
    | nil => exact (plugFrame_color child f).trans (hlast f (by simp))
    | cons q qs =>
      obtain ⟨g, hg⟩ := Option.isSome_iff_exists.1
        (List.getLast?_isSome.2 (by simp) : (q :: qs).getLast?.isSome)
      exact (plug_getLast_color rfl hg).trans
        (hlast g (by rw [Option.mem_def, List.getLast?_cons_cons]; exact hg))
  | case3 child f hcol =>
    intro t h hlast
    rw [red_red.eq_def] at h
    simp only [if_neg hcol] at h
    exact Option.noConfusion h
  | case4 child f hcol g2 tail hred hnil =>
    intro t h hlast
    rw [hnil] at hred
    simp [colorOf] at hred
  | case5 child f hcol g2 hred uc uk uv ul ur hsib =>
    intro t h hlast
    rw [red_red.eq_def] at h
    rw [hsib] at hred
    simp only [if_neg hcol, hsib, if_pos hred] at h
    obtain rfl := Option.some.inj h
    have hg2 : g2.color = .black := hlast g2
      (by rw [Option.mem_def, List.getLast?_cons_cons]; simp)
    cases hgd : g2.dir <;> simp [colorOf, hgd, hg2]
  | case6 child f hcol g2 hred uc uk uv ul ur hsib uncleB parentB gtree h1 tail2 =>
    rename_i ih
    intro t h hlast
    rw [red_red.eq_def] at h
    rw [hsib] at hred
    simp only [if_neg hcol, hsib, if_pos hred] at h
    refine ih h fun g hg => hlast g ?_
    rw [Option.mem_def, List.getLast?_cons_cons, List.getLast?_cons_cons]
    exact Option.mem_def.1 hg
  | case7 f g2 tail hsibred hdir hcol =>
    intro t h hlast
    simp [colorOf] at hcol
  | case8 f g2 tail hsibred hdir cc ck cv cl cr hcol =>
    intro t h hlast
    rw [red_red.eq_def] at h
    simp only [if_neg hcol, if_neg hsibred, if_pos hdir] at h
    obtain rfl := Option.some.inj h
    cases tail with
    | nil =>
      cases hfd : f.dir <;> cases hgd : g2.dir <;>
        simp [plug, rotateUp, hfd, hgd, colorOf]
    | cons q qs =>
      obtain ⟨g3, hg3⟩ := Option.isSome_iff_exists.1
        (List.getLast?_isSome.2 (by simp) : (q :: qs).getLast?.isSome)
      exact (plug_getLast_color rfl hg3).trans (hlast g3
        (by rw [Option.mem_def, List.getLast?_cons_cons, List.getLast?_cons_cons]; exact hg3))
  | case9 child f hcol g2 tail hsibred hdir =>
    intro t h hlast
    rw [red_red.eq_def] at h
    simp only [if_neg hcol, if_neg hsibred, if_neg hdir] at h
    obtain rfl := Option.some.inj h
    cases tail with
    | nil =>
      have hfg : f.dir = g2.dir := not_not.mp hdir
      cases hgd : g2.dir <;> rw [hgd] at hfg <;>
        simp [plug, rotateUp, plugFrame, hfg, hgd, colorOf]
    | cons q qs =>
      obtain ⟨g3, hg3⟩ := Option.isSome_iff_exists.1
        (List.getLast?_isSome.2 (by simp) : (q :: qs).getLast?.isSome)
      exact (plug_getLast_color rfl hg3).trans (hlast g3
        (by rw [Option.mem_def, List.getLast?_cons_cons, List.getLast?_cons_cons]; exact hg3))

/-- The red-red fixup completes whenever its focus is a real node and the
bottom frame of the path is BLACK: none of the modelled assertions can
fire. -/
theorem red_red_isSome {child : Tree} {p : Path} :
    ∀ {g : Frame}, child ≠ .nil → p.getLast? = some g → g.color = .black →
      (red_red child p).isSome := by
  induction child, p using red_red.induct with
  | case1 child => intro g _ hg _; simp at hg
  | case2 child f path hcol =>
    intro g _ _ _
    rw [red_red.eq_def]
    simp only [if_pos hcol, Option.isSome_some]
  | case3 child f hcol =>
    intro g _ hg hb
    have hfg : f = g := by simpa using hg
    have hred := not_not.mp hcol
    rw [hfg] at hred
    rw [hred.2] at hb
    exact Color.noConfusion hb
  | case4 child f hcol g2 tail hred hnil =>
    intro g _ _ _
    rw [hnil] at hred
    simp [colorOf] at hred
  | case5 child f hcol g2 hred uc uk uv ul ur hsib =>
    intro g _ _ _
    rw [red_red.eq_def]
    rw [hsib] at hred
    simp only [if_neg hcol, hsib, if_pos hred, Option.isSome_some]
  | case6 child f hcol g2 hred uc uk uv ul ur hsib uncleB parentB gtree h1 tail2 =>
    rename_i ih
    intro g _ hg hb
    rw [red_red.eq_def]
    rw [hsib] at hred
    simp only [if_neg hcol, hsib, if_pos hred]
    refine ih ?_ ?_ hb
    · cases hgd : g2.dir <;> simp [gtree, uncleB, parentB, hgd]
    · rw [List.getLast?_cons_cons, List.getLast?_cons_cons] at hg
      exact hg
  | case7 f g2 tail hsibred hdir hcol =>
    intro g _ _ _
    simp [colorOf] at hcol
  | case8 f g2 tail hsibred hdir cc ck cv cl cr hcol =>
    intro g _ _ _
    rw [red_red.eq_def]
    simp only [if_neg hcol, if_neg hsibred, if_pos hdir, Option.isSome_some]
  | case9 child f hcol g2 tail hsibred hdir =>
    intro g _ _ _
    rw [red_red.eq_def]
    simp only [if_neg hcol, if_neg hsibred, if_neg hdir, Option.isSome_some]

/-- Master specification of one completed `dict_put` over an ordered tree:
the in-order sequence becomes `modelInsert`, order is preserved, and the call
either overwrote a matching entry in place (returning its old value, keeping
the stored key, the size and the whole node structure) or inserted a fresh
mapping (returning `NULL` and growing the size by one). -/
theorem dict_put_spec {cmp : Ptr → Ptr → Int} {d : Dict} {key value ret : Ptr} {d2 : Dict}
    (hL : CmpLawful cmp) (hord : Ordered cmp d.root)
    (h : dict_put cmp d key value = some (ret, d2)) :
    inorderKV d2.root = modelInsert cmp key value (inorderKV d.root) ∧
    Ordered cmp d2.root ∧
    ((∃ P Q k1, inorderKV d.root = P ++ (k1, ret) :: Q ∧
        inorderKV d2.root = P ++ (k1, value) :: Q ∧ (key = k1 ∨ cmp key k1 = 0) ∧
        d2.size = d.size ∧ eraseVals d2.root = eraseVals d.root) ∨
      (ret = 0 ∧ d2.size = d.size + 1 ∧
        ∀ kv ∈ inorderKV d.root, ¬(key = kv.1 ∨ cmp key kv.1 = 0))) := by
  rw [dict_put] at h
  by_cases h0 : key = 0 ∨ value = 0
  · rw [if_pos h0] at h; exact Option.noConfusion h
  rw [if_neg h0] at h
  cases hbs : bsearch cmp key d.root [] with
  | none =>
    rw [hbs] at h
    dsimp only at h
    obtain ⟨hret, hd2⟩ : (0 : Ptr) = ret ∧
        ({ root := .node .black key value .nil .nil, size := d.size + 1 } : Dict) = d2 := by
      have := Prod.mk.injEq .. ▸ Option.some.inj h
      exact ⟨this.1, this.2⟩
    subst hret; subst hd2
    have hroot : d.root = .nil := by
      by_contra hne
      have hs : (bsearch cmp key d.root []).isSome := bsearch_isSome hne
      rw [hbs] at hs
      simp at hs
    refine ⟨?_, ?_, Or.inr ⟨rfl, rfl, ?_⟩⟩
    · rw [hroot]; simp [inorderKV, modelInsert]
    · exact Ordered.node ForallT.nil ForallT.nil Ordered.nil Ordered.nil
    · rw [hroot]; simp [inorderKV]
  | some pr =>
    obtain ⟨loc, c⟩ := pr
    rw [hbs] at h
    dsimp only at h
    obtain ⟨frames, hpath, hplug, hpre, hpost⟩ := bsearch_window hL hord hbs
    rw [List.append_nil] at hpath
    obtain ⟨frames2, -, -, hcv, hlt0, hgt0⟩ := bsearch_spec hbs
    have hordloc : Ordered cmp (.node loc.color loc.key loc.value loc.left loc.right) := by
      have hx : Ordered cmp (plug loc.tree frames) := by rw [hplug]; exact hord
      exact ordered_plug_down hx
    obtain ⟨hfl, hfr, holl, holr⟩ : ForallT (fun a _ => cmp a loc.key < 0) loc.left ∧
        ForallT (fun a _ => cmp loc.key a < 0) loc.right ∧
        Ordered cmp loc.left ∧ Ordered cmp loc.right := by
      cases hordloc with
      | node hfl hfr hol hor => exact ⟨hfl, hfr, hol, hor⟩
    have hin : inorderKV d.root =
        pathPre frames ++ (inorderKV loc.left ++ (loc.key, loc.value) :: inorderKV loc.right)
          ++ pathPost frames := by
      rw [← hplug, inorder_plug]
      rfl
    by_cases hc : c = 0
    · subst hc
      rw [if_pos rfl] at h
      obtain ⟨hret, hd2⟩ : loc.value = ret ∧
          ({ root := plug (.node loc.color loc.key value loc.left loc.right) loc.path,
             size := d.size } : Dict) = d2 := by
        have := Prod.mk.injEq .. ▸ Option.some.inj h
        exact ⟨this.1, this.2⟩
      subst hret; subst hd2
      have hmatch : key = loc.key ∨ cmp key loc.key = 0 := by
        by_cases hk : key = loc.key
        · exact Or.inl hk
        · rw [if_neg hk] at hcv; exact Or.inr hcv.symm
      have hkeq : cmp key loc.key = 0 := by
        rcases hmatch with hk | hk
        · rw [hk]; exact hL.refl _
        · exact hk
      have hP : ∀ a ∈ pathPre frames ++ inorderKV loc.left,
          ¬(key = a.1 ∨ cmp key a.1 = 0) ∧ ¬(cmp key a.1 < 0) := by
        intro a ha
        have hgt : 0 < cmp key a.1 := by
          rcases List.mem_append.1 ha with hin1 | hin1
          · exact hpre a hin1
          · have h1 : cmp a.1 loc.key < 0 := (forallT_iff_mem.1 hfl) a hin1
            have h2 : cmp key a.1 = cmp loc.key a.1 := hL.compat key loc.key a.1 hkeq
            have h3 : 0 < cmp loc.key a.1 := (hL.asymm a.1 loc.key).1 h1
            omega
        refine ⟨?_, by omega⟩
        rintro (hk | hk)
        · rw [hk] at hgt; have := hL.refl a.1; omega
        · omega
      have hin2 : inorderKV
          (plug (.node loc.color loc.key value loc.left loc.right) loc.path) =
          pathPre frames ++ (inorderKV loc.left ++ (loc.key, value) :: inorderKV loc.right)
            ++ pathPost frames := by
        rw [hpath, inorder_plug]
        rfl
      have hA : inorderKV d.root = (pathPre frames ++ inorderKV loc.left)
          ++ (loc.key, loc.value) :: (inorderKV loc.right ++ pathPost frames) := by
        rw [hin]; simp [List.append_assoc]
      have hB : inorderKV
          (plug (.node loc.color loc.key value loc.left loc.right) loc.path) =
          (pathPre frames ++ inorderKV loc.left)
            ++ (loc.key, value) :: (inorderKV loc.right ++ pathPost frames) := by
        rw [hin2]; simp [List.append_assoc]
      have hmodel : inorderKV
          (plug (.node loc.color loc.key value loc.left loc.right) loc.path) =
          modelInsert cmp key value (inorderKV d.root) := by
        rw [hB, hA, modelInsert_of_match hmatch hP]
      have hev : eraseVals
          (plug (.node loc.color loc.key value loc.left loc.right) loc.path) =
          eraseVals d.root := by
        rw [hpath, ← hplug]
        exact eraseVals_plug_congr (by simp [Loc.tree, eraseVals])
      have hord2 : Ordered cmp
          (plug (.node loc.color loc.key value loc.left loc.right) loc.path) :=
        (ordered_iff_pairwise hL).2 (by
          rw [hmodel]
          exact modelInsert_sorted hL ((ordered_iff_pairwise hL).1 hord))
      exact ⟨hmodel, hord2, Or.inl ⟨pathPre frames ++ inorderKV loc.left,
        inorderKV loc.right ++ pathPost frames, loc.key, hA, hB, hmatch, rfl, hev⟩⟩
    · rw [if_neg hc] at h
      have hkne : key ≠ loc.key := by
        intro hk
        rw [if_pos hk] at hcv
        exact hc hcv
      have hck : cmp key loc.key = c := by
        rw [if_neg hkne] at hcv; exact hcv.symm
      have hnm : ∀ kv ∈ inorderKV d.root, ¬(key = kv.1 ∨ cmp key kv.1 = 0) := by
        intro kv hkv
        have hmiss := bsearch_miss hL hord hbs hc kv hkv
        rintro (hk | hk)
        · rw [hk] at hmiss; exact hmiss (hL.refl kv.1)
        · exact hmiss hk
      rcases Int.lt_or_lt_of_ne hc with hneg | hpos
      · rw [if_neg (by omega : ¬c > 0)] at h
        have hln : loc.left = .nil := hlt0 hneg
        cases hrr : red_red (.node .red key value .nil .nil)
            ((⟨false, loc.color, loc.key, loc.value, loc.right⟩ : Frame) :: loc.path) with
        | none => rw [hrr] at h; exact Option.noConfusion h
        | some t2 =>
          rw [hrr] at h
          dsimp only at h
          obtain ⟨hret, hd2⟩ : (0 : Ptr) = ret ∧
              ({ root := t2, size := d.size + 1 } : Dict) = d2 := by
            have := Prod.mk.injEq .. ▸ Option.some.inj h
            exact ⟨this.1, this.2⟩
          subst hret; subst hd2
          have hA : inorderKV d.root = pathPre frames
              ++ ((loc.key, loc.value) :: (inorderKV loc.right ++ pathPost frames)) := by
            rw [hin, hln]; simp [inorderKV, List.append_assoc]
          have hB : inorderKV t2 = pathPre frames
              ++ ((key, value) :: ((loc.key, loc.value)
                :: (inorderKV loc.right ++ pathPost frames))) := by
            rw [red_red_inorder hrr, hpath, inorder_plug]
            simp [pathPre, pathPost, inorderKV, plug, plugFrame, List.append_assoc]
          have hAmem : ∀ a ∈ pathPre frames,
              ¬(key = a.1 ∨ cmp key a.1 = 0) ∧ ¬(cmp key a.1 < 0) := by
            intro a ha
            have hgt := hpre a ha
            refine ⟨?_, by omega⟩
            rintro (hk | hk)
            · rw [hk] at hgt; have := hL.refl a.1; omega
            · omega
          have hfront : ∀ b ∈ ((loc.key, loc.value)
              :: (inorderKV loc.right ++ pathPost frames)).head?,
              ¬(key = b.1 ∨ cmp key b.1 = 0) ∧ cmp key b.1 < 0 := by
            intro b hb
            have hb2 : (loc.key, loc.value) = b := by simpa using hb
            obtain rfl := hb2
            refine ⟨?_, by dsimp only; omega⟩
            rintro (hk | hk)
            · exact hkne hk
            · dsimp only at hk; omega
          have hmodel : inorderKV t2 = modelInsert cmp key value (inorderKV d.root) := by
            rw [hB, hA, modelInsert_skip hAmem, modelInsert_front hfront]
          have hord2 : Ordered cmp t2 :=
            (ordered_iff_pairwise hL).2 (by
              rw [hmodel]
              exact modelInsert_sorted hL ((ordered_iff_pairwise hL).1 hord))
          exact ⟨hmodel, hord2, Or.inr ⟨rfl, rfl, hnm⟩⟩
      · rw [if_pos hpos] at h
        have hrn : loc.right = .nil := hgt0 hpos
        cases hrr : red_red (.node .red key value .nil .nil)
            ((⟨true, loc.color, loc.key, loc.value, loc.left⟩ : Frame) :: loc.path) with
        | none => rw [hrr] at h; exact Option.noConfusion h
        | some t2 =>
          rw [hrr] at h
          dsimp only at h
          obtain ⟨hret, hd2⟩ : (0 : Ptr) = ret ∧
              ({ root := t2, size := d.size + 1 } : Dict) = d2 := by
            have := Prod.mk.injEq .. ▸ Option.some.inj h
            exact ⟨this.1, this.2⟩
          subst hret; subst hd2
          have hA : inorderKV d.root = (pathPre frames
              ++ (inorderKV loc.left ++ [(loc.key, loc.value)])) ++ pathPost frames := by
            rw [hin, hrn]; simp [inorderKV, List.append_assoc]
          have hB : inorderKV t2 = (pathPre frames
              ++ (inorderKV loc.left ++ [(loc.key, loc.value)]))
                ++ ((key, value) :: pathPost frames) := by
            rw [red_red_inorder hrr, hpath, inorder_plug]
            simp [pathPre, pathPost, inorderKV, plug, plugFrame, List.append_assoc]
          have hAmem : ∀ a ∈ pathPre frames ++ (inorderKV loc.left ++ [(loc.key, loc.value)]),
              ¬(key = a.1 ∨ cmp key a.1 = 0) ∧ ¬(cmp key a.1 < 0) := by
            intro a ha
            have hgt : 0 < cmp key a.1 := by
              rcases List.mem_append.1 ha with hin1 | hin1
              · exact hpre a hin1
              · rcases List.mem_append.1 hin1 with hin2 | hin2
                · have h1 : cmp a.1 loc.key < 0 := (forallT_iff_mem.1 hfl) a hin2
                  have h2 : cmp loc.key key < 0 := (hL.asymm loc.key key).2 (by omega)
                  exact (hL.asymm a.1 key).1 (hL.lt_trans _ _ _ h1 h2)
                · rcases List.mem_singleton.1 hin2 with rfl
                  dsimp only; omega
            refine ⟨?_, by omega⟩
            rintro (hk | hk)
            · rw [hk] at hgt; have := hL.refl a.1; omega
            · omega
          have hfront : ∀ b ∈ (pathPost frames).head?,
              ¬(key = b.1 ∨ cmp key b.1 = 0) ∧ cmp key b.1 < 0 := by
            intro b hb
            have hb2 : b ∈ pathPost frames := List.mem_of_mem_head? hb
            have hlt2 := hpost b hb2
            refine ⟨?_, hlt2⟩
            rintro (hk | hk)
            · rw [hk] at hlt2; have := hL.refl b.1; omega
            · omega
          have hmodel : inorderKV t2 = modelInsert cmp key value (inorderKV d.root) := by
            rw [hB, hA, modelInsert_skip hAmem, modelInsert_front hfront]
          have hord2 : Ordered cmp t2 :=
            (ordered_iff_pairwise hL).2 (by
              rw [hmodel]
              exact modelInsert_sorted hL ((ordered_iff_pairwise hL).1 hord))
          exact ⟨hmodel, hord2, Or.inr ⟨rfl, rfl, hnm⟩⟩

/-- On a well-formed dictionary (BLACK root, as every reachable state has)
`dict_put` with non-`NULL` arguments always completes, and the new root is
again BLACK. -/
theorem dict_put_isSome {cmp : Ptr → Ptr → Int} {d : Dict} {key value : Ptr}
    (hblack : colorOf d.root = .black) (hk : key ≠ 0) (hv : value ≠ 0) :
    ∃ ret d2, dict_put cmp d key value = some (ret, d2) ∧ colorOf d2.root = .black := by
  rw [dict_put, if_neg (by simp [hk, hv])]
  cases hbs : bsearch cmp key d.root [] with
  | none =>
    exact ⟨0, { root := .node .black key value .nil .nil, size := d.size + 1 },
      rfl, rfl⟩
  | some pr =>
    obtain ⟨loc, c⟩ := pr
    obtain ⟨frames, hpath, hplug, -, -, -⟩ := bsearch_spec hbs
    rw [List.append_nil] at hpath
    have hgl : ∀ g ∈ frames.getLast?, g.color = .black := by
      intro g hg
      exact (plug_getLast_color hplug (Option.mem_def.1 hg)).symm.trans hblack
    have hloccol : frames = [] → loc.color = .black := by
      intro hf
      rw [hf] at hplug
      rw [← hplug] at hblack
      exact hblack
    have hex : ∀ b : Bool, ∃ g,
        ((⟨b, loc.color, loc.key, loc.value,
          if b then loc.left else loc.right⟩ : Frame) :: loc.path).getLast? = some g ∧
          g.color = .black := by
      intro b
      rw [hpath]
      cases hf : frames with
      | nil =>
        exact ⟨⟨b, loc.color, loc.key, loc.value, if b then loc.left else loc.right⟩,
          by simp, hloccol hf⟩
      | cons q qs =>
        obtain ⟨g, hg⟩ := Option.isSome_iff_exists.1
          (List.getLast?_isSome.2 (by simp) : (q :: qs).getLast?.isSome)
        exact ⟨g, by rw [List.getLast?_cons_cons]; exact hg,
          hgl g (by rw [Option.mem_def, hf]; exact hg)⟩
    by_cases hc : c = 0
    · subst hc
      refine ⟨loc.value,
        { root := plug (.node loc.color loc.key value loc.left loc.right) loc.path,
          size := d.size }, ?_, ?_⟩
      · dsimp only
        rw [if_pos rfl]
      · show colorOf (plug (.node loc.color loc.key value loc.left loc.right) loc.path)
          = .black
        rw [hpath]
        cases hf : frames with
        | nil =>
          simp only [plug, colorOf]
          exact hloccol hf
        | cons q qs =>
          obtain ⟨g, hg⟩ := Option.isSome_iff_exists.1
            (List.getLast?_isSome.2 (by simp) : (q :: qs).getLast?.isSome)
          exact (plug_getLast_color rfl hg).trans (hgl g (by rw [Option.mem_def, hf]; exact hg))
    · rcases Int.lt_or_lt_of_ne hc with hneg | hpos
      · obtain ⟨g, hgl2, hgb⟩ := hex false
        have hrs := red_red_isSome
          (show (.node .red key value .nil .nil : Tree) ≠ .nil by simp) hgl2 hgb
        obtain ⟨t2, hrr⟩ := Option.isSome_iff_exists.1 hrs
        refine ⟨0, { root := t2, size := d.size + 1 }, ?_, ?_⟩
        · dsimp only
          rw [if_neg hc, if_neg (by omega : ¬c > 0)]
          rw [show (if (false : Bool) then loc.left else loc.right) = loc.right from rfl] at hrr
          rw [hrr]
        · exact red_red_black hrr (by
            intro g2 hg2
            rw [Option.mem_def, hgl2] at hg2
            exact (Option.some.inj hg2) ▸ hgb)
      · obtain ⟨g, hgl2, hgb⟩ := hex true
        have hrs := red_red_isSome
          (show (.node .red key value .nil .nil : Tree) ≠ .nil by simp) hgl2 hgb
        obtain ⟨t2, hrr⟩ := Option.isSome_iff_exists.1 hrs
        refine ⟨0, { root := t2, size := d.size + 1 }, ?_, ?_⟩
        · dsimp only
          rw [if_neg hc, if_pos hpos]
          rw [show (if (true : Bool) then loc.left else loc.right) = loc.left from rfl] at hrr
          rw [hrr]
        · exact red_red_black hrr (by
            intro g2 hg2
            rw [Option.mem_def, hgl2] at hg2
            exact (Option.some.inj hg2) ▸ hgb)

/-- With no matching entry, `modelInsert` splits the list at the insertion
point. -/
theorem modelInsert_nomatch_decomp {cmp : Ptr → Ptr → Int} {k v : Ptr} :
    ∀ {L : List (Ptr × Ptr)}, (∀ a ∈ L, ¬(k = a.1 ∨ cmp k a.1 = 0)) →
      ∃ A B, L = A ++ B ∧ modelInsert cmp k v L = A ++ (k, v) :: B := by
  intro L
  induction L with
  | nil => intro _; exact ⟨[], [], rfl, rfl⟩
  | cons ab t ih =>
    intro h
    obtain ⟨a, b⟩ := ab
    by_cases h2 : cmp k a < 0
    · exact ⟨[], (a, b) :: t, rfl, by
        rw [modelInsert, if_neg (h (a, b) (List.mem_cons_self _ _)), if_pos h2]; rfl⟩
    · obtain ⟨A, B, hL2, hM⟩ := ih fun y hy => h y (List.mem_cons_of_mem _ hy)
      exact ⟨(a, b) :: A, B, by rw [List.cons_append, ← hL2], by
        rw [modelInsert, if_neg (h (a, b) (List.mem_cons_self _ _)), if_neg h2,
          List.cons_append, hM]⟩

/-- Overwriting put: with a comparator-equal stored entry, `dict_put` replaces
exactly that entry's value in place, keeps the stored key and the whole node
structure, returns the old value and leaves the size unchanged. -/
theorem dict_put_overwrite {cmp : Ptr → Ptr → Int} {d : Dict} {k1 v1 k2 v2 : Ptr}
    (hL : CmpLawful cmp) (hord : Ordered cmp d.root)
    (hmem : (k1, v1) ∈ inorderKV d.root) (hk : cmp k2 k1 = 0)
    (hk2 : k2 ≠ 0) (hv2 : v2 ≠ 0) :
    ∃ d2 P Q, dict_put cmp d k2 v2 = some (v1, d2) ∧
      inorderKV d.root = P ++ (k1, v1) :: Q ∧
      inorderKV d2.root = P ++ (k1, v2) :: Q ∧
      Ordered cmp d2.root ∧
      d2.size = d.size ∧
      eraseVals d2.root = eraseVals d.root := by
  obtain ⟨loc, hbs, hlk, hlv⟩ := bsearch_found_of_mem hL hord hmem hk
  have hput : dict_put cmp d k2 v2 = some (loc.value,
      { root := plug (.node loc.color loc.key v2 loc.left loc.right) loc.path,
        size := d.size }) := by
    rw [dict_put, if_neg (by simp [hk2, hv2]), hbs]
    dsimp only
    rw [if_pos rfl]
  obtain ⟨hmodel, hord2, hdisj⟩ := dict_put_spec hL hord hput
  rcases hdisj with ⟨P, Q, k1', hA, hB, hmatch, hsize, hev⟩ | ⟨-, -, hnm⟩
  · have hkk : cmp k1 k1' = 0 := by
      have h1 : cmp k2 k1' = 0 := by
        rcases hmatch with hm | hm
        · rw [← hm]; exact hL.refl _
        · exact hm
      rw [← hL.compat k2 k1 k1' hk]
      exact h1
    have hpw := (ordered_iff_pairwise hL).1 hord
    have hke : k1 = k1' := by
      rw [hA] at hmem hpw
      rcases List.mem_append.1 hmem with hin | hin
      · have hcl := (List.pairwise_append.1 hpw).2.2 (k1, v1) hin
          (k1', loc.value) (List.mem_cons_self _ _)
        dsimp only at hcl
        omega
      · rcases List.mem_cons.1 hin with heq | hin2
        · exact congrArg Prod.fst heq
        · have h2 := List.pairwise_cons.1 (List.pairwise_append.1 hpw).2.1
          have hcl := h2.1 (k1, v1) hin2
          dsimp only at hcl
          have h3 : cmp k1 k1 = cmp k1' k1 := hL.compat k1 k1' k1 hkk
          have h4 := hL.refl k1
          omega
    subst hke
    have hv1 : v1 = loc.value := by
      rw [hA] at hmem hpw
      rcases List.mem_append.1 hmem with hin | hin
      · exfalso
        have hcl := (List.pairwise_append.1 hpw).2.2 (k1, v1) hin
          (k1, loc.value) (List.mem_cons_self _ _)
        dsimp only at hcl
        have h4 := hL.refl k1
        omega
      · rcases List.mem_cons.1 hin with heq | hin2
        · exact congrArg Prod.snd heq
        · exfalso
          have h2 := List.pairwise_cons.1 (List.pairwise_append.1 hpw).2.1
          have hcl := h2.1 (k1, v1) hin2
          dsimp only at hcl
          have h4 := hL.refl k1
          omega
    subst hv1
    exact ⟨_, P, Q, hput, hA, hB, hord2, hsize, hev⟩
  · exact absurd (Or.inr hk) (hnm (k1, v1) hmem)

/-- Inserting a list of comparator-fresh, pairwise comparator-distinct
mappings via `dict_put` always completes, adds every mapping, preserves all
previous entries and grows the size accordingly. -/
theorem putAll_spec {cmp : Ptr → Ptr → Int} (hL : CmpLawful cmp) :
    ∀ {kvs : List (Ptr × Ptr)} {d : Dict}, Ordered cmp d.root → colorOf d.root = .black →
      (∀ kv ∈ kvs, kv.1 ≠ 0 ∧ kv.2 ≠ 0) →
      (∀ kv ∈ kvs, ∀ e ∈ inorderKV d.root, cmp kv.1 e.1 ≠ 0) →
      List.Pairwise (fun a b => cmp a.1 b.1 ≠ 0) kvs →
      ∃ d2, putAll cmp d kvs = some d2 ∧ Ordered cmp d2.root ∧
        colorOf d2.root = .black ∧ d2.size = d.size + kvs.length ∧
        (∀ kv ∈ kvs, kv ∈ inorderKV d2.root) ∧
        (∀ e ∈ inorderKV d.root, e ∈ inorderKV d2.root) := by
  intro kvs
  induction kvs with
  | nil =>
    intro d hord hb _ _ _
    exact ⟨d, rfl, hord, hb, by simp, by simp, fun e he => he⟩
  | cons kv rest ih =>
    intro d hord hb hnz hfresh hdist
    obtain ⟨k, v⟩ := kv
    obtain ⟨hk0, hv0⟩ := hnz (k, v) (List.mem_cons_self _ _)
    obtain ⟨ret, d1, hput, hb1⟩ := dict_put_isSome hb hk0 hv0
    obtain ⟨hmodel, hord1, hdisj⟩ := dict_put_spec hL hord hput
    have hnm : ∀ e ∈ inorderKV d.root, ¬(k = e.1 ∨ cmp k e.1 = 0) := by
      intro e he
      have hf := hfresh (k, v) (List.mem_cons_self _ _) e he
      rintro (hk | hz)
      · rw [hk] at hf; exact hf (hL.refl e.1)
      · exact hf hz
    have hsz1 : d1.size = d.size + 1 := by
      rcases hdisj with ⟨P, Q, k1, hA, -, hmatch, -, -⟩ | ⟨-, hsz, -⟩
      · exfalso
        have hm : (k1, ret) ∈ inorderKV d.root := by rw [hA]; simp
        exact hnm (k1, ret) hm hmatch
      · exact hsz
    obtain ⟨A, B, hAB, hMI⟩ := modelInsert_nomatch_decomp (v := v) hnm
    have hmem1 : ∀ e ∈ inorderKV d1.root, e ∈ inorderKV d.root ∨ e = (k, v) := by
      intro e he
      rw [hmodel, hMI] at he
      rcases List.mem_append.1 he with h1 | h1
      · exact Or.inl (by rw [hAB]; exact List.mem_append_left _ h1)
      · rcases List.mem_cons.1 h1 with h2 | h2
        · exact Or.inr h2
        · exact Or.inl (by rw [hAB]; exact List.mem_append_right _ h2)
    have hfresh1 : ∀ kv2 ∈ rest, ∀ e ∈ inorderKV d1.root, cmp kv2.1 e.1 ≠ 0 := by
      intro kv2 hkv2 e he
      rcases hmem1 e he with h1 | h1
      · exact hfresh kv2 (List.mem_cons_of_mem _ hkv2) e h1
      · rw [h1]
        dsimp only
        intro hz
        have hcc := hL.compat kv2.1 k kv2.1 hz
        rw [hL.refl kv2.1] at hcc
        exact (List.pairwise_cons.1 hdist).1 kv2 hkv2 hcc.symm
    obtain ⟨d2, hPA, hord2, hb2, hsz2, hmemAll, hpres⟩ :=
      ih hord1 hb1 (fun kv2 h2 => hnz kv2 (List.mem_cons_of_mem _ h2)) hfresh1
        (List.pairwise_cons.1 hdist).2
    have hpres0 : ∀ e ∈ inorderKV d.root, e ∈ inorderKV d1.root := by
      intro e he
      rw [hmodel]
      exact modelInsert_preserves hnm e he
    refine ⟨d2, ?_, hord2, hb2, ?_, ?_, fun e he => hpres e (hpres0 e he)⟩
    · rw [putAll, hput]
      exact hPA
    · rw [hsz2, hsz1, List.length_cons]
      omega
    · intro kv2 hkv2
      rcases List.mem_cons.1 hkv2 with h2 | h2
      · rw [h2]
        refine hpres (k, v) ?_
        rw [hmodel]
        exact modelInsert_self_mem hnm
      · exact hmemAll kv2 h2

/-- `dict_successor`'s descent (`Dictionary.c` lines 527-535): the leftmost
node of a non-empty subtree, the frames pushed on the way (all LEFT, so they
contribute nothing on the left of the focus), and the in-order decomposition
this yields. -/
theorem leftmostZip_spec : ∀ {t : Tree}, t ≠ .nil →
    ∃ c k v rc frames,
      leftmostKV t = some (k, v) ∧
      pathPre frames = [] ∧
      inorderKV t = (k, v) :: (inorderKV rc ++ pathPost frames) ∧
      ∀ p : Path, leftmostZip t p = (.node c k v .nil rc, frames ++ p) := by
  intro t
  induction t with
  | nil => intro h; exact absurd rfl h
  | node c k v l r ihl ihr =>
    intro _
    cases hl : l with
    | nil =>
      refine ⟨c, k, v, r, [], by simp [leftmostKV], rfl, by simp [inorderKV, pathPost], ?_⟩
      intro p
      simp [leftmostZip]
    | node lc lk lv ll lr =>
      rw [hl] at ihl
      obtain ⟨c', k', v', rc', frames', hkv, hpre, hin, hzip⟩ := ihl (by simp)
      refine ⟨c', k', v', rc', frames' ++ [⟨false, c, k, v, r⟩], ?_, ?_, ?_, ?_⟩
      · rw [leftmostKV]
        exact hkv
      · rw [pathPre_append]
        simp [pathPre, hpre]
      · rw [show inorderKV (Tree.node c k v (.node lc lk lv ll lr) r) =
            inorderKV (Tree.node lc lk lv ll lr) ++ (k, v) :: inorderKV r from rfl,
          hin, pathPost_append]
        simp [pathPost, List.append_assoc]
      · intro p
        rw [show leftmostZip (Tree.node c k v (.node lc lk lv ll lr) r) p =
            leftmostZip (.node lc lk lv ll lr) (⟨false, c, k, v, r⟩ :: p) from rfl, hzip]
        simp [List.append_assoc]

/-- In-order effect of the splice `dict_delete`: the focused node vanishes,
its surviving child takes its place (a recolouring at the root does not
change the sequence). -/
theorem dict_delete_inorder {path2 : Path} {fc : Color} {fk fv : Ptr} {fl frr t : Tree}
    (hdel : dict_delete (.node fc fk fv fl frr) path2 = some t) :
    inorderKV t = pathPre path2 ++ inorderKV (if fl ≠ .nil then fl else frr)
      ++ pathPost path2 := by
  rw [dict_delete] at hdel
  split_ifs at hdel with hboth hsurv
  · rw [if_pos hsurv]
    cases path2 with
    | nil =>
      dsimp only at hdel
      cases hsv : fl with
      | nil =>
        rw [hsv] at hdel
        obtain rfl := Option.some.inj hdel
        simp [pathPre, pathPost, inorderKV, hsv]
      | node c2 k2 v2 s2l s2r =>
        rw [hsv] at hdel
        obtain rfl := Option.some.inj hdel
        simp [pathPre, pathPost, inorderKV]
    | cons f2 p2 =>
      dsimp only at hdel
      obtain rfl := Option.some.inj hdel
      show inorderKV (plug fl (f2 :: p2)) = _
      rw [inorder_plug]
  · rw [if_neg hsurv]
    cases path2 with
    | nil =>
      dsimp only at hdel
      cases hsv : frr with
      | nil =>
        rw [hsv] at hdel
        obtain rfl := Option.some.inj hdel
        simp [pathPre, pathPost, inorderKV, hsv]
      | node c2 k2 v2 s2l s2r =>
        rw [hsv] at hdel
        obtain rfl := Option.some.inj hdel
        simp [pathPre, pathPost, inorderKV]
    | cons f2 p2 =>
      dsimp only at hdel
      obtain rfl := Option.some.inj hdel
      show inorderKV (plug frr (f2 :: p2)) = _
      rw [inorder_plug]

/-- Root colour of the splice result: with a BLACK bottom frame (or at the
root, where the promoted child is re-painted) the new root is BLACK. -/
theorem dict_delete_black {path2 : Path} {focus t : Tree}
    (hdel : dict_delete focus path2 = some t)
    (hlast : ∀ g, path2.getLast? = some g → g.color = .black) :
    colorOf t = .black := by
  cases focus with
  | nil => rw [dict_delete] at hdel; exact Option.noConfusion hdel
  | node fc fk fv fl frr =>
    rw [dict_delete] at hdel
    split_ifs at hdel with hboth hsurv
    · cases path2 with
      | nil =>
        dsimp only at hdel
        cases hsv : fl with
        | nil =>
          rw [hsv] at hdel
          obtain rfl := Option.some.inj hdel
          rfl
        | node c2 k2 v2 s2l s2r =>
          rw [hsv] at hdel
          obtain rfl := Option.some.inj hdel
          rfl
      | cons f2 p2 =>
        dsimp only at hdel
        obtain rfl := Option.some.inj hdel
        cases p2 with
        | nil =>
          have hf2 : f2.color = .black := hlast f2 (by simp)
          exact (plugFrame_color _ f2).trans hf2
        | cons q qs =>
          obtain ⟨g, hg⟩ := Option.isSome_iff_exists.1
            (List.getLast?_isSome.2 (by simp) : (q :: qs).getLast?.isSome)
          exact (plug_getLast_color rfl hg).trans
            (hlast g (by rw [List.getLast?_cons_cons]; exact hg))
    · cases path2 with
      | nil =>
        dsimp only at hdel
        cases hsv : frr with
        | nil =>
          rw [hsv] at hdel
          obtain rfl := Option.some.inj hdel
          rfl
        | node c2 k2 v2 s2l s2r =>
          rw [hsv] at hdel
          obtain rfl := Option.some.inj hdel
          rfl
      | cons f2 p2 =>
        dsimp only at hdel
        obtain rfl := Option.some.inj hdel
        cases p2 with
        | nil =>
          have hf2 : f2.color = .black := hlast f2 (by simp)
          exact (plugFrame_color _ f2).trans hf2
        | cons q qs =>
          obtain ⟨g, hg⟩ := Option.isSome_iff_exists.1
            (List.getLast?_isSome.2 (by simp) : (q :: qs).getLast?.isSome)
          exact (plug_getLast_color rfl hg).trans
            (hlast g (by rw [List.getLast?_cons_cons]; exact hg))

/-- The double-black fixup keeps the bottom frame of the path BLACK: the root
of the tree stays BLACK through the rebalancing. -/
theorem dbGo_getLast_black : ∀ {n : Nat} {focus : Tree} {p p2 : Path},
    dbGo n focus p = some p2 → (∀ g, p.getLast? = some g → g.color = .black) →
    ∀ g2, p2.getLast? = some g2 → g2.color = .black := by
  intro n
  induction n with
  | zero => intro focus p p2 h; exact Option.noConfusion h
  | succ n ih =>
    intro focus p p2 h hl
    match p with
    | [] => exact Option.noConfusion h
    | f :: rest =>
      rw [dbGo] at h
      cases hs : f.sibling with
      | nil => rw [hs] at h; exact Option.noConfusion h
      | node sc sk sv sl sr =>
        rw [hs] at h
        have hrest : ∀ g, rest ≠ [] → rest.getLast? = some g → g.color = .black := by
          intro g hne hg
          apply hl
          cases rest with
          | nil => exact absurd rfl hne
          | cons r rs => rw [List.getLast?_cons_cons]; exact hg
        have hcons : ∀ (x : Frame), x.color = .black →
            ∀ g, (x :: rest).getLast? = some g → g.color = .black := by
          intro x hx g hg
          cases hr : rest with
          | nil =>
            rw [hr] at hg
            have hxg : x = g := by simpa using hg
            rw [← hxg]; exact hx
          | cons r rs =>
            rw [hr, List.getLast?_cons_cons] at hg
            exact hrest g (by rw [hr]; simp) (by rw [hr]; exact hg)
        have hcons2 : ∀ (x y : Frame), y.color = .black →
            ∀ g, (x :: y :: rest).getLast? = some g → g.color = .black := by
          intro x y hy g hg
          rw [List.getLast?_cons_cons] at hg
          exact hcons y hy g hg
        have hconsf : ∀ (x : Frame), x.color = f.color →
            ∀ g, (x :: rest).getLast? = some g → g.color = .black := by
          intro x hx g hg
          cases hr : rest with
          | nil =>
            rw [hr] at hg
            have hxg : x = g := by simpa using hg
            have hf : f.color = .black := hl f (by rw [hr]; simp)
            rw [← hxg, hx]; exact hf
          | cons r rs =>
            rw [hr, List.getLast?_cons_cons] at hg
            exact hrest g (by rw [hr]; simp) (by rw [hr]; exact hg)
        cases hd : f.dir with
        | false =>
          simp only [hd, Bool.false_eq_true, if_false] at h
          split_ifs at h with h2 h3 h4 h5 h6
          · exact ih h (hcons2 _ _ rfl)
          · cases rest with
            | nil =>
              obtain rfl := Option.some.inj h
              intro g2 hg2
              have hxg : (⟨false, f.color, f.key, f.value,
                  Tree.node .red sk sv sl sr⟩ : Frame) = g2 := by
                simpa using hg2
              rw [← hxg]
              exact h3.1
            | cons g rest2 =>
              dsimp only at h
              cases hin : dbGo n (plugFrame focus
                  ⟨false, f.color, f.key, f.value, Tree.node .red sk sv sl sr⟩)
                  (g :: rest2) with
              | none => rw [hin] at h; exact Option.noConfusion h
              | some path2 =>
                rw [hin] at h
                obtain rfl := Option.some.inj h
                intro g2 hg2
                cases hp2 : path2 with
                | nil =>
                  rw [hp2] at hg2
                  have hxg : (⟨false, f.color, f.key, f.value,
                      Tree.node .red sk sv sl sr⟩ : Frame) = g2 := by simpa using hg2
                  rw [← hxg]
                  exact h3.1
                | cons q qs =>
                  rw [hp2, List.getLast?_cons_cons] at hg2
                  exact ih hin (fun g3 hg3 => hl g3
                    (by rw [List.getLast?_cons_cons]; exact hg3)) g2 (by rw [hp2]; exact hg2)
          · obtain rfl := Option.some.inj h
            exact hcons _ rfl
          · cases hnc : sl with
            | nil => rw [hnc] at h; exact Option.noConfusion h
            | node nco nk nv nl nr =>
              rw [hnc] at h
              exact ih h (hconsf _ rfl)
          · cases hnf : sr with
            | nil => rw [hnf] at h; exact Option.noConfusion h
            | node fc2 fk2 fv2 fl2 fr2 =>
              rw [hnf] at h
              obtain rfl := Option.some.inj h
              intro g2 hg2
              rw [h6, List.getLast?_cons_cons] at hg2
              have hxg : (⟨false, Color.black, sk, sv,
                  Tree.node Color.black fk2 fv2 fl2 fr2⟩ : Frame) = g2 := by simpa using hg2
              rw [← hxg]
          · cases hnf : sr with
            | nil => rw [hnf] at h; exact Option.noConfusion h
            | node fc2 fk2 fv2 fl2 fr2 =>
              rw [hnf] at h
              obtain rfl := Option.some.inj h
              intro g2 hg2
              rw [List.getLast?_cons_cons] at hg2
              cases rest with
              | nil => exact absurd rfl h6
              | cons r rs =>
                rw [List.getLast?_cons_cons] at hg2
                exact hrest g2 (by simp) hg2
        | true =>
          simp only [hd, if_true] at h
          split_ifs at h with h2 h3 h4 h5 h6
          · exact ih h (hcons2 _ _ rfl)
          · cases rest with
            | nil =>
              obtain rfl := Option.some.inj h
              intro g2 hg2
              have hxg : (⟨true, f.color, f.key, f.value,
                  Tree.node .red sk sv sl sr⟩ : Frame) = g2 := by
                simpa using hg2
              rw [← hxg]
              exact h3.1
            | cons g rest2 =>
              dsimp only at h
              cases hin : dbGo n (plugFrame focus
                  ⟨true, f.color, f.key, f.value, Tree.node .red sk sv sl sr⟩)
                  (g :: rest2) with
              | none => rw [hin] at h; exact Option.noConfusion h
              | some path2 =>
                rw [hin] at h
                obtain rfl := Option.some.inj h
                intro g2 hg2
                cases hp2 : path2 with
                | nil =>
                  rw [hp2] at hg2
                  have hxg : (⟨true, f.color, f.key, f.value,
                      Tree.node .red sk sv sl sr⟩ : Frame) = g2 := by simpa using hg2
                  rw [← hxg]
                  exact h3.1
                | cons q qs =>
                  rw [hp2, List.getLast?_cons_cons] at hg2
                  exact ih hin (fun g3 hg3 => hl g3
                    (by rw [List.getLast?_cons_cons]; exact hg3)) g2 (by rw [hp2]; exact hg2)
          · obtain rfl := Option.some.inj h
            exact hcons _ rfl
          · cases hnc : sr with
            | nil => rw [hnc] at h; exact Option.noConfusion h
            | node nco nk nv nl nr =>
              rw [hnc] at h
              exact ih h (hconsf _ rfl)
          · cases hnf : sl with
            | nil => rw [hnf] at h; exact Option.noConfusion h
            | node fc2 fk2 fv2 fl2 fr2 =>
              rw [hnf] at h
              obtain rfl := Option.some.inj h
              intro g2 hg2
              rw [h6, List.getLast?_cons_cons] at hg2
              have hxg : (⟨true, Color.black, sk, sv,
                  Tree.node Color.black fk2 fv2 fl2 fr2⟩ : Frame) = g2 := by simpa using hg2
              rw [← hxg]
          · cases hnf : sl with
            | nil => rw [hnf] at h; exact Option.noConfusion h
            | node fc2 fk2 fv2 fl2 fr2 =>
              rw [hnf] at h
              obtain rfl := Option.some.inj h
              intro g2 hg2
              rw [List.getLast?_cons_cons] at hg2
              cases rest with
              | nil => exact absurd rfl h6
              | cons r rs =>
                rw [List.getLast?_cons_cons] at hg2
                exact hrest g2 (by simp) hg2

/-- Master specification of one completed `dict_remove` over a well-formed
tree: the in-order sequence becomes `modelDelete`, order and the BLACK root
are preserved, and the call either missed (leaving the dictionary untouched
and returning `NULL`) or removed exactly the matching entry, decrementing
the size. -/
theorem dict_remove_spec {cmp : Ptr → Ptr → Int} {d : Dict} {key ret : Ptr} {d2 : Dict}
    (hL : CmpLawful cmp) (hord : Ordered cmp d.root) (hblack : colorOf d.root = .black)
    (h : dict_remove cmp d key = some (ret, d2)) :
    inorderKV d2.root = modelDelete cmp key (inorderKV d.root) ∧
    Ordered cmp d2.root ∧ colorOf d2.root = .black ∧
    ((d2 = d ∧ ret = 0 ∧ ∀ kv ∈ inorderKV d.root, ¬(key = kv.1 ∨ cmp key kv.1 = 0)) ∨
     (∃ P Q k1 v1, inorderKV d.root = P ++ (k1, v1) :: Q ∧
        inorderKV d2.root = P ++ Q ∧ (key = k1 ∨ cmp key k1 = 0) ∧
        d2.size = d.size - 1)) := by
  rw [dict_remove] at h
  by_cases h0 : key = 0
  · rw [if_pos h0] at h; exact Option.noConfusion h
  rw [if_neg h0] at h
  cases hbs : bsearch cmp key d.root [] with
  | none =>
    rw [hbs] at h
    dsimp only at h
    obtain ⟨hret, hd2⟩ : (0 : Ptr) = ret ∧ d = d2 := by
      have := Prod.mk.injEq .. ▸ Option.some.inj h
      exact ⟨this.1, this.2⟩
    subst hret; subst hd2
    have hroot : d.root = .nil := by
      by_contra hne
      have hs : (bsearch cmp key d.root []).isSome := bsearch_isSome hne
      rw [hbs] at hs
      simp at hs
    refine ⟨?_, hord, hblack, Or.inl ⟨rfl, rfl, ?_⟩⟩
    · rw [hroot]; simp [inorderKV, modelDelete]
    · rw [hroot]; simp [inorderKV]
  | some pr =>
    obtain ⟨loc, c⟩ := pr
    rw [hbs] at h
    dsimp only at h
    obtain ⟨frames, hpath, hplug, hpre, hpost⟩ := bsearch_window hL hord hbs
    rw [List.append_nil] at hpath
    obtain ⟨frames2, -, -, hcv, -, -⟩ := bsearch_spec hbs
    by_cases hc : c = 0
    case neg =>
      rw [if_neg hc] at h
      obtain ⟨hret, hd2⟩ : (0 : Ptr) = ret ∧ d = d2 := by
        have := Prod.mk.injEq .. ▸ Option.some.inj h
        exact ⟨this.1, this.2⟩
      subst hret; subst hd2
      have hnm : ∀ kv ∈ inorderKV d.root, ¬(key = kv.1 ∨ cmp key kv.1 = 0) := by
        intro kv hkv
        have hmiss := bsearch_miss hL hord hbs hc kv hkv
        rintro (hk | hk)
        · rw [hk] at hmiss; exact hmiss (hL.refl kv.1)
        · exact hmiss hk
      exact ⟨(modelDelete_of_nomatch hnm).symm, hord, hblack, Or.inl ⟨rfl, rfl, hnm⟩⟩
    case pos =>
      subst hc
      rw [if_pos rfl] at h
      have hmatch : key = loc.key ∨ cmp key loc.key = 0 := by
        by_cases hk : key = loc.key
        · exact Or.inl hk
        · rw [if_neg hk] at hcv; exact Or.inr hcv.symm
      have hkeq : cmp key loc.key = 0 := by
        rcases hmatch with hk | hk
        · rw [hk]; exact hL.refl _
        · exact hk
      have hordloc : Ordered cmp (.node loc.color loc.key loc.value loc.left loc.right) := by
        have hx : Ordered cmp (plug loc.tree frames) := by rw [hplug]; exact hord
        exact ordered_plug_down hx
      obtain ⟨hfl, hfr, holl, holr⟩ : ForallT (fun a _ => cmp a loc.key < 0) loc.left ∧
          ForallT (fun a _ => cmp loc.key a < 0) loc.right ∧
          Ordered cmp loc.left ∧ Ordered cmp loc.right := by
        cases hordloc with
        | node hfl hfr hol hor => exact ⟨hfl, hfr, hol, hor⟩
      have hin : inorderKV d.root =
          pathPre frames ++ (inorderKV loc.left ++ (loc.key, loc.value) :: inorderKV loc.right)
            ++ pathPost frames := by
        rw [← hplug, inorder_plug]
        rfl
      have hPnm : ∀ a ∈ pathPre frames ++ inorderKV loc.left,
          ¬(key = a.1 ∨ cmp key a.1 = 0) := by
        intro a ha
        have hgt : 0 < cmp key a.1 := by
          rcases List.mem_append.1 ha with hin1 | hin1
          · exact hpre a hin1
          · have h1 : cmp a.1 loc.key < 0 := (forallT_iff_mem.1 hfl) a hin1
            have h2 : cmp key a.1 = cmp loc.key a.1 := hL.compat key loc.key a.1 hkeq
            have h3 : 0 < cmp loc.key a.1 := (hL.asymm a.1 loc.key).1 h1
            omega
        rintro (hk | hk)
        · rw [hk] at hgt; have := hL.refl a.1; omega
        · omega
      have hgl : ∀ g, frames.getLast? = some g → g.color = .black := fun g hg =>
        (plug_getLast_color hplug hg).symm.trans hblack
      have hloccol : frames = [] → loc.color = .black := by
        intro hf
        rw [hf] at hplug
        rw [← hplug] at hblack
        exact hblack
      have hpw := (ordered_iff_pairwise hL).1 hord
      by_cases h2c : loc.left ≠ .nil ∧ loc.right ≠ .nil
      · rw [if_pos h2c] at h
        obtain ⟨sc2, sk, sv, rc, lframes, hlkv, hpre0, hinr, hzip⟩ := leftmostZip_spec h2c.2
        rw [hlkv] at h
        dsimp only at h
        rw [hzip ((⟨true, loc.color, sk, sv, loc.left⟩ : Frame) :: loc.path)] at h
        dsimp only at h
        have hpne : (lframes ++ (⟨true, loc.color, sk, sv, loc.left⟩ : Frame) :: loc.path)
            ≠ [] := by simp
        have hgl2 : ∀ g, (lframes ++ (⟨true, loc.color, sk, sv, loc.left⟩ : Frame)
            :: loc.path).getLast? = some g → g.color = .black := by
          intro g hg
          rw [List.getLast?_append_cons, hpath] at hg
          cases hf : frames with
          | nil =>
            rw [hf] at hg
            have hfg : (⟨true, loc.color, sk, sv, loc.left⟩ : Frame) = g := by simpa using hg
            rw [← hfg]
            exact hloccol hf
          | cons q qs =>
            rw [hf, List.getLast?_cons_cons] at hg
            exact hgl g (by rw [hf]; exact hg)
        have hprePath : pathPre (lframes ++ (⟨true, loc.color, sk, sv, loc.left⟩ : Frame)
            :: loc.path) = (pathPre frames ++ inorderKV loc.left) ++ [(sk, sv)] := by
          rw [pathPre_append, hpath]
          simp [pathPre, hpre0, List.append_assoc]
        have hpostPath : pathPost (lframes ++ (⟨true, loc.color, sk, sv, loc.left⟩ : Frame)
            :: loc.path) = pathPost lframes ++ pathPost frames := by
          rw [pathPost_append, hpath]
          simp [pathPost]
        have hfinish : ∀ path2 : Path,
            pathPre path2 = pathPre (lframes ++ (⟨true, loc.color, sk, sv, loc.left⟩ : Frame)
              :: loc.path) →
            pathPost path2 = pathPost (lframes ++ (⟨true, loc.color, sk, sv, loc.left⟩ : Frame)
              :: loc.path) →
            (∀ g, path2.getLast? = some g → g.color = .black) →
            (match dict_delete (Tree.node sc2 sk sv Tree.nil rc) path2 with
              | none => none
              | some t => some (sv, ({ root := t, size := d.size - 1 } : Dict)))
              = some (ret, d2) →
            inorderKV d2.root = modelDelete cmp key (inorderKV d.root) ∧
            Ordered cmp d2.root ∧ colorOf d2.root = .black ∧
            ((d2 = d ∧ ret = 0 ∧ ∀ kv ∈ inorderKV d.root, ¬(key = kv.1 ∨ cmp key kv.1 = 0)) ∨
             (∃ P Q k1 v1, inorderKV d.root = P ++ (k1, v1) :: Q ∧
                inorderKV d2.root = P ++ Q ∧ (key = k1 ∨ cmp key k1 = 0) ∧
                d2.size = d.size - 1)) := by
          intro path2 hpre2 hpost2 hlast2 hh
          cases hdel : dict_delete (Tree.node sc2 sk sv Tree.nil rc) path2 with
          | none => rw [hdel] at hh; exact Option.noConfusion hh
          | some t =>
            rw [hdel] at hh
            dsimp only at hh
            obtain ⟨hret, hd2⟩ : sv = ret ∧ ({ root := t, size := d.size - 1 } : Dict) = d2 := by
              have := Prod.mk.injEq .. ▸ Option.some.inj hh
              exact ⟨this.1, this.2⟩
            subst hret; subst hd2
            have hti := dict_delete_inorder hdel
            rw [if_neg (by simp : ¬((Tree.nil : Tree) ≠ Tree.nil))] at hti
            rw [hpre2, hpost2, hprePath, hpostPath] at hti
            have hA : inorderKV d.root = (pathPre frames ++ inorderKV loc.left)
                ++ (loc.key, loc.value)
                  :: ((sk, sv) :: (inorderKV rc ++ (pathPost lframes ++ pathPost frames))) := by
              rw [hin, hinr]; simp [List.append_assoc]
            have hB : inorderKV t = (pathPre frames ++ inorderKV loc.left)
                ++ ((sk, sv) :: (inorderKV rc ++ (pathPost lframes ++ pathPost frames))) := by
              rw [hti]; simp [List.append_assoc]
            have hmodel : inorderKV t = modelDelete cmp key (inorderKV d.root) := by
              rw [hB, hA, modelDelete_of_match hmatch hPnm]
            have hord2 : Ordered cmp t := (ordered_iff_pairwise hL).2 (by
              rw [hmodel]
              exact List.Pairwise.sublist modelDelete_sublist hpw)
            have hblk : colorOf t = .black := dict_delete_black hdel hlast2
            exact ⟨hmodel, hord2, hblk, Or.inr ⟨_, _, loc.key, loc.value, hA, hB, hmatch, rfl⟩⟩
        by_cases hfb : colorOf (Tree.node sc2 sk sv Tree.nil rc) = .black
        · rw [if_pos ⟨hfb, hpne⟩] at h
          cases hdb : double_black (Tree.node sc2 sk sv Tree.nil rc)
              (lframes ++ (⟨true, loc.color, sk, sv, loc.left⟩ : Frame) :: loc.path) with
          | none => rw [hdb] at h; exact Option.noConfusion h
          | some path2 =>
            rw [hdb] at h
            dsimp only at h
            exact hfinish path2 (double_black_pre_post hdb).1 (double_black_pre_post hdb).2
              (dbGo_getLast_black hdb hgl2) h
        · rw [if_neg (fun hx => hfb hx.1)] at h
          dsimp only at h
          exact hfinish _ rfl rfl hgl2 h
      · rw [if_neg h2c] at h
        rw [Loc.tree] at h
        rw [hpath] at h
        dsimp only at h
        have hfinish : ∀ path2 : Path,
            pathPre path2 = pathPre frames →
            pathPost path2 = pathPost frames →
            (∀ g, path2.getLast? = some g → g.color = .black) →
            (match dict_delete (Tree.node loc.color loc.key loc.value loc.left loc.right)
                path2 with
              | none => none
              | some t => some (loc.value, ({ root := t, size := d.size - 1 } : Dict)))
              = some (ret, d2) →
            inorderKV d2.root = modelDelete cmp key (inorderKV d.root) ∧
            Ordered cmp d2.root ∧ colorOf d2.root = .black ∧
            ((d2 = d ∧ ret = 0 ∧ ∀ kv ∈ inorderKV d.root, ¬(key = kv.1 ∨ cmp key kv.1 = 0)) ∨
             (∃ P Q k1 v1, inorderKV d.root = P ++ (k1, v1) :: Q ∧
                inorderKV d2.root = P ++ Q ∧ (key = k1 ∨ cmp key k1 = 0) ∧
                d2.size = d.size - 1)) := by
          intro path2 hpre2 hpost2 hlast2 hh
          cases hdel : dict_delete (Tree.node loc.color loc.key loc.value loc.left loc.right)
              path2 with
          | none => rw [hdel] at hh; exact Option.noConfusion hh
          | some t =>
            rw [hdel] at hh
            dsimp only at hh
            obtain ⟨hret, hd2⟩ : loc.value = ret ∧
                ({ root := t, size := d.size - 1 } : Dict) = d2 := by
              have := Prod.mk.injEq .. ▸ Option.some.inj hh
              exact ⟨this.1, this.2⟩
            subst hret; subst hd2
            have hti := dict_delete_inorder hdel
            rw [hpre2, hpost2] at hti
            have hblk : colorOf t = .black := dict_delete_black hdel hlast2
            by_cases hln : loc.left = .nil
            · rw [if_neg (fun hx => hx hln)] at hti
              have hA : inorderKV d.root = pathPre frames
                  ++ (loc.key, loc.value) :: (inorderKV loc.right ++ pathPost frames) := by
                rw [hin, hln]; simp [inorderKV, List.append_assoc]
              have hB : inorderKV t = pathPre frames
                  ++ (inorderKV loc.right ++ pathPost frames) := by
                rw [hti]; simp [List.append_assoc]
              have hmodel : inorderKV t = modelDelete cmp key (inorderKV d.root) := by
                rw [hB, hA, modelDelete_of_match hmatch
                  (fun a ha => hPnm a (List.mem_append_left _ ha))]
              have hord2 : Ordered cmp t := (ordered_iff_pairwise hL).2 (by
                rw [hmodel]
                exact List.Pairwise.sublist modelDelete_sublist hpw)
              exact ⟨hmodel, hord2, hblk, Or.inr ⟨_, _, loc.key, loc.value, hA, hB, hmatch, rfl⟩⟩
            · have hrn : loc.right = .nil := by
                by_contra hr
                exact h2c ⟨hln, hr⟩
              rw [if_pos hln] at hti
              have hA : inorderKV d.root = (pathPre frames ++ inorderKV loc.left)
                  ++ (loc.key, loc.value) :: pathPost frames := by
                rw [hin, hrn]; simp [inorderKV, List.append_assoc]
              have hB : inorderKV t = (pathPre frames ++ inorderKV loc.left)
                  ++ pathPost frames := by
                rw [hti]
              have hmodel : inorderKV t = modelDelete cmp key (inorderKV d.root) := by
                rw [hB, hA, modelDelete_of_match hmatch hPnm]
              have hord2 : Ordered cmp t := (ordered_iff_pairwise hL).2 (by
                rw [hmodel]
                exact List.Pairwise.sublist modelDelete_sublist hpw)
              exact ⟨hmodel, hord2, hblk, Or.inr ⟨_, _, loc.key, loc.value, hA, hB, hmatch, rfl⟩⟩
        by_cases hfb : colorOf (Tree.node loc.color loc.key loc.value loc.left loc.right)
            = .black ∧ frames ≠ []
        · rw [if_pos hfb] at h
          cases hdb : double_black
              (Tree.node loc.color loc.key loc.value loc.left loc.right) frames with
          | none => rw [hdb] at h; exact Option.noConfusion h
          | some path2 =>
            rw [hdb] at h
            dsimp only at h
            exact hfinish path2 (double_black_pre_post hdb).1 (double_black_pre_post hdb).2
              (dbGo_getLast_black hdb hgl) h
        · rw [if_neg hfb] at h
          dsimp only at h
          exact hfinish _ rfl rfl hgl h

/-- Every reachable dictionary state is well-formed: ordered tree, BLACK
root, size in sync with the node count, and no NULL key or value stored. -/
theorem reachable_sound {cmp : Ptr → Ptr → Int} (hL : CmpLawful cmp) {d : Dict}
    (h : Reachable cmp d) :
    Ordered cmp d.root ∧ colorOf d.root = .black ∧ d.size = d.root.count ∧
      ForallT (fun k v => k ≠ 0 ∧ v ≠ 0) d.root := by
  induction h with
  | new => exact ⟨Ordered.nil, rfl, rfl, ForallT.nil⟩
  | put hr hp ih =>
    rename_i d0 k v r0 d2
    obtain ⟨hord, hblack, hsize, hnz⟩ := ih
    have hk0 : ¬(k = 0 ∨ v = 0) := by
      intro h0
      rw [dict_put, if_pos h0] at hp
      exact Option.noConfusion hp
    obtain ⟨hmodel, hord2, hdisj⟩ := dict_put_spec hL hord hp
    obtain ⟨r3, d3, heq, hblack3⟩ := dict_put_isSome hblack
      (fun hh => hk0 (Or.inl hh)) (fun hh => hk0 (Or.inr hh))
    rw [hp] at heq
    obtain ⟨h1, h2⟩ : _ ∧ _ := by
      have := Prod.mk.injEq .. ▸ Option.some.inj heq
      exact ⟨this.1, this.2⟩
    rw [← h2] at hblack3
    refine ⟨hord2, hblack3, ?_, ?_⟩
    · rw [count_eq_length]
      rcases hdisj with ⟨P, Q, k1, hA, hB, -, hsz, -⟩ | ⟨-, hsz, hnm⟩
      · rw [hB, hsz, hsize, count_eq_length, hA]
        simp
      · rw [hmodel, modelInsert_length hnm, hsz, hsize, count_eq_length]
    · rw [forallT_iff_mem]
      intro kv hkv
      rw [hmodel] at hkv
      rcases modelInsert_mem hkv with hm1 | ⟨hm1, hm2 | hm2⟩
      · exact (forallT_iff_mem.1 hnz) kv hm1
      · exact ⟨by rw [hm2]; exact fun hh => hk0 (Or.inl hh),
          by rw [hm1]; exact fun hh => hk0 (Or.inr hh)⟩
      · refine ⟨?_, by rw [hm1]; exact fun hh => hk0 (Or.inr hh)⟩
        simp only [List.mem_map] at hm2
        obtain ⟨y, hy, hyx⟩ := hm2
        rw [← hyx]
        exact ((forallT_iff_mem.1 hnz) y hy).1
  | remove hr hp ih =>
    obtain ⟨hord, hblack, hsize, hnz⟩ := ih
    obtain ⟨hmodel, hord2, hblack2, hdisj⟩ := dict_remove_spec hL hord hblack hp
    refine ⟨hord2, hblack2, ?_, ?_⟩
    · rcases hdisj with ⟨hd2, -, -⟩ | ⟨P, Q, k1, v1, hA, hB, -, hsz⟩
      · rw [hd2]; exact hsize
      · rw [count_eq_length, hB, hsz, hsize, count_eq_length, hA]
        simp only [List.length_append, List.length_cons]
        omega
    · rw [forallT_iff_mem]
      intro kv hkv
      rw [hmodel] at hkv
      exact (forallT_iff_mem.1 hnz) kv (modelDelete_sublist.subset hkv)
  | clear hr ih => exact ⟨Ordered.nil, rfl, rfl, ForallT.nil⟩

theorem count_eq_zero {t : Tree} : t.count = 0 ↔ t = .nil := by
  cases t <;> simp [Tree.count]

/-- Every subtree in `subtrees` is a node whose key is stored in the tree. -/
theorem subtrees_key : ∀ {t s : Tree}, s ∈ subtrees t →
    ∃ c2 k2 v2 l2 r2, s = .node c2 k2 v2 l2 r2 ∧ k2 ∈ (inorderKV t).map Prod.fst := by
  intro t
  induction t with
  | nil => intro s hs; simp [subtrees] at hs
  | node c k v l r ihl ihr =>
    intro s hs
    rw [subtrees] at hs
    rcases List.mem_cons.1 hs with rfl | hs2
    · exact ⟨c, k, v, l, r, rfl, by simp [inorderKV]⟩
    · rcases List.mem_append.1 hs2 with hs3 | hs3
      · obtain ⟨c2, k2, v2, l2, r2, he, hk⟩ := ihl hs3
        exact ⟨c2, k2, v2, l2, r2, he, by simp [inorderKV]; simp at hk; tauto⟩
      · obtain ⟨c2, k2, v2, l2, r2, he, hk⟩ := ihr hs3
        exact ⟨c2, k2, v2, l2, r2, he, by simp [inorderKV]; simp at hk; tauto⟩

/-- A node whose key is absent from a tree is not one of its subtrees. -/
theorem node_not_mem_subtrees {c : Color} {k v : Ptr} {l r t : Tree}
    (hk : k ∉ (inorderKV t).map Prod.fst) :
    (Tree.node c k v l r) ∉ subtrees t := by
  intro hmem
  obtain ⟨c2, k2, v2, l2, r2, he, hk2⟩ := subtrees_key hmem
  rw [Tree.node.injEq] at he
  exact hk (he.2.1 ▸ hk2)

/-- The root key occurs in the in-order key sequence. -/
theorem root_key_mem {c : Color} {k v : Ptr} {l r : Tree} :
    k ∈ (inorderKV (Tree.node c k v l r)).map Prod.fst := by
  simp [inorderKV]

/-- A non-empty tree occurs among its own subtrees. -/
theorem self_mem_subtrees {t : Tree} (h : t ≠ .nil) : t ∈ subtrees t := by
  cases t with
  | nil => exact absurd rfl h
  | node c k v l r => rw [subtrees]; exact List.mem_cons_self _ _

/-- The rightmost node of a non-empty tree exists and is one of its
subtrees. -/
theorem rightmostNode_spec : ∀ {t : Tree}, t ≠ .nil →
    ∃ s, rightmostNode t = some s ∧ s ∈ subtrees t := by
  intro t
  induction t with
  | nil => intro h; exact absurd rfl h
  | node c k v l r ihl ihr =>
    intro _
    cases hr : r with
    | nil => exact ⟨.node c k v l .nil, by rw [rightmostNode], by rw [subtrees]; simp⟩
    | node rc rk rv rl rr =>
      rw [hr] at ihr
      obtain ⟨s, hs, hmem⟩ := ihr (by simp)
      exact ⟨s, by rw [rightmostNode]; exact hs, by rw [subtrees]; simp; tauto⟩

/-- The pre-order sequence is a permutation of the in-order sequence. -/
theorem preorderKV_perm : ∀ (t : Tree), (preorderKV t).Perm (inorderKV t) := by
  intro t
  induction t with
  | nil => exact List.Perm.refl _
  | node c k v l r ihl ihr =>
    rw [preorderKV, inorderKV]
    exact ((ihl.append ihr).cons (k, v)).trans List.perm_middle.symm

/-- The post-order sequence is a permutation of the in-order sequence. -/
theorem postorderKV_perm : ∀ (t : Tree), (postorderKV t).Perm (inorderKV t) := by
  intro t
  induction t with
  | nil => exact List.Perm.refl _
  | node c k v l r ihl ihr =>
    rw [postorderKV, inorderKV, List.append_assoc]
    exact ihl.append ((List.perm_append_singleton _ _).trans (ihr.cons (k, v)))

/-- One visiting step of the in-order loop. -/
theorem iterInOrderGo_visit {c : Color} {k v : Ptr} {l r : Tree} {S : List Tree}
    {current : Option Tree}
    (h : rightmostNode l = none ∨ rightmostNode l = current) :
    iterInOrderGo (.node c k v l r :: S) current =
      some (.node c k v l r,
        if rightmostNode l ≠ current ∧ r ≠ .nil then r :: S else S) := by
  rw [iterInOrderGo]
  simp only [dif_pos h]

/-- One descending step of the in-order loop. -/
theorem iterInOrderGo_descend {c : Color} {k v : Ptr} {l r : Tree} {S : List Tree}
    {current : Option Tree}
    (h : ¬(rightmostNode l = none ∨ rightmostNode l = current)) :
    iterInOrderGo (.node c k v l r :: S) current =
      iterInOrderGo (l :: .node c k v l r ::
        (if rightmostNode l ≠ current ∧ r ≠ .nil then r :: S else S)) current := by
  rw [iterInOrderGo]
  simp only [dif_neg h]

/-- One visiting step of the post-order loop. -/
theorem iterPostGo_visit {c : Color} {k v : Ptr} {l r : Tree} {S : List Tree}
    {current : Option Tree}
    (h : (l = .nil ∧ r = .nil) ∨ optTree l = current ∨ optTree r = current) :
    iterPostGo (.node c k v l r :: S) current = some (.node c k v l r, S) := by
  rw [iterPostGo]
  simp only [dif_pos h]

/-- One descending step of the post-order loop. -/
theorem iterPostGo_descend {c : Color} {k v : Ptr} {l r : Tree} {S : List Tree}
    {current : Option Tree}
    (h : ¬((l = .nil ∧ r = .nil) ∨ optTree l = current ∨ optTree r = current)) :
    iterPostGo (.node c k v l r :: S) current =
      iterPostGo ((if l = .nil then [] else [l]) ++ (if r = .nil then [] else [r]) ++
        .node c k v l r :: S) current := by
  rw [iterPostGo]
  simp only [dif_neg h]

/-- Runs from states whose first in-order step coincides are equal. -/
theorem iterRun_in_congr {n : Nat} {cur : Option Tree} {s1 s2 : List Tree}
    (h : iterInOrderGo s1 cur = iterInOrderGo s2 cur) (h1 : s1 ≠ []) (h2 : s2 ≠ []) :
    iterRun .inOrder n ⟨cur, s1⟩ = iterRun .inOrder n ⟨cur, s2⟩ := by
  cases n with
  | zero => rfl
  | succ n =>
    rw [iterRun, iterRun, if_neg (by simp [dict_iter_has_next, h1]),
      if_neg (by simp [dict_iter_has_next, h2])]
    simp only [iterNext, dict_iter_in_order]
    rw [h]

/-- Runs from states whose first post-order step coincides are equal. -/
theorem iterRun_post_congr {n : Nat} {cur : Option Tree} {s1 s2 : List Tree}
    (h : iterPostGo s1 cur = iterPostGo s2 cur) (h1 : s1 ≠ []) (h2 : s2 ≠ []) :
    iterRun .postOrder n ⟨cur, s1⟩ = iterRun .postOrder n ⟨cur, s2⟩ := by
  cases n with
  | zero => rfl
  | succ n =>
    rw [iterRun, iterRun, if_neg (by simp [dict_iter_has_next, h1]),
      if_neg (by simp [dict_iter_has_next, h2])]
    simp only [iterNext, dict_iter_post_order]
    rw [h]

/-- The pre-order iterator run: the stack holds pending subtrees whose
pre-order sequences are emitted in order. -/
theorem iterRun_pre_spec : ∀ {n : Nat} {stack : List Tree} {cur : Option Tree},
    stackCount stack < n → (∀ t ∈ stack, t ≠ .nil) →
    iterRun .preOrder n ⟨cur, stack⟩ = some ((stack.map preorderKV).flatten) := by
  intro n
  induction n with
  | zero => intro stack cur hf _; exact absurd hf (Nat.not_lt_zero _)
  | succ n ih =>
    intro stack cur hf hnn
    cases stack with
    | nil =>
      rw [iterRun, if_pos (by simp [dict_iter_has_next])]
      simp
    | cons t rest =>
      cases t with
      | nil => exact absurd rfl (hnn _ (List.mem_cons_self _ _))
      | node c k v l r =>
        rw [iterRun, if_neg (by simp [dict_iter_has_next])]
        simp only [iterNext, dict_iter_pre_order]
        have hsc : stackCount ((if l ≠ Tree.nil then [l] else [])
            ++ ((if r ≠ Tree.nil then [r] else []) ++ rest))
            = l.count + r.count + stackCount rest := by
          split_ifs with hl2 hr2 <;>
            simp_all [stackCount, Tree.count, count_eq_zero] <;> omega
        have hf2 : stackCount ((if l ≠ Tree.nil then [l] else [])
            ++ ((if r ≠ Tree.nil then [r] else []) ++ rest)) < n := by
          rw [hsc]
          have : stackCount (Tree.node c k v l r :: rest)
              = l.count + 1 + r.count + stackCount rest := by
            simp [stackCount, Tree.count]
          omega
        have hnn2 : ∀ t2 ∈ (if l ≠ Tree.nil then [l] else [])
            ++ ((if r ≠ Tree.nil then [r] else []) ++ rest), t2 ≠ Tree.nil := by
          intro t2 ht2
          rcases List.mem_append.1 ht2 with h1 | h1
          · split_ifs at h1 with hx
            · rw [List.mem_singleton.1 h1]; exact hx
            · simp at h1
          · rcases List.mem_append.1 h1 with h2 | h2
            · split_ifs at h2 with hx
              · rw [List.mem_singleton.1 h2]; exact hx
              · simp at h2
            · exact hnn t2 (List.mem_cons_of_mem _ h2)
        rw [show ((if l ≠ Tree.nil then [l] else []) ++ (if r ≠ Tree.nil then [r] else [])
            ++ rest) = ((if l ≠ Tree.nil then [l] else [])
            ++ ((if r ≠ Tree.nil then [r] else []) ++ rest)) from by rw [List.append_assoc]]
        rw [ih hf2 hnn2]
        simp only [List.map_cons, List.flatten_cons, List.map_append, List.flatten_append]
        split_ifs with hl2 hr2 hr3 <;>
          simp_all [preorderKV, List.flatten]

/-- The in-order iterator run on a subtree with distinct keys: starting from
a fresh non-`NULL` `current`, the next `X.count` visits emit exactly the
in-order sequence of `X` and leave its rightmost node as the new
`current`. -/
theorem iterRun_in_spec : ∀ {X : Tree}, X ≠ .nil →
    ∀ {S : List Tree} {cur0 : Option Tree} {m : Nat} {RX : Tree},
      cur0 ≠ none →
      rightmostNode X = some RX →
      (∀ s ∈ subtrees X, s ≠ X → some s ≠ cur0) →
      List.Pairwise (fun a b => a ≠ b) ((inorderKV X).map Prod.fst) →
      iterRun .inOrder (X.count + m) ⟨cur0, X :: S⟩
        = (iterRun .inOrder m ⟨some RX, S⟩).map (fun rest => inorderKV X ++ rest) := by
  intro X
  induction X with
  | nil => intro h; exact absurd rfl h
  | node c k v l r ihl ihr =>
    intro _ S cur0 m RX hcur hRX hfresh hnd
    have hkeys : (inorderKV (Tree.node c k v l r)).map Prod.fst
        = (inorderKV l).map Prod.fst ++ k :: (inorderKV r).map Prod.fst := by
      simp [inorderKV]
    rw [hkeys] at hnd
    have hknl : k ∉ (inorderKV l).map Prod.fst := by
      intro hmem
      exact (List.pairwise_append.1 hnd).2.2 k hmem k (List.mem_cons_self _ _) rfl
    have hknr : k ∉ (inorderKV r).map Prod.fst := by
      intro hmem
      exact (List.pairwise_cons.1 (List.pairwise_append.1 hnd).2.1).1 k hmem rfl
    have hndl : List.Pairwise (fun a b => a ≠ b) ((inorderKV l).map Prod.fst) :=
      (List.pairwise_append.1 hnd).1
    have hndr : List.Pairwise (fun a b => a ≠ b) ((inorderKV r).map Prod.fst) :=
      (List.pairwise_cons.1 (List.pairwise_append.1 hnd).2.1).2
    have hXl : (Tree.node c k v l r) ∉ subtrees l := node_not_mem_subtrees hknl
    have hXr : (Tree.node c k v l r) ∉ subtrees r := node_not_mem_subtrees hknr
    have hfresh_l : ∀ s ∈ subtrees l, some s ≠ cur0 := by
      intro s hs
      refine hfresh s (List.mem_cons_of_mem _ (List.mem_append_left _ hs)) ?_
      intro he
      rw [he] at hs
      exact hXl hs
    have hfresh_r : ∀ s ∈ subtrees r, some s ≠ some (Tree.node c k v l r) := by
      intro s hs he
      rw [Option.some.inj he] at hs
      exact hXr hs
    by_cases hl : l = .nil
    · subst hl
      have hn : (Tree.node c k v Tree.nil r).count + m = (r.count + m) + 1 := by
        simp [Tree.count]; omega
      rw [hn, iterRun, if_neg (by simp [dict_iter_has_next])]
      simp only [iterNext, dict_iter_in_order]
      rw [iterInOrderGo_visit (l := Tree.nil) (Or.inl rfl)]
      cases r with
      | nil =>
        obtain rfl : Tree.node c k v Tree.nil Tree.nil = RX := by
          rw [rightmostNode] at hRX
          exact Option.some.inj hRX
        rw [if_neg (by simp)]
        dsimp only
        cases hfin : iterRun .inOrder m
            ⟨some (Tree.node c k v Tree.nil Tree.nil), S⟩ <;>
          simp [hfin, Tree.count, inorderKV]
      | node rc2 rk2 rv2 rl2 rr2 =>
        rw [if_pos ⟨Ne.symm hcur, by simp⟩]
        have hRXr : rightmostNode (Tree.node rc2 rk2 rv2 rl2 rr2) = some RX := by
          rw [rightmostNode] at hRX
          exact hRX
        dsimp only
        rw [ihr (by simp) (by simp) hRXr (fun s hs _ => hfresh_r s hs) hndr]
        cases hfin : iterRun .inOrder m ⟨some RX, S⟩ <;> simp [hfin, inorderKV]
    · obtain ⟨RL, hRL, hRLmem⟩ := rightmostNode_spec hl
      have hpred : some RL ≠ cur0 := hfresh_l RL hRLmem
      have hdesc : iterInOrderGo (Tree.node c k v l r :: S) cur0 =
          iterInOrderGo (l :: Tree.node c k v l r ::
            (if rightmostNode l ≠ cur0 ∧ r ≠ .nil then r :: S else S)) cur0 := by
        refine iterInOrderGo_descend ?_
        rw [hRL]
        rintro (h1 | h1)
        · exact Option.noConfusion h1
        · exact hpred h1
      rw [iterRun_in_congr hdesc (by simp) (by simp)]
      cases r with
      | nil =>
        rw [show (if rightmostNode l ≠ cur0 ∧ (Tree.nil : Tree) ≠ .nil
            then (Tree.nil : Tree) :: S else S) = S from by simp]
        obtain rfl : Tree.node c k v l Tree.nil = RX := by
          rw [rightmostNode] at hRX
          exact Option.some.inj hRX
        have hn : (Tree.node c k v l Tree.nil).count + m = l.count + (m + 1) := by
          simp [Tree.count]; omega
        rw [hn, ihl hl hcur hRL (fun s hs _ => hfresh_l s hs) hndl]
        have hvisit : iterRun .inOrder (m + 1)
            ⟨some RL, Tree.node c k v l Tree.nil :: S⟩
            = (iterRun .inOrder m ⟨some (Tree.node c k v l Tree.nil), S⟩).map
                (fun rest => (k, v) :: rest) := by
          rw [iterRun, if_neg (by simp [dict_iter_has_next])]
          simp only [iterNext, dict_iter_in_order]
          rw [iterInOrderGo_visit (Or.inr hRL), if_neg (by rw [hRL]; simp)]
          dsimp only
          cases hfin : iterRun .inOrder m
              ⟨some (Tree.node c k v l Tree.nil), S⟩ <;> simp [hfin]
        rw [hvisit]
        cases hfin : iterRun .inOrder m
            ⟨some (Tree.node c k v l Tree.nil), S⟩ <;> simp [hfin, inorderKV]
      | node rc2 rk2 rv2 rl2 rr2 =>
        rw [show (if rightmostNode l ≠ cur0 ∧ (Tree.node rc2 rk2 rv2 rl2 rr2 : Tree) ≠ .nil
            then (Tree.node rc2 rk2 rv2 rl2 rr2 : Tree) :: S else S)
            = Tree.node rc2 rk2 rv2 rl2 rr2 :: S from
          by rw [if_pos ⟨by rw [hRL]; exact hpred, by simp⟩]]
        have hRXr : rightmostNode (Tree.node rc2 rk2 rv2 rl2 rr2) = some RX := by
          rw [rightmostNode] at hRX
          exact hRX
        have hn : (Tree.node c k v l (Tree.node rc2 rk2 rv2 rl2 rr2)).count + m
            = l.count + (((Tree.node rc2 rk2 rv2 rl2 rr2).count + m) + 1) := by
          simp [Tree.count]; omega
        rw [hn, ihl hl hcur hRL (fun s hs _ => hfresh_l s hs) hndl]
        have hvisit : iterRun .inOrder (((Tree.node rc2 rk2 rv2 rl2 rr2).count + m) + 1)
            ⟨some RL, Tree.node c k v l (Tree.node rc2 rk2 rv2 rl2 rr2)
              :: Tree.node rc2 rk2 rv2 rl2 rr2 :: S⟩
            = (iterRun .inOrder m ⟨some RX, S⟩).map
                (fun rest => (k, v)
                  :: (inorderKV (Tree.node rc2 rk2 rv2 rl2 rr2) ++ rest)) := by
          rw [iterRun, if_neg (by simp [dict_iter_has_next])]
          simp only [iterNext, dict_iter_in_order]
          rw [iterInOrderGo_visit (Or.inr hRL), if_neg (by rw [hRL]; simp)]
          dsimp only
          rw [ihr (by simp) (by simp) hRXr (fun s hs _ => hfresh_r s hs) hndr]
          cases hfin : iterRun .inOrder m ⟨some RX, S⟩ <;> simp [hfin]
        rw [hvisit]
        cases hfin : iterRun .inOrder m ⟨some RX, S⟩ <;> simp [hfin, inorderKV]

/-- The post-order iterator run on a subtree with distinct keys: starting
from a fresh non-`NULL` `current`, the next `X.count` visits emit exactly the
post-order sequence of `X` and leave `X` itself as the new `current`. -/
theorem iterRun_post_spec : ∀ {X : Tree}, X ≠ .nil →
    ∀ {S : List Tree} {cur0 : Option Tree} {m : Nat},
      cur0 ≠ none →
      (∀ s ∈ subtrees X, s ≠ X → some s ≠ cur0) →
      List.Pairwise (fun a b => a ≠ b) ((inorderKV X).map Prod.fst) →
      iterRun .postOrder (X.count + m) ⟨cur0, X :: S⟩
        = (iterRun .postOrder m ⟨some X, S⟩).map
            (fun rest => postorderKV X ++ rest) := by
  intro X
  induction X with
  | nil => intro h; exact absurd rfl h
  | node c k v l r ihl ihr =>
    intro _ S cur0 m hcur hfresh hnd
    have hkeys : (inorderKV (Tree.node c k v l r)).map Prod.fst
        = (inorderKV l).map Prod.fst ++ k :: (inorderKV r).map Prod.fst := by
      simp [inorderKV]
    rw [hkeys] at hnd
    have hlr : ∀ a ∈ (inorderKV l).map Prod.fst,
        ∀ b ∈ k :: (inorderKV r).map Prod.fst, a ≠ b :=
      (List.pairwise_append.1 hnd).2.2
    have hknl : k ∉ (inorderKV l).map Prod.fst := by
      intro hmem
      exact hlr k hmem k (List.mem_cons_self _ _) rfl
    have hknr : k ∉ (inorderKV r).map Prod.fst := by
      intro hmem
      exact (List.pairwise_cons.1 (List.pairwise_append.1 hnd).2.1).1 k hmem rfl
    have hndl : List.Pairwise (fun a b => a ≠ b) ((inorderKV l).map Prod.fst) :=
      (List.pairwise_append.1 hnd).1
    have hndr : List.Pairwise (fun a b => a ≠ b) ((inorderKV r).map Prod.fst) :=
      (List.pairwise_cons.1 (List.pairwise_append.1 hnd).2.1).2
    have hXl : (Tree.node c k v l r) ∉ subtrees l := node_not_mem_subtrees hknl
    have hXr : (Tree.node c k v l r) ∉ subtrees r := node_not_mem_subtrees hknr
    have hlX : l ≠ Tree.node c k v l r := by
      intro he
      have h2 := congrArg Tree.count he
      simp only [Tree.count] at h2
      omega
    have hrX : r ≠ Tree.node c k v l r := by
      intro he
      have h2 := congrArg Tree.count he
      simp only [Tree.count] at h2
      omega
    have hfresh_l0 : ∀ s ∈ subtrees l, some s ≠ cur0 := by
      intro s hs
      refine hfresh s (List.mem_cons_of_mem _ (List.mem_append_left _ hs)) ?_
      intro he
      rw [he] at hs
      exact hXl hs
    have hfresh_r0 : ∀ s ∈ subtrees r, some s ≠ cur0 := by
      intro s hs
      refine hfresh s (List.mem_cons_of_mem _ (List.mem_append_right _ hs)) ?_
      intro he
      rw [he] at hs
      exact hXr hs
    by_cases hleaf : l = .nil ∧ r = .nil
    · obtain ⟨hl0, hr0⟩ := hleaf
      subst hl0
      subst hr0
      have hn : (Tree.node c k v Tree.nil Tree.nil).count + m = m + 1 := by
        simp only [Tree.count]; omega
      rw [hn, iterRun, if_neg (by simp [dict_iter_has_next])]
      simp only [iterNext, dict_iter_post_order]
      rw [iterPostGo_visit (Or.inl ⟨rfl, rfl⟩)]
      dsimp only
      cases hfin : iterRun .postOrder m
          ⟨some (Tree.node c k v Tree.nil Tree.nil), S⟩ <;>
        simp [hfin, postorderKV]
    · have hfl : ¬ optTree l = cur0 := by
        by_cases hl : l = .nil
        · rw [hl]
          simpa [optTree] using Ne.symm hcur
        · rw [optTree, if_neg hl]
          exact hfresh l (List.mem_cons_of_mem _
            (List.mem_append_left _ (self_mem_subtrees hl))) hlX
      have hfr : ¬ optTree r = cur0 := by
        by_cases hr : r = .nil
        · rw [hr]
          simpa [optTree] using Ne.symm hcur
        · rw [optTree, if_neg hr]
          exact hfresh r (List.mem_cons_of_mem _
            (List.mem_append_right _ (self_mem_subtrees hr))) hrX
      have hdesc : iterPostGo (Tree.node c k v l r :: S) cur0 =
          iterPostGo ((if l = .nil then [] else [l]) ++
            (if r = .nil then [] else [r]) ++ Tree.node c k v l r :: S) cur0 := by
        refine iterPostGo_descend ?_
        rintro (h1 | h1 | h1)
        · exact hleaf h1
        · exact hfl h1
        · exact hfr h1
      rw [iterRun_post_congr hdesc (by simp) (by simp)]
      by_cases hl : l = .nil
      · have hr : r ≠ .nil := fun h2 => hleaf ⟨hl, h2⟩
        subst hl
        rw [show ((if (Tree.nil : Tree) = .nil then ([] : List Tree) else [Tree.nil]) ++
            (if r = .nil then ([] : List Tree) else [r]) ++
            Tree.node c k v Tree.nil r :: S)
            = r :: Tree.node c k v Tree.nil r :: S from by simp [hr]]
        have hn : (Tree.node c k v Tree.nil r).count + m = r.count + (m + 1) := by
          simp only [Tree.count]; omega
        rw [hn, ihr hr hcur (fun s hs _ => hfresh_r0 s hs) hndr]
        have hvisit : iterRun .postOrder (m + 1)
            ⟨some r, Tree.node c k v Tree.nil r :: S⟩
            = (iterRun .postOrder m ⟨some (Tree.node c k v Tree.nil r), S⟩).map
                (fun rest => (k, v) :: rest) := by
          rw [iterRun, if_neg (by simp [dict_iter_has_next])]
          simp only [iterNext, dict_iter_post_order]
          rw [iterPostGo_visit (Or.inr (Or.inr (by rw [optTree, if_neg hr])))]
          dsimp only
          cases hfin : iterRun .postOrder m
              ⟨some (Tree.node c k v Tree.nil r), S⟩ <;> simp [hfin]
        rw [hvisit]
        cases hfin : iterRun .postOrder m
            ⟨some (Tree.node c k v Tree.nil r), S⟩ <;> simp [hfin, postorderKV]
      · by_cases hr : r = .nil
        · subst hr
          rw [show ((if l = .nil then ([] : List Tree) else [l]) ++
              (if (Tree.nil : Tree) = .nil then ([] : List Tree) else [Tree.nil]) ++
              Tree.node c k v l Tree.nil :: S)
              = l :: Tree.node c k v l Tree.nil :: S from by simp [hl]]
          have hn : (Tree.node c k v l Tree.nil).count + m = l.count + (m + 1) := by
            simp only [Tree.count]; omega
          rw [hn, ihl hl hcur (fun s hs _ => hfresh_l0 s hs) hndl]
          have hvisit : iterRun .postOrder (m + 1)
              ⟨some l, Tree.node c k v l Tree.nil :: S⟩
              = (iterRun .postOrder m ⟨some (Tree.node c k v l Tree.nil), S⟩).map
                  (fun rest => (k, v) :: rest) := by
            rw [iterRun, if_neg (by simp [dict_iter_has_next])]
            simp only [iterNext, dict_iter_post_order]
            rw [iterPostGo_visit (Or.inr (Or.inl (by rw [optTree, if_neg hl])))]
            dsimp only
            cases hfin : iterRun .postOrder m
                ⟨some (Tree.node c k v l Tree.nil), S⟩ <;> simp [hfin]
          rw [hvisit]
          cases hfin : iterRun .postOrder m
              ⟨some (Tree.node c k v l Tree.nil), S⟩ <;> simp [hfin, postorderKV]
        · rw [show ((if l = .nil then ([] : List Tree) else [l]) ++
              (if r = .nil then ([] : List Tree) else [r]) ++
              Tree.node c k v l r :: S)
              = l :: r :: Tree.node c k v l r :: S from by simp [hl, hr]]
          have hn : (Tree.node c k v l r).count + m
              = l.count + (r.count + (m + 1)) := by
            simp only [Tree.count]; omega
          rw [hn, ihl hl hcur (fun s hs _ => hfresh_l0 s hs) hndl]
          have hlnr : l ∉ subtrees r := by
            cases l with
            | nil => exact absurd rfl hl
            | node lc lk lv ll lr0 =>
              refine node_not_mem_subtrees ?_
              intro hmem
              exact hlr lk root_key_mem lk (List.mem_cons_of_mem _ hmem) rfl
          have hstep : iterRun .postOrder (r.count + (m + 1))
              ⟨some l, r :: Tree.node c k v l r :: S⟩
              = (iterRun .postOrder (m + 1)
                  ⟨some r, Tree.node c k v l r :: S⟩).map
                  (fun rest => postorderKV r ++ rest) :=
            ihr hr (by simp)
              (fun s hs _ hsome => hlnr (Option.some.inj hsome ▸ hs)) hndr
          rw [hstep]
          have hvisit : iterRun .postOrder (m + 1)
              ⟨some r, Tree.node c k v l r :: S⟩
              = (iterRun .postOrder m ⟨some (Tree.node c k v l r), S⟩).map
                  (fun rest => (k, v) :: rest) := by
            rw [iterRun, if_neg (by simp [dict_iter_has_next])]
            simp only [iterNext, dict_iter_post_order]
            rw [iterPostGo_visit (Or.inr (Or.inr (by rw [optTree, if_neg hr])))]
            dsimp only
            cases hfin : iterRun .postOrder m
                ⟨some (Tree.node c k v l r), S⟩ <;> simp [hfin]
          rw [hvisit]
          cases hfin : iterRun .postOrder m
              ⟨some (Tree.node c k v l r), S⟩ <;> simp [hfin, postorderKV]

/-- An ordered tree has pairwise-distinct keys. -/
theorem ordered_keys_distinct {cmp : Ptr → Ptr → Int} (hL : CmpLawful cmp)
    {t : Tree} (h : Ordered cmp t) :
    List.Pairwise (fun a b => a ≠ b) ((inorderKV t).map Prod.fst) := by
  rw [List.pairwise_map]
  exact ((ordered_iff_pairwise hL).1 h).imp
    (fun hab he => by simp [he, hL.refl] at hab)

/-- The in-order sequence has one entry per node. -/
theorem inorderKV_length : ∀ t : Tree, (inorderKV t).length = t.count := by
  intro t
  induction t with
  | nil => rfl
  | node c k v l r ihl ihr =>
    simp only [inorderKV, Tree.count, List.length_append, List.length_cons, ihl, ihr]
    omega

/-- The complete in-order traversal of a size-consistent dictionary with
distinct keys emits the in-order (key, value) sequence. -/
theorem dictTraverse_in {d : Dict} (hsz : d.size = d.root.count)
    (hnd : List.Pairwise (fun a b => a ≠ b) ((inorderKV d.root).map Prod.fst)) :
    dictTraverse d .inOrder = some (inorderKV d.root) := by
  obtain ⟨root, size⟩ := d
  dsimp only at hsz hnd ⊢
  cases root with
  | nil =>
    simp only [Tree.count] at hsz
    subst hsz
    rfl
  | node c k v l r =>
    have hne : ¬ dict_empty ⟨Tree.node c k v l r, size⟩ = true := by
      simp [dict_empty, hsz, Tree.count]
    have hiter : dict_iter ⟨Tree.node c k v l r, size⟩ .inOrder
        = some ⟨some (Tree.node c k v l r), [Tree.node c k v l r]⟩ := by
      rw [dict_iter, if_neg hne, if_neg (by simp)]
      simp
    obtain ⟨RX, hRX, _⟩ := rightmostNode_spec (t := Tree.node c k v l r) (by simp)
    rw [dictTraverse, hiter]
    dsimp only
    rw [show stackCount [Tree.node c k v l r] + 1 = (Tree.node c k v l r).count + 1
        from by simp [stackCount]]
    rw [iterRun_in_spec (by simp) (by simp) hRX
      (fun s _ hne2 hsome => hne2 (Option.some.inj hsome)) hnd]
    rw [show iterRun .inOrder 1 ⟨some RX, []⟩ = some [] from by
      rw [iterRun, if_pos (by simp [dict_iter_has_next])]]
    simp

/-- The complete pre-order traversal of a size-consistent dictionary emits
the pre-order (key, value) sequence. -/
theorem dictTraverse_pre {d : Dict} (hsz : d.size = d.root.count) :
    dictTraverse d .preOrder = some (preorderKV d.root) := by
  obtain ⟨root, size⟩ := d
  dsimp only at hsz ⊢
  cases root with
  | nil =>
    simp only [Tree.count] at hsz
    subst hsz
    rfl
  | node c k v l r =>
    have hne : ¬ dict_empty ⟨Tree.node c k v l r, size⟩ = true := by
      simp [dict_empty, hsz, Tree.count]
    have hiter : dict_iter ⟨Tree.node c k v l r, size⟩ .preOrder
        = some ⟨none, [Tree.node c k v l r]⟩ := by
      rw [dict_iter, if_neg hne, if_neg (by simp)]
      simp
    rw [dictTraverse, hiter]
    dsimp only
    rw [iterRun_pre_spec (by omega) (by simp)]
    simp

/-- The complete post-order traversal of a size-consistent dictionary with
distinct keys emits the post-order (key, value) sequence. -/
theorem dictTraverse_post {d : Dict} (hsz : d.size = d.root.count)
    (hnd : List.Pairwise (fun a b => a ≠ b) ((inorderKV d.root).map Prod.fst)) :
    dictTraverse d .postOrder = some (postorderKV d.root) := by
  obtain ⟨root, size⟩ := d
  dsimp only at hsz hnd ⊢
  cases root with
  | nil =>
    simp only [Tree.count] at hsz
    subst hsz
    rfl
  | node c k v l r =>
    have hne : ¬ dict_empty ⟨Tree.node c k v l r, size⟩ = true := by
      simp [dict_empty, hsz, Tree.count]
    have hiter : dict_iter ⟨Tree.node c k v l r, size⟩ .postOrder
        = some ⟨some (Tree.node c k v l r), [Tree.node c k v l r]⟩ := by
      rw [dict_iter, if_neg hne, if_neg (by simp)]
      simp
    rw [dictTraverse, hiter]
    dsimp only
    rw [show stackCount [Tree.node c k v l r] + 1 = (Tree.node c k v l r).count + 1
        from by simp [stackCount]]
    rw [iterRun_post_spec (by simp) (by simp)
      (fun s _ hne2 hsome => hne2 (Option.some.inj hsome)) hnd]
    rw [show iterRun .postOrder 1 ⟨some (Tree.node c k v l r), []⟩ = some [] from by
      rw [iterRun, if_pos (by simp [dict_iter_has_next])]]
    simp

/-- Comparator equality is symmetric for a lawful comparator. -/
theorem cmp_zero_symm {cmp : Ptr → Ptr → Int} (hL : CmpLawful cmp) {a b : Ptr}
    (h : cmp a b = 0) : cmp b a = 0 := by
  have h2 := hL.compat a b a h
  rw [hL.refl a] at h2
  exact h2.symm

/-- The `dict_put` replay fold of `dict_clone` (`Dictionary.c` lines
216-218): inserting comparator-fresh, pairwise comparator-distinct nonzero
mappings into a black-rooted ordered dictionary succeeds and accumulates
exactly those mappings. -/
theorem cloneFold_spec {cmp : Ptr → Ptr → Int} (hL : CmpLawful cmp) :
    ∀ {kvs : List (Ptr × Ptr)} {d : Dict}, Ordered cmp d.root →
      colorOf d.root = .black →
      (∀ kv ∈ kvs, kv.1 ≠ 0 ∧ kv.2 ≠ 0) →
      (∀ kv ∈ kvs, ∀ e ∈ inorderKV d.root, cmp kv.1 e.1 ≠ 0) →
      List.Pairwise (fun a b => cmp a.1 b.1 ≠ 0) kvs →
      ∃ d2, kvs.foldlM
          (fun acc kv => (dict_put cmp acc kv.1 kv.2).map Prod.snd) d = some d2 ∧
        Ordered cmp d2.root ∧ colorOf d2.root = .black ∧
        d2.size = d.size + kvs.length ∧
        (inorderKV d2.root).Perm (kvs ++ inorderKV d.root) := by
  intro kvs
  induction kvs with
  | nil =>
    intro d hord hb _ _ _
    exact ⟨d, rfl, hord, hb, by simp, by simp⟩
  | cons kv rest ih =>
    intro d hord hb hnz hfresh hdist
    obtain ⟨k, v⟩ := kv
    obtain ⟨hk0, hv0⟩ := hnz (k, v) (List.mem_cons_self _ _)
    obtain ⟨ret, d1, hput, hb1⟩ := dict_put_isSome hb hk0 hv0
    obtain ⟨hmodel, hord1, hdisj⟩ := dict_put_spec hL hord hput
    have hfresh0 : ∀ e ∈ inorderKV d.root, ¬(k = e.1 ∨ cmp k e.1 = 0) := by
      intro e he hor
      rcases hor with h1 | h1
      · exact hfresh (k, v) (List.mem_cons_self _ _) e he (by rw [h1, hL.refl])
      · exact hfresh (k, v) (List.mem_cons_self _ _) e he h1
    have hsz1 : d1.size = d.size + 1 := by
      rcases hdisj with ⟨P, Q, k1, hPQ, -, hkey, -, -⟩ | ⟨-, hsz1, -⟩
      · refine absurd hkey (hfresh0 (k1, ret) ?_)
        rw [hPQ]
        simp
      · exact hsz1
    obtain ⟨A, B, hAB, hM⟩ := modelInsert_nomatch_decomp hfresh0
    have hperm1 : (inorderKV d1.root).Perm ((k, v) :: inorderKV d.root) := by
      rw [hmodel, hM, hAB]
      exact List.perm_middle
    have hfresh1 : ∀ kv2 ∈ rest, ∀ e ∈ inorderKV d1.root, cmp kv2.1 e.1 ≠ 0 := by
      intro kv2 hkv2 e he
      rcases List.mem_cons.1 ((hperm1.mem_iff).1 he) with rfl | he2
      · intro h0
        exact (List.pairwise_cons.1 hdist).1 kv2 hkv2 (cmp_zero_symm hL h0)
      · exact hfresh kv2 (List.mem_cons_of_mem _ hkv2) e he2
    obtain ⟨d2, hfold, hord2, hb2, hsz2, hperm2⟩ := ih hord1 hb1
      (fun kv2 h2 => hnz kv2 (List.mem_cons_of_mem _ h2)) hfresh1
      (List.pairwise_cons.1 hdist).2
    refine ⟨d2, ?_, hord2, hb2, ?_, ?_⟩
    · rw [List.foldlM_cons,
        show ((dict_put cmp d k v).map Prod.snd) = some d1 from by rw [hput]; rfl]
      exact hfold
    · rw [hsz2, hsz1, List.length_cons]
      omega
    · exact hperm2.trans ((List.Perm.append_left rest hperm1).trans List.perm_middle)

/-! ## Red-black invariant machinery -/

theorem color_not_red {c : Color} (h : ¬ c = .red) : c = .black := by
  cases c with
  | red => exact absurd rfl h
  | black => rfl

/-- Components of `noRedRed` at a node. -/
theorem noRedRed_node {c : Color} {k v : Ptr} {l r : Tree}
    (h : noRedRed (.node c k v l r) = true) :
    noRedRed l = true ∧ noRedRed r = true ∧
      (c = .red → colorOf l = .black ∧ colorOf r = .black) := by
  rw [noRedRed] at h
  simp only [Bool.and_eq_true, Bool.or_eq_true, decide_eq_true_eq] at h
  refine ⟨h.1.2, h.2, fun hr => ?_⟩
  refine h.1.1.resolve_left ?_
  rw [hr]
  simp

/-- Building `noRedRed` at a node. -/
theorem noRedRed_node_intro {c : Color} {k v : Ptr} {l r : Tree}
    (hl : noRedRed l = true) (hr : noRedRed r = true)
    (hc : c = .red → colorOf l = .black ∧ colorOf r = .black) :
    noRedRed (.node c k v l r) = true := by
  rw [noRedRed]
  simp only [Bool.and_eq_true, Bool.or_eq_true, decide_eq_true_eq]
  refine ⟨⟨?_, hl⟩, hr⟩
  cases hcc : c with
  | red => exact Or.inr (hc hcc)
  | black => exact Or.inl rfl

/-- Components of `blackHeight?` at a node. -/
theorem blackHeight_node {c : Color} {k v : Ptr} {l r : Tree} {m : Nat}
    (h : blackHeight? (.node c k v l r) = some m) :
    ∃ hb, blackHeight? l = some hb ∧ blackHeight? r = some hb ∧
      m = hb + colorBit c := by
  rw [blackHeight?] at h
  cases hl : blackHeight? l with
  | none => rw [hl] at h; exact Option.noConfusion h
  | some a =>
    cases hr : blackHeight? r with
    | none => rw [hl, hr] at h; exact Option.noConfusion h
    | some b =>
      rw [hl, hr] at h
      dsimp only at h
      by_cases hab : a = b
      · rw [if_pos hab] at h
        exact ⟨a, rfl, by rw [hab], (Option.some.inj h).symm⟩
      · rw [if_neg hab] at h
        exact Option.noConfusion h

/-- Building `blackHeight?` at a node. -/
theorem blackHeight_node_intro {c : Color} {k v : Ptr} {l r : Tree} {hb : Nat}
    (hl : blackHeight? l = some hb) (hr : blackHeight? r = some hb) :
    blackHeight? (.node c k v l r) = some (hb + colorBit c) := by
  rw [blackHeight?, hl, hr]
  simp [colorBit]

theorem noRedRed_plugFrame {x : Tree} {f : Frame}
    (hx : noRedRed x = true) (hs : noRedRed f.sibling = true)
    (hc : f.color = .red → colorOf x = .black ∧ colorOf f.sibling = .black) :
    noRedRed (plugFrame x f) = true := by
  cases hd : f.dir
  · rw [plugFrame, if_neg (by rw [hd]; exact Bool.false_ne_true)]
    exact noRedRed_node_intro hx hs hc
  · rw [plugFrame, if_pos (by rw [hd])]
    exact noRedRed_node_intro hs hx (fun hr => ⟨(hc hr).2, (hc hr).1⟩)

theorem blackHeight_plugFrame {x : Tree} {f : Frame} {h : Nat}
    (hx : blackHeight? x = some h) (hs : blackHeight? f.sibling = some h) :
    blackHeight? (plugFrame x f) = some (h + colorBit f.color) := by
  cases hd : f.dir
  · rw [plugFrame, if_neg (by rw [hd]; exact Bool.false_ne_true)]
    exact blackHeight_node_intro hx hs
  · rw [plugFrame, if_pos (by rw [hd])]
    exact blackHeight_node_intro hs hx

/-- Plugging a clean subtree into a clean context yields a clean tree. -/
theorem noRedRed_plug : ∀ {p : Path} {x : Tree},
    noRedRed x = true → ctxRR p (colorOf x) → noRedRed (plug x p) = true := by
  intro p
  induction p with
  | nil => intro x hx _; exact hx
  | cons f rest ih =>
    intro x hx hctx
    obtain ⟨hs, hc, htail⟩ := hctx
    rw [plug]
    refine ih (noRedRed_plugFrame hx hs hc) ?_
    rw [plugFrame_color]
    exact htail

/-- Plugging a consistent subtree into a consistent context yields the
context's total black height. -/
theorem blackHeight_plug : ∀ {p : Path} {x : Tree} {h H : Nat},
    blackHeight? x = some h → ctxBH p h = some H →
    blackHeight? (plug x p) = some H := by
  intro p
  induction p with
  | nil =>
    intro x h H hx hc
    rw [ctxBH] at hc
    obtain rfl := Option.some.inj hc
    exact hx
  | cons f rest ih =>
    intro x h H hx hc
    rw [ctxBH] at hc
    by_cases hs : blackHeight? f.sibling = some h
    · rw [if_pos hs] at hc
      rw [plug]
      exact ih (blackHeight_plugFrame hx hs) hc
    · rw [if_neg hs] at hc
      exact Option.noConfusion hc

/-- A clean tree decomposes into a clean subtree and a clean context. -/
theorem noRedRed_unplug : ∀ {p : Path} {x : Tree},
    noRedRed (plug x p) = true → noRedRed x = true ∧ ctxRR p (colorOf x) := by
  intro p
  induction p with
  | nil => intro x hx; exact ⟨hx, trivial⟩
  | cons f rest ih =>
    intro x hx
    rw [plug] at hx
    obtain ⟨hpf, hctx⟩ := ih hx
    rw [plugFrame_color] at hctx
    cases hd : f.dir
    · rw [plugFrame, if_neg (by rw [hd]; exact Bool.false_ne_true)] at hpf
      obtain ⟨h1, h2, h3⟩ := noRedRed_node hpf
      exact ⟨h1, h2, h3, hctx⟩
    · rw [plugFrame, if_pos (by rw [hd])] at hpf
      obtain ⟨h1, h2, h3⟩ := noRedRed_node hpf
      exact ⟨h2, h1, fun hr => ⟨(h3 hr).2, (h3 hr).1⟩, hctx⟩

/-- A consistent tree decomposes into a consistent subtree and context. -/
theorem blackHeight_unplug : ∀ {p : Path} {x : Tree} {H : Nat},
    blackHeight? (plug x p) = some H →
    ∃ h, blackHeight? x = some h ∧ ctxBH p h = some H := by
  intro p
  induction p with
  | nil => intro x H hx; exact ⟨H, hx, rfl⟩
  | cons f rest ih =>
    intro x H hx
    rw [plug] at hx
    obtain ⟨h1, hpf, hctx⟩ := ih hx
    cases hd : f.dir
    · rw [plugFrame, if_neg (by rw [hd]; exact Bool.false_ne_true)] at hpf
      obtain ⟨hb, hxl, hsr, hm⟩ := blackHeight_node hpf
      refine ⟨hb, hxl, ?_⟩
      rw [ctxBH, if_pos hsr, ← hm]
      exact hctx
    · rw [plugFrame, if_pos (by rw [hd])] at hpf
      obtain ⟨hb, hsl, hxr, hm⟩ := blackHeight_node hpf
      refine ⟨hb, hxr, ?_⟩
      rw [ctxBH, if_pos hsl, ← hm]
      exact hctx

/-- A context clean for a RED occupant is clean for any occupant. -/
theorem ctxRR_any : ∀ {p : Path} {c : Color}, ctxRR p .red → ctxRR p c := by
  intro p c h
  cases p with
  | nil => trivial
  | cons f rest =>
    obtain ⟨hs, hc, htail⟩ := h
    exact ⟨hs, fun hr => absurd (hc hr).1 (by decide), htail⟩

/-- Neither red-black invariant reads keys or values. -/
theorem noRedRed_kv {c : Color} {k k2 v w : Ptr} {l r : Tree} :
    noRedRed (.node c k v l r) = noRedRed (.node c k2 w l r) := by
  rw [noRedRed, noRedRed]

theorem blackHeight_kv {c : Color} {k k2 v w : Ptr} {l r : Tree} :
    blackHeight? (.node c k v l r) = blackHeight? (.node c k2 w l r) := by
  rw [blackHeight?, blackHeight?]

/-- Unfolding one frame of `ctxBH`. -/
theorem ctxBH_cons {f : Frame} {p : Path} {h H : Nat}
    (hc : ctxBH (f :: p) h = some H) :
    blackHeight? f.sibling = some h ∧ ctxBH p (h + colorBit f.color) = some H := by
  rw [ctxBH] at hc
  by_cases hs : blackHeight? f.sibling = some h
  · rw [if_pos hs] at hc
    exact ⟨hs, hc⟩
  · rw [if_neg hs] at hc
    exact Option.noConfusion hc

/-- The red-red fixup restores the red-black invariants: a clean child with a
consistent black height, in a context that is clean for a BLACK occupant,
rebuilds to a tree with no red-red adjacency and a well-defined black
height. -/
theorem red_red_rb : ∀ {child : Tree} {p : Path} {t : Tree},
    red_red child p = some t →
    ∀ {h H : Nat},
      noRedRed child = true →
      blackHeight? child = some h →
      ctxBH p h = some H →
      ctxRR p .black →
      noRedRed t = true ∧ ∃ H2, blackHeight? t = some H2 := by
  intro child p
  induction child, p using red_red.induct with
  | case1 child =>
    intro t ht
    exact Option.noConfusion ht
  | case2 child f path hcol =>
    intro t ht h H hnrr hbh hcb hctx
    rw [red_red.eq_def] at ht
    simp only [if_pos hcol] at ht
    obtain rfl := Option.some.inj ht
    obtain ⟨hs, hc, htail⟩ := hctx
    obtain ⟨hsb, hcb2⟩ := ctxBH_cons hcb
    have hcond : f.color = .red →
        colorOf child = .black ∧ colorOf f.sibling = .black := by
      intro hr
      exact ⟨color_not_red fun hcr => hcol ⟨hcr, hr⟩, (hc hr).2⟩
    constructor
    · refine noRedRed_plug (noRedRed_plugFrame hnrr hs hcond) ?_
      rw [plugFrame_color]
      exact htail
    · exact ⟨H, blackHeight_plug (blackHeight_plugFrame hbh hsb) hcb2⟩
  | case3 child f hcol =>
    intro t ht h H hnrr hbh hcb hctx
    rw [red_red.eq_def] at ht
    simp only [if_neg hcol] at ht
    exact Option.noConfusion ht
  | case4 child f hcol g2 tail hred hnil =>
    intro t ht h H hnrr hbh hcb hctx
    rw [hnil] at hred
    simp [colorOf] at hred
  | case5 child f hcol g2 hred uc uk uv ul ur hsib =>
    intro t ht h H hnrr hbh hcb hctx
    rw [red_red.eq_def] at ht
    rw [hsib] at hred
    simp only [if_neg hcol, hsib, if_pos hred] at ht
    obtain rfl := Option.some.inj ht
    obtain ⟨hviol1, hviol2⟩ := not_not.mp hcol
    obtain ⟨hsf, hcf, hsg, hcg, -⟩ := hctx
    have hgb : g2.color = .black := by
      by_cases hg2c : g2.color = .red
      · have h2 := (hcg hg2c).1
        rw [hviol2] at h2
        exact Color.noConfusion h2
      · exact color_not_red hg2c
    obtain ⟨hsbf, hcb2⟩ := ctxBH_cons hcb
    obtain ⟨hsbg, hcb3⟩ := ctxBH_cons hcb2
    rw [hviol2] at hsbg
    simp [colorBit] at hsbg
    rw [hsib] at hsg hsbg
    obtain ⟨hnul, hnur, -⟩ := noRedRed_node hsg
    rw [colorOf] at hred
    obtain ⟨hbu, hbul, hbur, hmu⟩ := blackHeight_node hsbg
    rw [hred] at hmu
    simp [colorBit] at hmu
    subst hmu
    have hfsb : colorOf f.sibling = .black := (hcf hviol2).2
    have huB : noRedRed (.node .black uk uv ul ur) = true :=
      noRedRed_node_intro hnul hnur (fun hcc => Color.noConfusion hcc)
    have hbuB : blackHeight? (.node Color.black uk uv ul ur) = some (h + 1) :=
      blackHeight_node_intro hbul hbur
    have hpB : noRedRed (plugFrame child { f with color := Color.black }) = true := by
      refine noRedRed_plugFrame hnrr hsf ?_
      intro hr
      exact Color.noConfusion hr
    have hbpB : blackHeight?
        (plugFrame child { f with color := Color.black }) = some (h + 1) :=
      blackHeight_plugFrame hbh hsbf
    have hpBc : colorOf (plugFrame child { f with color := Color.black })
        = Color.black := plugFrame_color child _
    refine ⟨?_, ⟨h + 1 + colorBit g2.color, ?_⟩⟩
    · cases hgd : g2.dir
      · rw [if_neg Bool.false_ne_true]
        refine noRedRed_node_intro hpB huB (fun hgc => ?_)
        rw [hgb] at hgc
        exact Color.noConfusion hgc
      · rw [if_pos rfl]
        refine noRedRed_node_intro huB hpB (fun hgc => ?_)
        rw [hgb] at hgc
        exact Color.noConfusion hgc
    · cases hgd : g2.dir
      · rw [if_neg Bool.false_ne_true]
        exact blackHeight_node_intro hbpB hbuB
      · rw [if_pos rfl]
        exact blackHeight_node_intro hbuB hbpB
  | case6 child f hcol g2 hred uc uk uv ul ur hsib uncleB parentB gtree h1 =>
    rename_i ih
    intro t ht h H hnrr hbh hcb hctx
    rw [red_red.eq_def] at ht
    rw [hsib] at hred
    simp only [if_neg hcol, hsib, if_pos hred] at ht
    obtain ⟨hviol1, hviol2⟩ := not_not.mp hcol
    obtain ⟨hsf, hcf, hsg, hcg, htail⟩ := hctx
    have hgb : g2.color = .black := by
      by_cases hg2c : g2.color = .red
      · have h2 := (hcg hg2c).1
        rw [hviol2] at h2
        exact Color.noConfusion h2
      · exact color_not_red hg2c
    obtain ⟨hsbf, hcb2⟩ := ctxBH_cons hcb
    obtain ⟨hsbg, hcb3⟩ := ctxBH_cons hcb2
    rw [hviol2] at hsbg hcb3
    simp [colorBit] at hsbg hcb3
    rw [hgb] at hcb3
    simp [colorBit] at hcb3
    rw [hsib] at hsg hsbg
    obtain ⟨hnul, hnur, -⟩ := noRedRed_node hsg
    rw [colorOf] at hred
    obtain ⟨hbu, hbul, hbur, hmu⟩ := blackHeight_node hsbg
    rw [hred] at hmu
    simp [colorBit] at hmu
    subst hmu
    have hfsb : colorOf f.sibling = .black := (hcf hviol2).2
    have huB : noRedRed (.node .black uk uv ul ur) = true :=
      noRedRed_node_intro hnul hnur (fun hcc => Color.noConfusion hcc)
    have hbuB : blackHeight? (.node Color.black uk uv ul ur) = some (h + 1) :=
      blackHeight_node_intro hbul hbur
    have hpB : noRedRed (plugFrame child { f with color := Color.black }) = true := by
      refine noRedRed_plugFrame hnrr hsf ?_
      intro hr
      exact Color.noConfusion hr
    have hbpB : blackHeight?
        (plugFrame child { f with color := Color.black }) = some (h + 1) :=
      blackHeight_plugFrame hbh hsbf
    have hpBc : colorOf (plugFrame child { f with color := Color.black })
        = Color.black := plugFrame_color child _
    have hgt_nrr : noRedRed (gtree .red) = true := by
      show noRedRed (if g2.dir then
          Tree.node .red g2.key g2.value uncleB (plugFrame child parentB)
        else Tree.node .red g2.key g2.value (plugFrame child parentB) uncleB) = true
      cases hgd : g2.dir
      · rw [if_neg Bool.false_ne_true]
        exact noRedRed_node_intro hpB huB (fun _ => ⟨hpBc, rfl⟩)
      · rw [if_pos rfl]
        exact noRedRed_node_intro huB hpB (fun _ => ⟨rfl, hpBc⟩)
    have hgt_bh : blackHeight? (gtree .red) = some (h + 1) := by
      show blackHeight? (if g2.dir then
          Tree.node .red g2.key g2.value uncleB (plugFrame child parentB)
        else Tree.node .red g2.key g2.value (plugFrame child parentB) uncleB)
        = some (h + 1)
      cases hgd : g2.dir
      · rw [if_neg Bool.false_ne_true]
        exact blackHeight_node_intro hbpB hbuB
      · rw [if_pos rfl]
        exact blackHeight_node_intro hbuB hbpB
    refine ih ht hgt_nrr hgt_bh hcb3 ?_
    rw [hgb] at htail
    exact htail
  | case7 f g2 tail hsibred hdir hcol =>
    intro t ht h H hnrr hbh hcb hctx
    simp [colorOf] at hcol
  | case8 f g2 tail hsibred hdir cc ck cv cl cr hcol =>
    intro t ht h H hnrr hbh hcb hctx
    rw [red_red.eq_def] at ht
    simp only [if_neg hcol, if_neg hsibred, if_pos hdir] at ht
    obtain rfl := Option.some.inj ht
    obtain ⟨hviol1, hviol2⟩ := not_not.mp hcol
    rw [colorOf] at hviol1
    obtain ⟨hsf, hcf, hsg, hcg, htail⟩ := hctx
    have hgb : g2.color = .black := by
      by_cases hg2c : g2.color = .red
      · have h2 := (hcg hg2c).1
        rw [hviol2] at h2
        exact Color.noConfusion h2
      · exact color_not_red hg2c
    have husb : colorOf g2.sibling = .black := color_not_red hsibred
    obtain ⟨hsbf, hcb2⟩ := ctxBH_cons hcb
    obtain ⟨hsbg, hcb3⟩ := ctxBH_cons hcb2
    rw [hviol2] at hsbg hcb3
    simp [colorBit] at hsbg hcb3
    rw [hgb] at hcb3
    simp [colorBit] at hcb3
    obtain ⟨hncl, hncr, hccc⟩ := noRedRed_node hnrr
    obtain ⟨hclb, hcrb⟩ := hccc hviol1
    obtain ⟨hbc, hbcl, hbcr, hmc⟩ := blackHeight_node hbh
    rw [hviol1] at hmc
    simp [colorBit] at hmc
    subst hmc
    have hfsb : colorOf f.sibling = .black := (hcf hviol2).2
    cases hfd : f.dir <;> cases hgd : g2.dir
    · exact absurd (hfd.trans hgd.symm) hdir
    · -- f.dir = false, g2.dir = true
      rw [rotateUp, if_neg (by rw [hfd]; exact Bool.false_ne_true)]
      rw [rotateUp, if_pos rfl]
      rw [hviol2]
      have hA : noRedRed (Tree.node .red g2.key g2.value g2.sibling cl) = true :=
        noRedRed_node_intro hsg hncl (fun _ => ⟨husb, hclb⟩)
      have hB : noRedRed (Tree.node .red f.key f.value cr f.sibling) = true :=
        noRedRed_node_intro hncr hsf (fun _ => ⟨hcrb, hfsb⟩)
      have hbA : blackHeight? (Tree.node Color.red g2.key g2.value g2.sibling cl)
          = some h := blackHeight_node_intro hsbg hbcl
      have hbB : blackHeight? (Tree.node Color.red f.key f.value cr f.sibling)
          = some h := blackHeight_node_intro hbcr hsbf
      refine ⟨noRedRed_plug (noRedRed_node_intro hA hB
        (fun hcc => Color.noConfusion hcc)) ?_,
        H, blackHeight_plug (blackHeight_node_intro hbA hbB) hcb3⟩
      rw [hgb] at htail
      rw [colorOf]
      exact htail
    · -- f.dir = true, g2.dir = false
      rw [rotateUp, if_pos (by rw [hfd])]
      rw [rotateUp, if_neg Bool.false_ne_true]
      rw [hviol2]
      have hA : noRedRed (Tree.node .red f.key f.value f.sibling cl) = true :=
        noRedRed_node_intro hsf hncl (fun _ => ⟨hfsb, hclb⟩)
      have hB : noRedRed (Tree.node .red g2.key g2.value cr g2.sibling) = true :=
        noRedRed_node_intro hncr hsg (fun _ => ⟨hcrb, husb⟩)
      have hbA : blackHeight? (Tree.node Color.red f.key f.value f.sibling cl)
          = some h := blackHeight_node_intro hsbf hbcl
      have hbB : blackHeight? (Tree.node Color.red g2.key g2.value cr g2.sibling)
          = some h := blackHeight_node_intro hbcr hsbg
      refine ⟨noRedRed_plug (noRedRed_node_intro hA hB
        (fun hcc => Color.noConfusion hcc)) ?_,
        H, blackHeight_plug (blackHeight_node_intro hbA hbB) hcb3⟩
      rw [hgb] at htail
      rw [colorOf]
      exact htail
    · exact absurd (hfd.trans hgd.symm) hdir
  | case9 child f hcol g2 tail hsibred hdir =>
    intro t ht h H hnrr hbh hcb hctx
    rw [red_red.eq_def] at ht
    simp only [if_neg hcol, if_neg hsibred, if_neg hdir] at ht
    obtain rfl := Option.some.inj ht
    obtain ⟨hviol1, hviol2⟩ := not_not.mp hcol
    obtain ⟨hsf, hcf, hsg, hcg, htail⟩ := hctx
    have hgb : g2.color = .black := by
      by_cases hg2c : g2.color = .red
      · have h2 := (hcg hg2c).1
        rw [hviol2] at h2
        exact Color.noConfusion h2
      · exact color_not_red hg2c
    have husb : colorOf g2.sibling = .black := color_not_red hsibred
    obtain ⟨hsbf, hcb2⟩ := ctxBH_cons hcb
    obtain ⟨hsbg, hcb3⟩ := ctxBH_cons hcb2
    rw [hviol2] at hsbg hcb3
    simp [colorBit] at hsbg hcb3
    rw [hgb] at hcb3
    simp [colorBit] at hcb3
    have hfsb : colorOf f.sibling = .black := (hcf hviol2).2
    have hfg : f.dir = g2.dir := not_not.mp hdir
    cases hfd : f.dir <;> cases hgd : g2.dir
    · -- f.dir = false, g2.dir = false
      rw [plugFrame, if_neg Bool.false_ne_true]
      rw [rotateUp, if_neg Bool.false_ne_true]
      have hA : noRedRed (Tree.node .red g2.key g2.value f.sibling g2.sibling) = true :=
        noRedRed_node_intro hsf hsg (fun _ => ⟨hfsb, husb⟩)
      have hbA : blackHeight? (Tree.node Color.red g2.key g2.value f.sibling g2.sibling)
          = some h := blackHeight_node_intro hsbf hsbg
      refine ⟨noRedRed_plug (noRedRed_node_intro hnrr hA
        (fun hcc => Color.noConfusion hcc)) ?_,
        H, blackHeight_plug (blackHeight_node_intro hbh hbA) hcb3⟩
      rw [hgb] at htail
      rw [colorOf]
      exact htail
    · rw [hfd, hgd] at hfg
      exact Bool.noConfusion hfg
    · rw [hfd, hgd] at hfg
      exact Bool.noConfusion hfg
    · -- f.dir = true, g2.dir = true
      rw [plugFrame, if_pos rfl]
      rw [rotateUp, if_pos rfl]
      have hA : noRedRed (Tree.node .red g2.key g2.value g2.sibling f.sibling) = true :=
        noRedRed_node_intro hsg hsf (fun _ => ⟨husb, hfsb⟩)
      have hbA : blackHeight? (Tree.node Color.red g2.key g2.value g2.sibling f.sibling)
          = some h := blackHeight_node_intro hsbg hsbf
      refine ⟨noRedRed_plug (noRedRed_node_intro hA hnrr
        (fun hcc => Color.noConfusion hcc)) ?_,
        H, blackHeight_plug (blackHeight_node_intro hbA hbh) hcb3⟩
      rw [hgb] at htail
      rw [colorOf]
      exact htail

/-- A completed `dict_put` preserves the red-red and black-height
invariants. -/
theorem dict_put_rb {cmp : Ptr → Ptr → Int} {d : Dict} {key value ret : Ptr}
    {d2 : Dict} (hp : dict_put cmp d key value = some (ret, d2))
    (hnrr : noRedRed d.root = true) (hbh : (blackHeight? d.root).isSome) :
    noRedRed d2.root = true ∧ (blackHeight? d2.root).isSome := by
  rw [dict_put] at hp
  by_cases h0 : key = 0 ∨ value = 0
  · rw [if_pos h0] at hp
    exact Option.noConfusion hp
  rw [if_neg h0] at hp
  cases hbs : bsearch cmp key d.root [] with
  | none =>
    rw [hbs] at hp
    dsimp only at hp
    obtain ⟨-, hd2⟩ : (0 : Ptr) = ret ∧
        ({ root := Tree.node .black key value .nil .nil,
           size := d.size + 1 } : Dict) = d2 := by
      have h2 := Prod.mk.injEq .. ▸ Option.some.inj hp
      exact ⟨h2.1, h2.2⟩
    rw [← hd2]
    exact ⟨rfl, rfl⟩
  | some pr =>
    obtain ⟨loc, c⟩ := pr
    rw [hbs] at hp
    dsimp only at hp
    obtain ⟨frames, hpath, hplug, hcc, hlt, hgt⟩ := bsearch_spec hbs
    rw [List.append_nil] at hpath
    rw [← hplug] at hnrr
    obtain ⟨hnf, hctx⟩ := noRedRed_unplug hnrr
    obtain ⟨H, hbH⟩ := Option.isSome_iff_exists.1 hbh
    rw [← hplug] at hbH
    obtain ⟨hh, hbf, hcbH⟩ := blackHeight_unplug hbH
    obtain ⟨hnl, hnr2, hcolcond⟩ := noRedRed_node (l := loc.left) (r := loc.right) hnf
    obtain ⟨hb0, hbl, hbr, hm⟩ := blackHeight_node (l := loc.left) (r := loc.right) hbf
    by_cases hc0 : c = 0
    · rw [if_pos hc0] at hp
      obtain ⟨-, hd2⟩ : loc.value = ret ∧
          ({ root := plug (Tree.node loc.color loc.key value loc.left loc.right)
              loc.path, size := d.size } : Dict) = d2 := by
        have h2 := Prod.mk.injEq .. ▸ Option.some.inj hp
        exact ⟨h2.1, h2.2⟩
      rw [← hd2]
      dsimp only
      rw [hpath]
      constructor
      · refine noRedRed_plug ?_ hctx
        rw [show noRedRed (Tree.node loc.color loc.key value loc.left loc.right)
            = noRedRed (Tree.node loc.color loc.key loc.value loc.left loc.right)
            from noRedRed_kv]
        exact hnf
      · refine Option.isSome_iff_exists.2 ⟨H, ?_⟩
        refine blackHeight_plug ?_ hcbH
        rw [show blackHeight? (Tree.node loc.color loc.key value loc.left loc.right)
            = blackHeight? (Tree.node loc.color loc.key loc.value loc.left loc.right)
            from blackHeight_kv]
        exact hbf
    · rw [if_neg hc0] at hp
      rcases lt_trichotomy c 0 with hlt0 | h00 | hgt0
      · -- key smaller: descend left, left child empty
        have hln : loc.left = .nil := hlt hlt0
        rw [if_neg (by omega : ¬ c > 0)] at hp
        obtain rfl : hb0 = 0 := by
          rw [hln] at hbl
          have h2 : (some 0 : Option Nat) = some hb0 := hbl
          exact (Option.some.inj h2).symm
        cases hrr : red_red (Tree.node .red key value .nil .nil)
            (⟨false, loc.color, loc.key, loc.value, loc.right⟩ :: loc.path) with
        | none =>
          rw [hrr] at hp
          exact Option.noConfusion hp
        | some t2 =>
          rw [hrr] at hp
          dsimp only at hp
          obtain ⟨-, hd2⟩ : (0 : Ptr) = ret ∧
              ({ root := t2, size := d.size + 1 } : Dict) = d2 := by
            have h2 := Prod.mk.injEq .. ▸ Option.some.inj hp
            exact ⟨h2.1, h2.2⟩
          rw [← hd2]
          have hcb : ctxBH (⟨false, loc.color, loc.key, loc.value, loc.right⟩
              :: loc.path) 0 = some H := by
            rw [ctxBH, if_pos hbr]
            rw [hpath]
            exact hm ▸ hcbH
          have hcr : ctxRR (⟨false, loc.color, loc.key, loc.value, loc.right⟩
              :: loc.path) .black := by
            refine ⟨hnr2, fun hr => ⟨rfl, (hcolcond hr).2⟩, ?_⟩
            rw [hpath]
            exact hctx
          obtain ⟨hn2, H2, hb2⟩ := red_red_rb hrr rfl rfl hcb hcr
          exact ⟨hn2, Option.isSome_iff_exists.2 ⟨H2, hb2⟩⟩
      · exact absurd h00 hc0
      · -- key greater: descend right, right child empty
        have hrn : loc.right = .nil := hgt hgt0
        rw [if_pos hgt0] at hp
        obtain rfl : hb0 = 0 := by
          rw [hrn] at hbr
          have h2 : (some 0 : Option Nat) = some hb0 := hbr
          exact (Option.some.inj h2).symm
        cases hrr : red_red (Tree.node .red key value .nil .nil)
            (⟨true, loc.color, loc.key, loc.value, loc.left⟩ :: loc.path) with
        | none =>
          rw [hrr] at hp
          exact Option.noConfusion hp
        | some t2 =>
          rw [hrr] at hp
          dsimp only at hp
          obtain ⟨-, hd2⟩ : (0 : Ptr) = ret ∧
              ({ root := t2, size := d.size + 1 } : Dict) = d2 := by
            have h2 := Prod.mk.injEq .. ▸ Option.some.inj hp
            exact ⟨h2.1, h2.2⟩
          rw [← hd2]
          have hcb : ctxBH (⟨true, loc.color, loc.key, loc.value, loc.left⟩
              :: loc.path) 0 = some H := by
            rw [ctxBH, if_pos hbl]
            rw [hpath]
            exact hm ▸ hcbH
          have hcr : ctxRR (⟨true, loc.color, loc.key, loc.value, loc.left⟩
              :: loc.path) .black := by
            refine ⟨hnl, fun hr => ⟨rfl, (hcolcond hr).1⟩, ?_⟩
            rw [hpath]
            exact hctx
          obtain ⟨hn2, H2, hb2⟩ := red_red_rb hrr rfl rfl hcb hcr
          exact ⟨hn2, Option.isSome_iff_exists.2 ⟨H2, hb2⟩⟩

theorem color_not_black {c : Color} (h : ¬ c = .black) : c = .red := by
  cases c with
  | red => rfl
  | black => exact absurd rfl h

/-- Building one frame of `ctxBH`. -/
theorem ctxBH_cons_intro {f : Frame} {p : Path} {h : Nat} {R : Option Nat}
    (hs : blackHeight? f.sibling = some h)
    (ht : ctxBH p (h + colorBit f.color) = R) :
    ctxBH (f :: p) h = R := by
  rw [ctxBH, if_pos hs, ht]

/-- The double-black fixup repairs a one-short subtree: from a context that
expects black height `b + 1` at the hole and is clean for a BLACK occupant,
it produces a consistent context that expects `b` and whose innermost frame
tolerates an occupant of any colour. -/
theorem dbGo_rb : ∀ {n : Nat} {focus : Tree} {p p2 : Path},
    dbGo n focus p = some p2 →
    ∀ {b H : Nat},
      ctxBH p (b + 1) = some H →
      ctxRR p .black →
      (∃ H2, ctxBH p2 b = some H2) ∧ ctxRR p2 .red := by
  intro n
  induction n with
  | zero => intro focus p p2 h; exact Option.noConfusion h
  | succ n ih =>
    intro focus p p2 h
    match p with
    | [] => exact Option.noConfusion h
    | f :: rest =>
      intro b H hcb hcr
      rw [dbGo] at h
      cases hs : f.sibling with
      | nil => rw [hs] at h; exact Option.noConfusion h
      | node sc sk sv sl sr =>
        rw [hs] at h
        obtain ⟨hsbf, hcb2⟩ := ctxBH_cons hcb
        rw [hs] at hsbf
        obtain ⟨hsf, hcf, htail⟩ := hcr
        rw [hs] at hsf hcf
        obtain ⟨hnsl, hnsr, hscc⟩ := noRedRed_node hsf
        obtain ⟨hbs0, hbsl, hbsr, hms⟩ := blackHeight_node hsbf
        cases hd : f.dir with
        | false =>
          simp only [hd, Bool.false_eq_true, if_false] at h
          split_ifs at h with h2 h3 h4 h5 h6
          · -- Case One: BLACK parent, RED sibling — rotate and recurse.
            obtain ⟨hfb, hscr, hncb, hnfb⟩ := h2
            have hbs0e : hbs0 = b + 1 := by
              rw [hscr] at hms
              simp [colorBit] at hms
              omega
            rw [hbs0e] at hbsl hbsr
            have hnew : ctxBH (⟨false, .red, f.key, f.value, sl⟩ ::
                ⟨false, .black, sk, sv, sr⟩ :: rest) (b + 1) = some H := by
              refine ctxBH_cons_intro hbsl (ctxBH_cons_intro hbsr ?_)
              rw [hfb] at hcb2
              exact hcb2
            refine ih h hnew ?_
            refine ⟨hnsl, fun _ => ⟨rfl, hncb⟩,
              hnsr, fun hcc => Color.noConfusion hcc, ?_⟩
            rw [hfb] at htail
            exact htail
          · -- Case Two: all BLACK — recolour sibling RED, deficit moves up.
            obtain ⟨hfb, hscb, hncb, hnfb⟩ := h3
            have hbs0e : hbs0 = b := by
              rw [hscb] at hms
              simp [colorBit] at hms
              omega
            rw [hbs0e] at hbsl hbsr
            have hsib2 : noRedRed (Tree.node .red sk sv sl sr) = true :=
              noRedRed_node_intro hnsl hnsr (fun _ => ⟨hncb, hnfb⟩)
            have hbsib2 : blackHeight? (Tree.node Color.red sk sv sl sr) = some b :=
              blackHeight_node_intro hbsl hbsr
            cases rest with
            | nil =>
              obtain rfl := Option.some.inj h
              refine ⟨⟨b + colorBit f.color, ctxBH_cons_intro hbsib2 rfl⟩, ?_⟩
              refine ⟨hsib2, fun hcc => ?_, trivial⟩
              rw [hfb] at hcc
              exact Color.noConfusion hcc
            | cons g rest2 =>
              dsimp only at h
              cases hin : dbGo n (plugFrame focus
                  ⟨false, f.color, f.key, f.value, Tree.node .red sk sv sl sr⟩)
                  (g :: rest2) with
              | none => rw [hin] at h; exact Option.noConfusion h
              | some path2 =>
                rw [hin] at h
                obtain rfl := Option.some.inj h
                obtain ⟨⟨H2, hcbp2⟩, hrrp2⟩ := ih hin
                  (by rw [hfb] at hcb2; exact hcb2)
                  (by rw [hfb] at htail; exact htail)
                refine ⟨⟨H2, ctxBH_cons_intro hbsib2 ?_⟩, ?_⟩
                · rw [hfb]
                  exact hcbp2
                · refine ⟨hsib2, fun hcc => ?_, ctxRR_any hrrp2⟩
                  rw [hfb] at hcc
                  exact Color.noConfusion hcc
          · -- Case Three: RED parent — recolour parent BLACK and sibling RED.
            obtain ⟨hfr, hscb, hncb, hnfb⟩ := h4
            have hbs0e : hbs0 = b := by
              rw [hscb] at hms
              simp [colorBit] at hms
              omega
            rw [hbs0e] at hbsl hbsr
            obtain rfl := Option.some.inj h
            have hsib2 : noRedRed (Tree.node .red sk sv sl sr) = true :=
              noRedRed_node_intro hnsl hnsr (fun _ => ⟨hncb, hnfb⟩)
            have hbsib2 : blackHeight? (Tree.node Color.red sk sv sl sr) = some b :=
              blackHeight_node_intro hbsl hbsr
            refine ⟨⟨H, ctxBH_cons_intro hbsib2 ?_⟩, ?_⟩
            · rw [hfr] at hcb2
              exact hcb2
            · refine ⟨hsib2, fun hcc => Color.noConfusion hcc, ?_⟩
              rw [hfr] at htail
              exact ctxRR_any htail
          · -- Case Four: RED near nephew — rotate it over the sibling, recurse.
            obtain ⟨hncr, hnfb⟩ := h5
            have hscb : sc = .black := by
              by_cases hsc : sc = .red
              · have hx := (hscc hsc).1
                rw [hncr] at hx
                exact Color.noConfusion hx
              · exact color_not_red hsc
            have hbs0e : hbs0 = b := by
              rw [hscb] at hms
              simp [colorBit] at hms
              omega
            rw [hbs0e] at hbsl hbsr
            cases hnc : sl with
            | nil => rw [hnc] at h; exact Option.noConfusion h
            | node nco nk nv nl nr =>
              rw [hnc] at h
              rw [hnc] at hbsl hnsl hncr
              rw [colorOf] at hncr
              obtain ⟨hnnl, hnnr, hnlrb⟩ := noRedRed_node hnsl
              obtain ⟨hb2, hbnl, hbnr, hm2⟩ := blackHeight_node hbsl
              rw [hncr] at hm2
              simp [colorBit] at hm2
              subst hm2
              obtain ⟨hnlb, hnrb⟩ := hnlrb hncr
              have hinner : noRedRed (Tree.node .red sk sv nr sr) = true :=
                noRedRed_node_intro hnnr hnsr (fun _ => ⟨hnrb, hnfb⟩)
              have hbinner : blackHeight? (Tree.node Color.red sk sv nr sr)
                  = some b := blackHeight_node_intro hbnr hbsr
              have hsib2 : noRedRed (Tree.node .black nk nv nl
                  (Tree.node .red sk sv nr sr)) = true :=
                noRedRed_node_intro hnnl hinner (fun hcc => Color.noConfusion hcc)
              have hbsib2 : blackHeight? (Tree.node Color.black nk nv nl
                  (Tree.node Color.red sk sv nr sr)) = some (b + 1) :=
                blackHeight_node_intro hbnl hbinner
              refine ih h (ctxBH_cons_intro hbsib2 hcb2) ?_
              exact ⟨hsib2, fun _ => ⟨rfl, rfl⟩, htail⟩
          · -- Case Five/Six at the root: RED far nephew, parent is the root.
            have hscb : sc = .black := by
              by_cases hsc : sc = .red
              · obtain ⟨hslb, hsrb⟩ := hscc hsc
                have hfred : f.color = .red := by
                  by_cases hfc : f.color = .black
                  · exact absurd ⟨hfc, hsc, hslb, hsrb⟩ h2
                  · exact color_not_black hfc
                have hx := (hcf hfred).2
                rw [colorOf] at hx
                rw [hx] at hsc
                exact Color.noConfusion hsc
              · exact color_not_red hsc
            have hbs0e : hbs0 = b := by
              rw [hscb] at hms
              simp [colorBit] at hms
              omega
            rw [hbs0e] at hbsl hbsr
            have hsrr : colorOf sr = .red := by
              by_cases hsrc : colorOf sr = .red
              · exact hsrc
              · have hsrb := color_not_red hsrc
                have hslb : colorOf sl = .black := by
                  by_cases hslc : colorOf sl = .red
                  · exact absurd ⟨hslc, hsrb⟩ h5
                  · exact color_not_red hslc
                cases hfc : f.color with
                | red => exact absurd ⟨hfc, hscb, hslb, hsrb⟩ h4
                | black => exact absurd ⟨hfc, hscb, hslb, hsrb⟩ h3
            cases hnf : sr with
            | nil => rw [hnf] at h; exact Option.noConfusion h
            | node fc2 fk2 fv2 fl2 fr2 =>
              rw [hnf] at h
              rw [hnf] at hbsr hnsr hsrr
              rw [colorOf] at hsrr
              obtain ⟨hnfl, hnfr, hflrb⟩ := noRedRed_node hnsr
              obtain ⟨hb2, hbfl, hbfr, hm2⟩ := blackHeight_node hbsr
              rw [hsrr] at hm2
              simp [colorBit] at hm2
              subst hm2
              obtain rfl := Option.some.inj h
              rw [h6]
              have hnfB : noRedRed (Tree.node .black fk2 fv2 fl2 fr2) = true :=
                noRedRed_node_intro hnfl hnfr (fun hcc => Color.noConfusion hcc)
              have hbnfB : blackHeight? (Tree.node Color.black fk2 fv2 fl2 fr2)
                  = some (b + 1) := blackHeight_node_intro hbfl hbfr
              refine ⟨⟨b + 1 + 1,
                ctxBH_cons_intro hbsl (ctxBH_cons_intro hbnfB rfl)⟩, ?_⟩
              exact ⟨hnsl, fun hcc => Color.noConfusion hcc,
                hnfB, fun hcc => Color.noConfusion hcc, trivial⟩
          · -- Case Five/Six below the root: RED far nephew.
            have hscb : sc = .black := by
              by_cases hsc : sc = .red
              · obtain ⟨hslb, hsrb⟩ := hscc hsc
                have hfred : f.color = .red := by
                  by_cases hfc : f.color = .black
                  · exact absurd ⟨hfc, hsc, hslb, hsrb⟩ h2
                  · exact color_not_black hfc
                have hx := (hcf hfred).2
                rw [colorOf] at hx
                rw [hx] at hsc
                exact Color.noConfusion hsc
              · exact color_not_red hsc
            have hbs0e : hbs0 = b := by
              rw [hscb] at hms
              simp [colorBit] at hms
              omega
            rw [hbs0e] at hbsl hbsr
            have hsrr : colorOf sr = .red := by
              by_cases hsrc : colorOf sr = .red
              · exact hsrc
              · have hsrb := color_not_red hsrc
                have hslb : colorOf sl = .black := by
                  by_cases hslc : colorOf sl = .red
                  · exact absurd ⟨hslc, hsrb⟩ h5
                  · exact color_not_red hslc
                cases hfc : f.color with
                | red => exact absurd ⟨hfc, hscb, hslb, hsrb⟩ h4
                | black => exact absurd ⟨hfc, hscb, hslb, hsrb⟩ h3
            cases hnf : sr with
            | nil => rw [hnf] at h; exact Option.noConfusion h
            | node fc2 fk2 fv2 fl2 fr2 =>
              rw [hnf] at h
              rw [hnf] at hbsr hnsr hsrr
              rw [colorOf] at hsrr
              obtain ⟨hnfl, hnfr, hflrb⟩ := noRedRed_node hnsr
              obtain ⟨hb2, hbfl, hbfr, hm2⟩ := blackHeight_node hbsr
              rw [hsrr] at hm2
              simp [colorBit] at hm2
              subst hm2
              obtain rfl := Option.some.inj h
              have hnfB : noRedRed (Tree.node .black fk2 fv2 fl2 fr2) = true :=
                noRedRed_node_intro hnfl hnfr (fun hcc => Color.noConfusion hcc)
              have hbnfB : blackHeight? (Tree.node Color.black fk2 fv2 fl2 fr2)
                  = some (b + 1) := blackHeight_node_intro hbfl hbfr
              refine ⟨⟨H,
                ctxBH_cons_intro hbsl (ctxBH_cons_intro hbnfB hcb2)⟩, ?_⟩
              exact ⟨hnsl, fun hcc => Color.noConfusion hcc,
                hnfB, fun _ => ⟨rfl, rfl⟩, htail⟩
        | true =>
          simp only [hd, if_true] at h
          split_ifs at h with h2 h3 h4 h5 h6
          · -- Case One (mirrored).
            obtain ⟨hfb, hscr, hncb, hnfb⟩ := h2
            have hbs0e : hbs0 = b + 1 := by
              rw [hscr] at hms
              simp [colorBit] at hms
              omega
            rw [hbs0e] at hbsl hbsr
            have hnew : ctxBH (⟨true, .red, f.key, f.value, sr⟩ ::
                ⟨true, .black, sk, sv, sl⟩ :: rest) (b + 1) = some H := by
              refine ctxBH_cons_intro hbsr (ctxBH_cons_intro hbsl ?_)
              rw [hfb] at hcb2
              exact hcb2
            refine ih h hnew ?_
            refine ⟨hnsr, fun _ => ⟨rfl, hncb⟩,
              hnsl, fun hcc => Color.noConfusion hcc, ?_⟩
            rw [hfb] at htail
            exact htail
          · -- Case Two (mirrored).
            obtain ⟨hfb, hscb, hncb, hnfb⟩ := h3
            have hbs0e : hbs0 = b := by
              rw [hscb] at hms
              simp [colorBit] at hms
              omega
            rw [hbs0e] at hbsl hbsr
            have hsib2 : noRedRed (Tree.node .red sk sv sl sr) = true :=
              noRedRed_node_intro hnsl hnsr (fun _ => ⟨hnfb, hncb⟩)
            have hbsib2 : blackHeight? (Tree.node Color.red sk sv sl sr) = some b :=
              blackHeight_node_intro hbsl hbsr
            cases rest with
            | nil =>
              obtain rfl := Option.some.inj h
              refine ⟨⟨b + colorBit f.color, ctxBH_cons_intro hbsib2 rfl⟩, ?_⟩
              refine ⟨hsib2, fun hcc => ?_, trivial⟩
              rw [hfb] at hcc
              exact Color.noConfusion hcc
            | cons g rest2 =>
              dsimp only at h
              cases hin : dbGo n (plugFrame focus
                  ⟨true, f.color, f.key, f.value, Tree.node .red sk sv sl sr⟩)
                  (g :: rest2) with
              | none => rw [hin] at h; exact Option.noConfusion h
              | some path2 =>
                rw [hin] at h
                obtain rfl := Option.some.inj h
                obtain ⟨⟨H2, hcbp2⟩, hrrp2⟩ := ih hin
                  (by rw [hfb] at hcb2; exact hcb2)
                  (by rw [hfb] at htail; exact htail)
                refine ⟨⟨H2, ctxBH_cons_intro hbsib2 ?_⟩, ?_⟩
                · rw [hfb]
                  exact hcbp2
                · refine ⟨hsib2, fun hcc => ?_, ctxRR_any hrrp2⟩
                  rw [hfb] at hcc
                  exact Color.noConfusion hcc
          · -- Case Three (mirrored).
            obtain ⟨hfr, hscb, hncb, hnfb⟩ := h4
            have hbs0e : hbs0 = b := by
              rw [hscb] at hms
              simp [colorBit] at hms
              omega
            rw [hbs0e] at hbsl hbsr
            obtain rfl := Option.some.inj h
            have hsib2 : noRedRed (Tree.node .red sk sv sl sr) = true :=
              noRedRed_node_intro hnsl hnsr (fun _ => ⟨hnfb, hncb⟩)
            have hbsib2 : blackHeight? (Tree.node Color.red sk sv sl sr) = some b :=
              blackHeight_node_intro hbsl hbsr
            refine ⟨⟨H, ctxBH_cons_intro hbsib2 ?_⟩, ?_⟩
            · rw [hfr] at hcb2
              exact hcb2
            · refine ⟨hsib2, fun hcc => Color.noConfusion hcc, ?_⟩
              rw [hfr] at htail
              exact ctxRR_any htail
          · -- Case Four (mirrored): near nephew is the sibling's right child.
            obtain ⟨hncr, hnfb⟩ := h5
            have hscb : sc = .black := by
              by_cases hsc : sc = .red
              · have hx := (hscc hsc).2
                rw [hncr] at hx
                exact Color.noConfusion hx
              · exact color_not_red hsc
            have hbs0e : hbs0 = b := by
              rw [hscb] at hms
              simp [colorBit] at hms
              omega
            rw [hbs0e] at hbsl hbsr
            cases hnc : sr with
            | nil => rw [hnc] at h; exact Option.noConfusion h
            | node nco nk nv nl nr =>
              rw [hnc] at h
              rw [hnc] at hbsr hnsr hncr
              rw [colorOf] at hncr
              obtain ⟨hnnl, hnnr, hnlrb⟩ := noRedRed_node hnsr
              obtain ⟨hb2, hbnl, hbnr, hm2⟩ := blackHeight_node hbsr
              rw [hncr] at hm2
              simp [colorBit] at hm2
              subst hm2
              obtain ⟨hnlb, hnrb⟩ := hnlrb hncr
              have hinner : noRedRed (Tree.node .red sk sv sl nl) = true :=
                noRedRed_node_intro hnsl hnnl (fun _ => ⟨hnfb, hnlb⟩)
              have hbinner : blackHeight? (Tree.node Color.red sk sv sl nl)
                  = some b := blackHeight_node_intro hbsl hbnl
              have hsib2 : noRedRed (Tree.node .black nk nv
                  (Tree.node .red sk sv sl nl) nr) = true :=
                noRedRed_node_intro hinner hnnr (fun hcc => Color.noConfusion hcc)
              have hbsib2 : blackHeight? (Tree.node Color.black nk nv
                  (Tree.node Color.red sk sv sl nl) nr) = some (b + 1) :=
                blackHeight_node_intro hbinner hbnr
              refine ih h (ctxBH_cons_intro hbsib2 hcb2) ?_
              exact ⟨hsib2, fun _ => ⟨rfl, rfl⟩, htail⟩
          · -- Case Five/Six at the root (mirrored): far nephew is the left child.
            have hscb : sc = .black := by
              by_cases hsc : sc = .red
              · obtain ⟨hslb, hsrb⟩ := hscc hsc
                have hfred : f.color = .red := by
                  by_cases hfc : f.color = .black
                  · exact absurd ⟨hfc, hsc, hsrb, hslb⟩ h2
                  · exact color_not_black hfc
                have hx := (hcf hfred).2
                rw [colorOf] at hx
                rw [hx] at hsc
                exact Color.noConfusion hsc
              · exact color_not_red hsc
            have hbs0e : hbs0 = b := by
              rw [hscb] at hms
              simp [colorBit] at hms
              omega
            rw [hbs0e] at hbsl hbsr
            have hslr : colorOf sl = .red := by
              by_cases hslc : colorOf sl = .red
              · exact hslc
              · have hslb := color_not_red hslc
                have hsrb : colorOf sr = .black := by
                  by_cases hsrc : colorOf sr = .red
                  · exact absurd ⟨hsrc, hslb⟩ h5
                  · exact color_not_red hsrc
                cases hfc : f.color with
                | red => exact absurd ⟨hfc, hscb, hsrb, hslb⟩ h4
                | black => exact absurd ⟨hfc, hscb, hsrb, hslb⟩ h3
            cases hnf : sl with
            | nil => rw [hnf] at h; exact Option.noConfusion h
            | node fc2 fk2 fv2 fl2 fr2 =>
              rw [hnf] at h
              rw [hnf] at hbsl hnsl hslr
              rw [colorOf] at hslr
              obtain ⟨hnfl, hnfr, hflrb⟩ := noRedRed_node hnsl
              obtain ⟨hb2, hbfl, hbfr, hm2⟩ := blackHeight_node hbsl
              rw [hslr] at hm2
              simp [colorBit] at hm2
              subst hm2
              obtain rfl := Option.some.inj h
              rw [h6]
              have hnfB : noRedRed (Tree.node .black fk2 fv2 fl2 fr2) = true :=
                noRedRed_node_intro hnfl hnfr (fun hcc => Color.noConfusion hcc)
              have hbnfB : blackHeight? (Tree.node Color.black fk2 fv2 fl2 fr2)
                  = some (b + 1) := blackHeight_node_intro hbfl hbfr
              refine ⟨⟨b + 1 + 1,
                ctxBH_cons_intro hbsr (ctxBH_cons_intro hbnfB rfl)⟩, ?_⟩
              exact ⟨hnsr, fun hcc => Color.noConfusion hcc,
                hnfB, fun hcc => Color.noConfusion hcc, trivial⟩
          · -- Case Five/Six below the root (mirrored).
            have hscb : sc = .black := by
              by_cases hsc : sc = .red
              · obtain ⟨hslb, hsrb⟩ := hscc hsc
                have hfred : f.color = .red := by
                  by_cases hfc : f.color = .black
                  · exact absurd ⟨hfc, hsc, hsrb, hslb⟩ h2
                  · exact color_not_black hfc
                have hx := (hcf hfred).2
                rw [colorOf] at hx
                rw [hx] at hsc
                exact Color.noConfusion hsc
              · exact color_not_red hsc
            have hbs0e : hbs0 = b := by
              rw [hscb] at hms
              simp [colorBit] at hms
              omega
            rw [hbs0e] at hbsl hbsr
            have hslr : colorOf sl = .red := by
              by_cases hslc : colorOf sl = .red
              · exact hslc
              · have hslb := color_not_red hslc
                have hsrb : colorOf sr = .black := by
                  by_cases hsrc : colorOf sr = .red
                  · exact absurd ⟨hsrc, hslb⟩ h5
                  · exact color_not_red hsrc
                cases hfc : f.color with
                | red => exact absurd ⟨hfc, hscb, hsrb, hslb⟩ h4
                | black => exact absurd ⟨hfc, hscb, hsrb, hslb⟩ h3
            cases hnf : sl with
            | nil => rw [hnf] at h; exact Option.noConfusion h
            | node fc2 fk2 fv2 fl2 fr2 =>
              rw [hnf] at h
              rw [hnf] at hbsl hnsl hslr
              rw [colorOf] at hslr
              obtain ⟨hnfl, hnfr, hflrb⟩ := noRedRed_node hnsl
              obtain ⟨hb2, hbfl, hbfr, hm2⟩ := blackHeight_node hbsl
              rw [hslr] at hm2
              simp [colorBit] at hm2
              subst hm2
              obtain rfl := Option.some.inj h
              have hnfB : noRedRed (Tree.node .black fk2 fv2 fl2 fr2) = true :=
                noRedRed_node_intro hnfl hnfr (fun hcc => Color.noConfusion hcc)
              have hbnfB : blackHeight? (Tree.node Color.black fk2 fv2 fl2 fr2)
                  = some (b + 1) := blackHeight_node_intro hbfl hbfr
              refine ⟨⟨H,
                ctxBH_cons_intro hbsr (ctxBH_cons_intro hbnfB hcb2)⟩, ?_⟩
              exact ⟨hnsr, fun hcc => Color.noConfusion hcc,
                hnfB, fun _ => ⟨rfl, rfl⟩, htail⟩

/-- Red-black invariants of the splice `dict_delete`: removing a node whose
children have black height `0`, in a consistent context that accepts an
occupant of height `0` and of any colour, leaves a clean tree. -/
theorem dict_delete_rb {path2 : Path} {fc : Color} {fk fv : Ptr} {fl fr t : Tree}
    {H : Nat} (hdel : dict_delete (.node fc fk fv fl fr) path2 = some t)
    (hnl : noRedRed fl = true) (hnr : noRedRed fr = true)
    (hbl : blackHeight? fl = some 0) (hbr : blackHeight? fr = some 0)
    (hcb : ctxBH path2 0 = some H) (hcr : ctxRR path2 .red) :
    noRedRed t = true ∧ ∃ H2, blackHeight? t = some H2 := by
  rw [dict_delete] at hdel
  split_ifs at hdel with hboth hsurv
  · cases path2 with
    | nil =>
      dsimp only at hdel
      cases hsv : fl with
      | nil =>
        rw [hsv] at hdel
        obtain rfl := Option.some.inj hdel
        exact ⟨rfl, 0, rfl⟩
      | node c2 k2 v2 s2l s2r =>
        rw [hsv] at hdel
        obtain rfl := Option.some.inj hdel
        rw [hsv] at hnl hbl
        obtain ⟨hn1, hn2, -⟩ := noRedRed_node hnl
        obtain ⟨hb2, hbl2, hbr2, -⟩ := blackHeight_node hbl
        exact ⟨noRedRed_node_intro hn1 hn2 (fun hcc => Color.noConfusion hcc),
          hb2 + 1, blackHeight_node_intro hbl2 hbr2⟩
    | cons f2 p2 =>
      dsimp only at hdel
      obtain rfl := Option.some.inj hdel
      obtain ⟨hsb2, hcb2⟩ := ctxBH_cons hcb
      obtain ⟨hsf2, hcf2, htl2⟩ := hcr
      constructor
      · refine noRedRed_plug (noRedRed_plugFrame hnl hsf2
          (fun hr2 => absurd (hcf2 hr2).1 (by decide))) ?_
        rw [plugFrame_color]
        exact htl2
      · exact ⟨H, blackHeight_plug (blackHeight_plugFrame hbl hsb2) hcb2⟩
  · cases path2 with
    | nil =>
      dsimp only at hdel
      cases hsv : fr with
      | nil =>
        rw [hsv] at hdel
        obtain rfl := Option.some.inj hdel
        exact ⟨rfl, 0, rfl⟩
      | node c2 k2 v2 s2l s2r =>
        rw [hsv] at hdel
        obtain rfl := Option.some.inj hdel
        rw [hsv] at hnr hbr
        obtain ⟨hn1, hn2, -⟩ := noRedRed_node hnr
        obtain ⟨hb2, hbl2, hbr2, -⟩ := blackHeight_node hbr
        exact ⟨noRedRed_node_intro hn1 hn2 (fun hcc => Color.noConfusion hcc),
          hb2 + 1, blackHeight_node_intro hbl2 hbr2⟩
    | cons f2 p2 =>
      dsimp only at hdel
      obtain rfl := Option.some.inj hdel
      obtain ⟨hsb2, hcb2⟩ := ctxBH_cons hcb
      obtain ⟨hsf2, hcf2, htl2⟩ := hcr
      constructor
      · refine noRedRed_plug (noRedRed_plugFrame hnr hsf2
          (fun hr2 => absurd (hcf2 hr2).1 (by decide))) ?_
        rw [plugFrame_color]
        exact htl2
      · exact ⟨H, blackHeight_plug (blackHeight_plugFrame hbr hsb2) hcb2⟩

/-- The frames collected by `leftmostZip` rebuild the tree it descended. -/
theorem leftmostZip_plug : ∀ {t : Tree}, t ≠ .nil →
    ∀ {c : Color} {k v : Ptr} {rc : Tree} {frames : Path},
      (∀ p, leftmostZip t p = (.node c k v .nil rc, frames ++ p)) →
      plug (.node c k v .nil rc) frames = t := by
  intro t
  induction t with
  | nil => intro h; exact absurd rfl h
  | node tc tk tv l r ihl ihr =>
    intro _ c k v rc frames hzip
    cases hl : l with
    | nil =>
      have h1 := hzip []
      rw [hl] at h1
      rw [show leftmostZip (Tree.node tc tk tv Tree.nil r) []
          = ((Tree.node tc tk tv Tree.nil r : Tree), ([] : Path)) from rfl] at h1
      obtain ⟨he1, he2⟩ : (Tree.node tc tk tv Tree.nil r : Tree)
          = Tree.node c k v .nil rc ∧ ([] : Path) = frames ++ [] := by
        have h2 := Prod.mk.injEq .. ▸ h1
        exact ⟨h2.1, h2.2⟩
      rw [List.append_nil] at he2
      rw [← he2, ← he1]
      rfl
    | node lc lk lv ll lr =>
      rw [hl] at ihl
      obtain ⟨c3, k3, v3, rc3, frames3, hkv3, hpre3, hin3, hzip3⟩ :=
        leftmostZip_spec (t := Tree.node lc lk lv ll lr) (by simp)
      have h1 := hzip []
      rw [hl] at h1
      rw [show leftmostZip (Tree.node tc tk tv (Tree.node lc lk lv ll lr) r) []
          = leftmostZip (Tree.node lc lk lv ll lr)
              [⟨false, tc, tk, tv, r⟩] from rfl] at h1
      rw [hzip3] at h1
      obtain ⟨he1, he2⟩ : (Tree.node c3 k3 v3 .nil rc3 : Tree)
          = Tree.node c k v .nil rc ∧
          frames3 ++ [(⟨false, tc, tk, tv, r⟩ : Frame)] = frames ++ [] := by
        have h2 := Prod.mk.injEq .. ▸ h1
        exact ⟨h2.1, h2.2⟩
      rw [List.append_nil] at he2
      rw [← he2, ← he1]
      rw [plug_append, ihl (by simp) hzip3]
      rfl

/-- A completed `dict_remove` on a BLACK-rooted tree preserves the red-red
and black-height invariants. -/
theorem dict_remove_rb {cmp : Ptr → Ptr → Int} {d : Dict} {key ret : Ptr}
    {d2 : Dict} (h : dict_remove cmp d key = some (ret, d2))
    (hblack : colorOf d.root = .black)
    (hnrr : noRedRed d.root = true) (hbh : (blackHeight? d.root).isSome) :
    noRedRed d2.root = true ∧ (blackHeight? d2.root).isSome := by
  rw [dict_remove] at h
  by_cases h0 : key = 0
  · rw [if_pos h0] at h
    exact Option.noConfusion h
  rw [if_neg h0] at h
  cases hbs : bsearch cmp key d.root [] with
  | none =>
    rw [hbs] at h
    dsimp only at h
    obtain ⟨-, hd2⟩ : (0 : Ptr) = ret ∧ d = d2 := by
      have h2 := Prod.mk.injEq .. ▸ Option.some.inj h
      exact ⟨h2.1, h2.2⟩
    rw [← hd2]
    exact ⟨hnrr, hbh⟩
  | some pr =>
    obtain ⟨loc, c⟩ := pr
    rw [hbs] at h
    dsimp only at h
    obtain ⟨frames, hpath, hplug, -, -, -⟩ := bsearch_spec hbs
    rw [List.append_nil] at hpath
    by_cases hc : c = 0
    case neg =>
      rw [if_neg hc] at h
      obtain ⟨-, hd2⟩ : (0 : Ptr) = ret ∧ d = d2 := by
        have h2 := Prod.mk.injEq .. ▸ Option.some.inj h
        exact ⟨h2.1, h2.2⟩
      rw [← hd2]
      exact ⟨hnrr, hbh⟩
    case pos =>
      subst hc
      rw [if_pos rfl] at h
      rw [← hplug] at hnrr
      obtain ⟨hnf, hctx⟩ := noRedRed_unplug hnrr
      obtain ⟨H, hbH⟩ := Option.isSome_iff_exists.1 hbh
      rw [← hplug] at hbH
      obtain ⟨hh, hbf, hcbH⟩ := blackHeight_unplug hbH
      obtain ⟨hnll, hnlr, hcolc⟩ :=
        noRedRed_node (l := loc.left) (r := loc.right) hnf
      obtain ⟨hb0, hbll, hblr, hm⟩ :=
        blackHeight_node (l := loc.left) (r := loc.right) hbf
      have hctx2 : ctxRR frames loc.color := hctx
      by_cases h2c : loc.left ≠ .nil ∧ loc.right ≠ .nil
      · -- two children: deletion retargets onto the in-order successor
        rw [if_pos h2c] at h
        obtain ⟨sc2, sk, sv, rc, lframes, hlkv, -, -, hzip⟩ :=
          leftmostZip_spec h2c.2
        rw [hlkv] at h
        dsimp only at h
        rw [hzip ((⟨true, loc.color, sk, sv, loc.left⟩ : Frame) :: loc.path)] at h
        dsimp only at h
        have hplug2 : plug (Tree.node sc2 sk sv .nil rc) lframes = loc.right :=
          leftmostZip_plug h2c.2 hzip
        have hpne : (lframes ++ (⟨true, loc.color, sk, sv, loc.left⟩ : Frame)
            :: loc.path) ≠ [] := by simp
        have hplugfull : plug (Tree.node sc2 sk sv .nil rc)
            (lframes ++ (⟨true, loc.color, sk, sv, loc.left⟩ : Frame) :: loc.path)
            = plug (Tree.node loc.color sk sv loc.left loc.right) frames := by
          rw [hpath, plug_append, hplug2]
          rfl
        have hT : noRedRed (plug (Tree.node loc.color sk sv loc.left loc.right)
            frames) = true := by
          refine noRedRed_plug ?_ hctx2
          rw [show noRedRed (Tree.node loc.color sk sv loc.left loc.right)
              = noRedRed (Tree.node loc.color loc.key loc.value loc.left loc.right)
              from noRedRed_kv]
          exact hnf
        have hbT : blackHeight? (plug (Tree.node loc.color sk sv loc.left
            loc.right) frames) = some H := by
          refine blackHeight_plug ?_ hcbH
          rw [show blackHeight? (Tree.node loc.color sk sv loc.left loc.right)
              = blackHeight? (Tree.node loc.color loc.key loc.value loc.left
                loc.right) from blackHeight_kv]
          exact hbf
        have hfull_nrr : noRedRed (plug (Tree.node sc2 sk sv .nil rc)
            (lframes ++ (⟨true, loc.color, sk, sv, loc.left⟩ : Frame)
              :: loc.path)) = true := by
          rw [hplugfull]
          exact hT
        have hfull_bh : blackHeight? (plug (Tree.node sc2 sk sv .nil rc)
            (lframes ++ (⟨true, loc.color, sk, sv, loc.left⟩ : Frame)
              :: loc.path)) = some H := by
          rw [hplugfull]
          exact hbT
        obtain ⟨hnf2, hctxF⟩ := noRedRed_unplug hfull_nrr
        obtain ⟨h2h, hbf2, hcbF⟩ := blackHeight_unplug hfull_bh
        obtain ⟨-, hnrc, -⟩ := noRedRed_node hnf2
        obtain ⟨hbx, hbnil, hbrc, hmx⟩ := blackHeight_node hbf2
        obtain rfl : hbx = 0 := by
          have h3 : (some 0 : Option Nat) = some hbx := hbnil
          exact (Option.some.inj h3).symm
        have hctxF2 : ctxRR (lframes ++ (⟨true, loc.color, sk, sv, loc.left⟩
            : Frame) :: loc.path) sc2 := hctxF
        by_cases hfb : colorOf (Tree.node sc2 sk sv Tree.nil rc) = .black
        · rw [if_pos ⟨hfb, hpne⟩] at h
          rw [colorOf] at hfb
          cases hdb : double_black (Tree.node sc2 sk sv Tree.nil rc)
              (lframes ++ (⟨true, loc.color, sk, sv, loc.left⟩ : Frame)
                :: loc.path) with
          | none => rw [hdb] at h; exact Option.noConfusion h
          | some path2 =>
            rw [hdb] at h
            dsimp only at h
            rw [hmx, hfb] at hcbF
            rw [hfb] at hctxF2
            obtain ⟨⟨H2, hcbp⟩, hcrp⟩ := dbGo_rb hdb hcbF hctxF2
            cases hdel : dict_delete (Tree.node sc2 sk sv Tree.nil rc)
                path2 with
            | none => rw [hdel] at h; exact Option.noConfusion h
            | some t =>
              rw [hdel] at h
              dsimp only at h
              obtain ⟨-, hd2⟩ : sv = ret ∧
                  ({ root := t, size := d.size - 1 } : Dict) = d2 := by
                have h2 := Prod.mk.injEq .. ▸ Option.some.inj h
                exact ⟨h2.1, h2.2⟩
              rw [← hd2]
              obtain ⟨hnt, H3, hbt⟩ := dict_delete_rb hdel rfl hnrc rfl hbrc
                hcbp hcrp
              exact ⟨hnt, Option.isSome_iff_exists.2 ⟨H3, hbt⟩⟩
        · rw [if_neg (fun hx => hfb hx.1)] at h
          dsimp only at h
          rw [colorOf] at hfb
          have hsc2r : sc2 = .red := color_not_black hfb
          rw [hmx, hsc2r] at hcbF
          rw [hsc2r] at hctxF2
          cases hdel : dict_delete (Tree.node sc2 sk sv Tree.nil rc)
              (lframes ++ (⟨true, loc.color, sk, sv, loc.left⟩ : Frame)
                :: loc.path) with
          | none => rw [hdel] at h; exact Option.noConfusion h
          | some t =>
            rw [hdel] at h
            dsimp only at h
            obtain ⟨-, hd2⟩ : sv = ret ∧
                ({ root := t, size := d.size - 1 } : Dict) = d2 := by
              have h2 := Prod.mk.injEq .. ▸ Option.some.inj h
              exact ⟨h2.1, h2.2⟩
            rw [← hd2]
            obtain ⟨hnt, H3, hbt⟩ := dict_delete_rb hdel rfl hnrc rfl hbrc
              hcbF hctxF2
            exact ⟨hnt, Option.isSome_iff_exists.2 ⟨H3, hbt⟩⟩
      · -- at most one child: delete in place
        rw [if_neg h2c] at h
        rw [Loc.tree] at h
        rw [hpath] at h
        dsimp only at h
        obtain rfl : hb0 = 0 := by
          by_cases hln : loc.left = .nil
          · rw [hln] at hbll
            have h3 : (some 0 : Option Nat) = some hb0 := hbll
            exact (Option.some.inj h3).symm
          · have hrn : loc.right = .nil := by
              by_contra hr
              exact h2c ⟨hln, hr⟩
            rw [hrn] at hblr
            have h3 : (some 0 : Option Nat) = some hb0 := hblr
            exact (Option.some.inj h3).symm
        by_cases hfb : colorOf (Tree.node loc.color loc.key loc.value loc.left
            loc.right) = .black
        · by_cases hpe : frames = []
          · rw [if_neg (fun hx => hx.2 hpe)] at h
            dsimp only at h
            cases hdel : dict_delete (Tree.node loc.color loc.key loc.value
                loc.left loc.right) frames with
            | none => rw [hdel] at h; exact Option.noConfusion h
            | some t =>
              rw [hdel] at h
              dsimp only at h
              obtain ⟨-, hd2⟩ : loc.value = ret ∧
                  ({ root := t, size := d.size - 1 } : Dict) = d2 := by
                have h2 := Prod.mk.injEq .. ▸ Option.some.inj h
                exact ⟨h2.1, h2.2⟩
              rw [← hd2]
              rw [hpe] at hdel
              obtain ⟨hnt, H3, hbt⟩ := dict_delete_rb hdel hnll hnlr hbll hblr
                rfl trivial
              exact ⟨hnt, Option.isSome_iff_exists.2 ⟨H3, hbt⟩⟩
          · rw [if_pos ⟨hfb, hpe⟩] at h
            rw [colorOf] at hfb
            rw [hm, hfb] at hcbH
            have hctx3 : ctxRR frames Color.black := by
              rw [← hfb]
              exact hctx2
            cases hdb : double_black (Tree.node loc.color loc.key loc.value
                loc.left loc.right) frames with
            | none => rw [hdb] at h; exact Option.noConfusion h
            | some path2 =>
              rw [hdb] at h
              dsimp only at h
              obtain ⟨⟨H2, hcbp⟩, hcrp⟩ := dbGo_rb hdb hcbH hctx3
              cases hdel : dict_delete (Tree.node loc.color loc.key loc.value
                  loc.left loc.right) path2 with
              | none => rw [hdel] at h; exact Option.noConfusion h
              | some t =>
                rw [hdel] at h
                dsimp only at h
                obtain ⟨-, hd2⟩ : loc.value = ret ∧
                    ({ root := t, size := d.size - 1 } : Dict) = d2 := by
                  have h2 := Prod.mk.injEq .. ▸ Option.some.inj h
                  exact ⟨h2.1, h2.2⟩
                rw [← hd2]
                obtain ⟨hnt, H3, hbt⟩ := dict_delete_rb hdel hnll hnlr hbll hblr
                  hcbp hcrp
                exact ⟨hnt, Option.isSome_iff_exists.2 ⟨H3, hbt⟩⟩
        · rw [if_neg (fun hx => hfb hx.1)] at h
          dsimp only at h
          rw [colorOf] at hfb
          have hlcr : loc.color = .red := color_not_black hfb
          rw [hm, hlcr] at hcbH
          have hctx3 : ctxRR frames Color.red := by
            rw [← hlcr]
            exact hctx2
          cases hdel : dict_delete (Tree.node loc.color loc.key loc.value
              loc.left loc.right) frames with
          | none => rw [hdel] at h; exact Option.noConfusion h
          | some t =>
            rw [hdel] at h
            dsimp only at h
            obtain ⟨-, hd2⟩ : loc.value = ret ∧
                ({ root := t, size := d.size - 1 } : Dict) = d2 := by
              have h2 := Prod.mk.injEq .. ▸ Option.some.inj h
              exact ⟨h2.1, h2.2⟩
            rw [← hd2]
            obtain ⟨hnt, H3, hbt⟩ := dict_delete_rb hdel hnll hnlr hbll hblr
              hcbH hctx3
            exact ⟨hnt, Option.isSome_iff_exists.2 ⟨H3, hbt⟩⟩

/-- C2: for a mapping stored at a node with two children, `dict_remove`
returns the in-order successor's value instead of the removed mapping's
value.  In the dictionary {1 ↦ 100, 2 ↦ 200, 3 ↦ 300} (built by three
`dict_put` calls), key 2 is stored with value 200, yet `dict_remove` of key
2 returns 300 — the value of its successor 3 — because `removed =
located->value` (`Dictionary.c` line 313) is read after `located` has been
retargeted to the successor (line 306).  This contradicts the function's own
documentation (line 282: "Returns the value of the removed mapping").  The
claim's remaining parts do hold here: afterwards the key is absent and the
size has decreased by exactly 1. -/
theorem dict_remove_two_children_returns_successor_value :
    ((dict_put natCmp dict_new 2 200).bind fun x =>
      (dict_put natCmp x.2 1 100).bind fun y =>
        (dict_put natCmp y.2 3 300).map fun z => z.2) =
      some ⟨.node .black 2 200 (.node .red 1 100 .nil .nil)
              (.node .red 3 300 .nil .nil), 3⟩
    ∧ dict_get natCmp ⟨.node .black 2 200 (.node .red 1 100 .nil .nil)
        (.node .red 3 300 .nil .nil), 3⟩ 2 = some 200
    ∧ dict_remove natCmp ⟨.node .black 2 200 (.node .red 1 100 .nil .nil)
        (.node .red 3 300 .nil .nil), 3⟩ 2 =
        some (300, ⟨.node .black 3 300 (.node .red 1 100 .nil .nil) .nil, 2⟩)
    ∧ dict_contains natCmp ⟨.node .black 3 300 (.node .red 1 100 .nil .nil) .nil, 2⟩ 2 =
        some false
    ∧ dict_size ⟨.node .black 3 300 (.node .red 1 100 .nil .nil) .nil, 2⟩ = 2 := by
  refine ⟨by decide, by decide, by decide, by decide, rfl⟩

/-- C3: `dict_clear` violates the self-re-acquisition rule: while holding its
own write lock it issues (through `dict_iter`'s `dict_empty` call,
`Dictionary.c` line 381) a `sync_read_start` on the same `ReadWriteSync`.
Under the semantics of `Synchronize.c` the nested read acquisition blocks
forever on the reader-block semaphore the writer holds, so the trace
deadlocks (`syncRun … = none`), although the write lock alone and
`dict_empty`'s lock usage on an un-held instance complete fine. -/
theorem dict_clear_reacquires_own_lock :
    dict_clear_lockTrace = [.writeStart, .readStart, .readEnd, .writeEnd]
    ∧ syncRun syncInit dict_clear_lockTrace = none
    ∧ syncRun syncInit [LockEv.writeStart, LockEv.writeEnd] = some syncInit
    ∧ syncRun syncInit dict_empty_lockTrace = some syncInit := by
  refine ⟨rfl, by decide, by decide, by decide⟩

/-- C9: `dict_binary_search` treats a pointer-identical key as an exact match
without consulting the user comparator: (1) the search result is unchanged
under any modification of the comparator's values on identical pairs — i.e.
two comparators agreeing on all non-identical pairs give identical searches;
(2) at a node storing the very searched key the search reports `compared = 0`
for every comparator whatsoever; (3) hence, with the comparator `irrCmp`
that returns non-zero even on identical pairs, an inserted key is still
reported present by `dict_contains`. -/
theorem bsearch_pointer_identity :
    (∀ (cmp cmp2 : Ptr → Ptr → Int) (key : Ptr) (t : Tree) (p : Path),
        (∀ b, b ≠ key → cmp key b = cmp2 key b) →
        bsearch cmp key t p = bsearch cmp2 key t p)
    ∧ (∀ (cmp : Ptr → Ptr → Int) (c : Color) (key v : Ptr) (l r : Tree) (p : Path),
        bsearch cmp key (.node c key v l r) p = some (⟨c, key, v, l, r, p⟩, 0))
    ∧ (dict_put irrCmp dict_new 5 50 = some (0, ⟨.node .black 5 50 .nil .nil, 1⟩)
        ∧ dict_contains irrCmp ⟨.node .black 5 50 .nil .nil, 1⟩ 5 = some true
        ∧ irrCmp 5 5 = 1) := by
  refine ⟨?_, ?_, by decide, by decide, by decide⟩
  · intro cmp cmp2 key t p h
    induction t generalizing p with
    | nil => rfl
    | node c k v l r ihl ihr =>
      by_cases hk : key = k
      · simp [bsearch, hk]
      · simp only [bsearch, if_neg hk, h k (fun hkk => hk hkk.symm)]
        split
        · exact ihl _
        · split
          · exact ihr _
          · rfl
  · intro cmp c key v l r p
    simp [bsearch]

/-- Witness for `bsearch_pointer_identity`: the comparator-independence part
applied at a concrete comparator pair differing only on the identical pair
(5, 5). -/
theorem bsearch_pointer_identity_witness :
    (∀ b : Ptr, b ≠ 5 → natCmp 5 b = (fun a b : Ptr => if a = 5 ∧ b = 5 then 7 else natCmp a b) 5 b)
    ∧ bsearch natCmp 5 (.node .black 5 50 .nil .nil) [] =
        bsearch (fun a b : Ptr => if a = 5 ∧ b = 5 then 7 else natCmp a b) 5
          (.node .black 5 50 .nil .nil) [] := by
  constructor
  · intro b hb
    simp [natCmp, hb]
  · exact bsearch_pointer_identity.1 natCmp _ 5 _ []
      (fun b hb => by simp [natCmp, hb])

/-- C4: after a completed `dict_put` of `(k, v1)`, a second `dict_put` with
the same key `k` and a new value `v2` leaves the size unchanged by the second
put, returns `v1`, makes `dict_get k` yield `v2`, and leaves every node's
colour, key and links (the tree shape) unchanged. -/
theorem dict_put_duplicate {cmp : Ptr → Ptr → Int} {d d1 : Dict} {k v1 v2 r1 : Ptr}
    (hL : CmpLawful cmp) (hord : Ordered cmp d.root) (hv2 : v2 ≠ 0)
    (h1 : dict_put cmp d k v1 = some (r1, d1)) :
    ∃ d2, dict_put cmp d1 k v2 = some (v1, d2) ∧
      dict_size d2 = dict_size d1 ∧
      dict_get cmp d2 k = some v2 ∧
      eraseVals d2.root = eraseVals d1.root := by
  have hk0 : ¬(k = 0 ∨ v1 = 0) := by
    intro h0
    rw [dict_put, if_pos h0] at h1
    exact Option.noConfusion h1
  obtain ⟨hmodel1, hord1, hdisj⟩ := dict_put_spec hL hord h1
  obtain ⟨k1, hkk1, hmem1⟩ : ∃ k1, cmp k k1 = 0 ∧ (k1, v1) ∈ inorderKV d1.root := by
    rcases hdisj with ⟨P, Q, k1, hA, hB, hmatch, -, -⟩ | ⟨-, -, hnm⟩
    · refine ⟨k1, ?_, by rw [hB]; simp⟩
      rcases hmatch with hm | hm
      · rw [← hm]; exact hL.refl _
      · exact hm
    · refine ⟨k, hL.refl _, ?_⟩
      rw [hmodel1]
      exact modelInsert_self_mem hnm
  obtain ⟨d2, P, Q, hput2, hA1, hB1, hord2, hsz, hev⟩ :=
    dict_put_overwrite hL hord1 hmem1 hkk1 (fun h => hk0 (Or.inl h)) hv2
  refine ⟨d2, hput2, hsz, ?_, hev⟩
  have hmem2 : (k1, v2) ∈ inorderKV d2.root := by rw [hB1]; simp
  obtain ⟨loc, hbs2, hlk, hlv⟩ := bsearch_found_of_mem hL hord2 hmem2 hkk1
  rw [dict_get, if_neg (fun h => hk0 (Or.inl h)), hbs2]
  dsimp only
  rw [if_pos rfl, hlv]

/-- Witness for `dict_put_duplicate`: a fresh dictionary, `put 5 77` then
`put 5 88`. -/
theorem dict_put_duplicate_witness :
    ∃ d2, dict_put natCmp ⟨.node .black 5 77 .nil .nil, 1⟩ 5 88 = some (77, d2) ∧
      dict_size d2 = dict_size (⟨.node .black 5 77 .nil .nil, 1⟩ : Dict) ∧
      dict_get natCmp d2 5 = some 88 ∧
      eraseVals d2.root = eraseVals (Tree.node .black 5 77 .nil .nil) :=
  dict_put_duplicate natCmp_lawful Ordered.nil (by decide)
    (show dict_put natCmp dict_new 5 77 =
      some (0, ⟨.node .black 5 77 .nil .nil, 1⟩) by decide)

/-- C5: after inserting N pairwise comparator-distinct non-null mappings into
a fresh dictionary, `dict_get` returns the matching inserted value for every
one of the N keys, and `dict_size` returns N. -/
theorem dict_put_get_roundtrip {cmp : Ptr → Ptr → Int} {kvs : List (Ptr × Ptr)}
    (hL : CmpLawful cmp)
    (hnz : ∀ kv ∈ kvs, kv.1 ≠ 0 ∧ kv.2 ≠ 0)
    (hdist : List.Pairwise (fun a b => cmp a.1 b.1 ≠ 0) kvs) :
    ∃ d : Dict, putAll cmp dict_new kvs = some d ∧
      (∀ kv ∈ kvs, dict_get cmp d kv.1 = some kv.2) ∧
      dict_size d = kvs.length := by
  obtain ⟨d2, hPA, hord2, -, hsz, hmemAll, -⟩ :=
    putAll_spec hL (d := dict_new) Ordered.nil rfl hnz (by simp [dict_new, inorderKV]) hdist
  refine ⟨d2, hPA, ?_, ?_⟩
  · intro kv hkv
    have hm : (kv.1, kv.2) ∈ inorderKV d2.root := hmemAll kv hkv
    obtain ⟨loc, hbs, hlk, hlv⟩ := bsearch_found_of_mem hL hord2 hm (hL.refl kv.1)
    rw [dict_get, if_neg (hnz kv hkv).1, hbs]
    dsimp only
    rw [if_pos rfl, hlv]
  · show d2.size = kvs.length
    rw [hsz]
    simp [dict_new]

/-- Witness for `dict_put_get_roundtrip` at four concrete mappings. -/
theorem dict_put_get_roundtrip_witness :
    ∃ d : Dict, putAll natCmp dict_new [(5, 50), (3, 30), (8, 80), (1, 10)] = some d ∧
      (∀ kv ∈ [((5 : Ptr), (50 : Ptr)), (3, 30), (8, 80), (1, 10)],
        dict_get natCmp d kv.1 = some kv.2) ∧
      dict_size d = [((5 : Ptr), (50 : Ptr)), (3, 30), (8, 80), (1, 10)].length :=
  dict_put_get_roundtrip natCmp_lawful (by decide) (by decide)

/-- C10: when a stored mapping with key `k1` exists and `dict_put` is called
with a comparator-equal key `k2`, only that node's value field changes: the
stored key remains the originally inserted `k1` (not `k2`), every other
entry keeps its value, the size is unchanged, and every node's colour, key
and links are untouched (equality after erasing values). -/
theorem dict_put_overwrite_keeps_key {cmp : Ptr → Ptr → Int} {d : Dict} {k1 v1 k2 v2 : Ptr}
    (hL : CmpLawful cmp) (hord : Ordered cmp d.root)
    (hmem : (k1, v1) ∈ inorderKV d.root) (hk : cmp k2 k1 = 0)
    (hk2 : k2 ≠ 0) (hv2 : v2 ≠ 0) :
    ∃ d2 P Q, dict_put cmp d k2 v2 = some (v1, d2) ∧
      inorderKV d.root = P ++ (k1, v1) :: Q ∧
      inorderKV d2.root = P ++ (k1, v2) :: Q ∧
      d2.size = d.size ∧
      eraseVals d2.root = eraseVals d.root := by
  obtain ⟨d2, P, Q, h1, h2, h3, -, h4, h5⟩ := dict_put_overwrite hL hord hmem hk hk2 hv2
  exact ⟨d2, P, Q, h1, h2, h3, h4, h5⟩

/-- Witness for `dict_put_overwrite_keeps_key` on a three-node tree,
overwriting the root's value. -/
theorem dict_put_overwrite_keeps_key_witness :
    ∃ d2 P Q,
      dict_put natCmp ⟨.node .black 2 20 (.node .red 1 10 .nil .nil)
        (.node .red 3 30 .nil .nil), 3⟩ 2 99 = some (20, d2) ∧
      inorderKV (Tree.node .black 2 20 (.node .red 1 10 .nil .nil)
        (.node .red 3 30 .nil .nil)) = P ++ (2, 20) :: Q ∧
      inorderKV d2.root = P ++ (2, 99) :: Q ∧
      d2.size = (⟨Tree.node .black 2 20 (.node .red 1 10 .nil .nil)
        (.node .red 3 30 .nil .nil), 3⟩ : Dict).size ∧
      eraseVals d2.root = eraseVals (Tree.node .black 2 20 (.node .red 1 10 .nil .nil)
        (.node .red 3 30 .nil .nil)) :=
  dict_put_overwrite_keeps_key natCmp_lawful
    ((ordered_iff_pairwise natCmp_lawful).2 (by decide)) (by decide) (by decide)
    (by decide) (by decide)

/-- C8: `dict_put` with a NULL key or value, and `dict_get`, `dict_contains`
and `dict_remove` with a NULL key, are rejected by the modelled `io_assert`
(no completed call), so no reachable dictionary stores a NULL key or value;
consequently, for every reachable dictionary and non-null key, `dict_get`
returns `NULL` exactly when no comparator-matching mapping exists — the
`NULL` result is an unambiguous absence signal, never a stored value. -/
theorem dict_null_contract {cmp : Ptr → Ptr → Int} (hL : CmpLawful cmp) {d : Dict}
    (hr : Reachable cmp d) {key v : Ptr} (hk : key ≠ 0) :
    dict_put cmp d 0 v = none ∧ dict_put cmp d key 0 = none ∧
    dict_get cmp d 0 = none ∧ dict_contains cmp d 0 = none ∧ dict_remove cmp d 0 = none ∧
    ForallT (fun k v => k ≠ 0 ∧ v ≠ 0) d.root ∧
    (dict_get cmp d key = some 0 ↔
      ∀ kv ∈ inorderKV d.root, ¬(key = kv.1 ∨ cmp key kv.1 = 0)) := by
  obtain ⟨hord, -, -, hnz⟩ := reachable_sound hL hr
  refine ⟨by simp [dict_put], by simp [dict_put], by simp [dict_get],
    by simp [dict_contains], by simp [dict_remove], hnz, ?_, ?_⟩
  · intro hget kv hkv hm
    have hkeq : cmp key kv.1 = 0 := by
      rcases hm with hk2 | hz
      · rw [hk2]; exact hL.refl _
      · exact hz
    have hmem : (kv.1, kv.2) ∈ inorderKV d.root := hkv
    obtain ⟨loc, hbs, hlk, hlv⟩ := bsearch_found_of_mem hL hord hmem hkeq
    rw [dict_get, if_neg hk, hbs] at hget
    dsimp only at hget
    rw [if_pos rfl] at hget
    have hv0 := Option.some.inj hget
    rw [hlv] at hv0
    exact ((forallT_iff_mem.1 hnz) kv hkv).2 hv0
  · intro hnm
    rw [dict_get, if_neg hk]
    cases hbs : bsearch cmp key d.root [] with
    | none => rfl
    | some pr =>
      obtain ⟨loc, c⟩ := pr
      dsimp only
      by_cases hc : c = 0
      · exfalso
        subst hc
        obtain ⟨hkeq2, hmem2⟩ := bsearch_found_mem hL hbs
        exact hnm (loc.key, loc.value) hmem2 (Or.inr hkeq2)
      · rw [if_neg hc]

/-- Witness for `dict_null_contract` on the reachable one-mapping dictionary
{5 ↦ 50} and the absent non-null key 9. -/
theorem dict_null_contract_witness :
    dict_put natCmp ⟨.node .black 5 50 .nil .nil, 1⟩ 0 77 = none ∧
    dict_put natCmp ⟨.node .black 5 50 .nil .nil, 1⟩ 9 0 = none ∧
    dict_get natCmp ⟨.node .black 5 50 .nil .nil, 1⟩ 0 = none ∧
    dict_contains natCmp ⟨.node .black 5 50 .nil .nil, 1⟩ 0 = none ∧
    dict_remove natCmp ⟨.node .black 5 50 .nil .nil, 1⟩ 0 = none ∧
    ForallT (fun k v => k ≠ 0 ∧ v ≠ 0) (Tree.node .black 5 50 .nil .nil) ∧
    (dict_get natCmp ⟨.node .black 5 50 .nil .nil, 1⟩ 9 = some 0 ↔
      ∀ kv ∈ inorderKV (Tree.node .black 5 50 .nil .nil),
        ¬((9 : Ptr) = kv.1 ∨ natCmp 9 kv.1 = 0)) :=
  dict_null_contract natCmp_lawful
    (@Reachable.put natCmp dict_new 5 50 0 ⟨.node .black 5 50 .nil .nil, 1⟩
      Reachable.new (by decide))
    (by decide)

/-- C6: on a reachable dictionary (tree unchanged during iteration), each of
the three iterator orders visits exactly `dict_size` nodes, each exactly once
(the emitted list is a permutation of the stored mappings, of length
`dict_size`, with pairwise-distinct keys); the in-order sequence is exactly
the key-sorted in-order sequence (strictly increasing comparator order); the
pre-order sequence lists every parent immediately before its children's
sequences and the post-order sequence lists every parent immediately after
both children's sequences. -/
theorem dict_iterator_orders {cmp : Ptr → Ptr → Int} {d : Dict}
    (hL : CmpLawful cmp) (hreach : Reachable cmp d) :
    dictTraverse d .inOrder = some (inorderKV d.root) ∧
    dictTraverse d .preOrder = some (preorderKV d.root) ∧
    dictTraverse d .postOrder = some (postorderKV d.root) ∧
    (∀ ty : Traversal, ∃ xs, dictTraverse d ty = some xs ∧
        xs.length = dict_size d ∧ xs.Perm (inorderKV d.root) ∧
        (xs.map Prod.fst).Nodup) ∧
    keysSorted cmp ((inorderKV d.root).map Prod.fst) = true ∧
    (∀ (c : Color) (k v : Ptr) (l r : Tree), preorderKV (.node c k v l r)
        = (k, v) :: (preorderKV l ++ preorderKV r)) ∧
    (∀ (c : Color) (k v : Ptr) (l r : Tree), postorderKV (.node c k v l r)
        = postorderKV l ++ postorderKV r ++ [(k, v)]) := by
  obtain ⟨hord, -, hsz, -⟩ := reachable_sound hL hreach
  have hnd := ordered_keys_distinct hL hord
  have hin := dictTraverse_in hsz hnd
  have hpre := dictTraverse_pre hsz
  have hpost := dictTraverse_post hsz hnd
  refine ⟨hin, hpre, hpost, ?_, ?_, fun _ _ _ _ _ => rfl, fun _ _ _ _ _ => rfl⟩
  · intro ty
    have hlen : (inorderKV d.root).length = dict_size d := by
      rw [inorderKV_length, dict_size, hsz]
    cases ty with
    | inOrder =>
      exact ⟨inorderKV d.root, hin, hlen, List.Perm.refl _, hnd⟩
    | preOrder =>
      refine ⟨preorderKV d.root, hpre, ?_, preorderKV_perm _, ?_⟩
      · rw [(preorderKV_perm d.root).length_eq, hlen]
      · exact (((preorderKV_perm d.root).map Prod.fst).nodup_iff).2 hnd
    | postOrder =>
      refine ⟨postorderKV d.root, hpost, ?_, postorderKV_perm _, ?_⟩
      · rw [(postorderKV_perm d.root).length_eq, hlen]
      · exact (((postorderKV_perm d.root).map Prod.fst).nodup_iff).2 hnd
  · refine (keysSorted_iff_pairwise hL).2 ?_
    rw [List.pairwise_map]
    exact (ordered_iff_pairwise hL).1 hord

/-- Witness for `dict_iterator_orders` on the reachable one-node dictionary
`{5 -> 50}`. -/
theorem dict_iterator_orders_witness :
    dictTraverse ⟨.node .black 5 50 .nil .nil, 1⟩ .inOrder
      = some (inorderKV (Tree.node .black 5 50 .nil .nil)) ∧
    dictTraverse ⟨.node .black 5 50 .nil .nil, 1⟩ .preOrder
      = some (preorderKV (Tree.node .black 5 50 .nil .nil)) ∧
    dictTraverse ⟨.node .black 5 50 .nil .nil, 1⟩ .postOrder
      = some (postorderKV (Tree.node .black 5 50 .nil .nil)) ∧
    (∀ ty : Traversal, ∃ xs,
        dictTraverse ⟨.node .black 5 50 .nil .nil, 1⟩ ty = some xs ∧
        xs.length = dict_size ⟨.node .black 5 50 .nil .nil, 1⟩ ∧
        xs.Perm (inorderKV (Tree.node .black 5 50 .nil .nil)) ∧
        (xs.map Prod.fst).Nodup) ∧
    keysSorted natCmp ((inorderKV (Tree.node .black 5 50 .nil .nil)).map
      Prod.fst) = true ∧
    (∀ (c : Color) (k v : Ptr) (l r : Tree), preorderKV (.node c k v l r)
        = (k, v) :: (preorderKV l ++ preorderKV r)) ∧
    (∀ (c : Color) (k v : Ptr) (l r : Tree), postorderKV (.node c k v l r)
        = postorderKV l ++ postorderKV r ++ [(k, v)]) :=
  dict_iterator_orders natCmp_lawful
    (@Reachable.put natCmp dict_new 5 50 0 ⟨.node .black 5 50 .nil .nil, 1⟩
      Reachable.new (by decide))

/-- C7: on a reachable dictionary, `dict_clone` succeeds, producing a new
dictionary whose in-order (key, value) sequence equals the original's and
whose size equals the original's; the replayed source sequence is exactly
the original's pre-order sequence (`dict_clone` reads the original tree but
never writes it, so the original's contents are unchanged by cloning). -/
theorem dict_clone_fidelity {cmp : Ptr → Ptr → Int} {d : Dict}
    (hL : CmpLawful cmp) (hreach : Reachable cmp d) :
    ∃ d2, dict_clone cmp d = some d2 ∧
      inorderKV d2.root = inorderKV d.root ∧ d2.size = d.size ∧
      dictTraverse d .preOrder = some (preorderKV d.root) := by
  obtain ⟨hord, hblack, hsz, hnz⟩ := reachable_sound hL hreach
  have hpre := dictTraverse_pre hsz
  have hpairs : List.Pairwise (fun a b : Ptr × Ptr => cmp a.1 b.1 < 0)
      (inorderKV d.root) := (ordered_iff_pairwise hL).1 hord
  have hsymmR : Symmetric (fun a b : Ptr × Ptr => cmp a.1 b.1 ≠ 0) := by
    intro a b h h0
    exact h (cmp_zero_symm hL h0)
  have hdistIn : List.Pairwise (fun a b : Ptr × Ptr => cmp a.1 b.1 ≠ 0)
      (inorderKV d.root) :=
    hpairs.imp (fun hab h0 => by rw [h0] at hab; exact absurd hab (lt_irrefl 0))
  have hdistPre : List.Pairwise (fun a b : Ptr × Ptr => cmp a.1 b.1 ≠ 0)
      (preorderKV d.root) :=
    ((preorderKV_perm d.root).pairwise_iff
      (fun hxy h0 => hxy (cmp_zero_symm hL h0))).2 hdistIn
  have hnzPre : ∀ kv ∈ preorderKV d.root, kv.1 ≠ 0 ∧ kv.2 ≠ 0 := by
    intro kv hkv
    exact (forallT_iff_mem.1 hnz) kv ((preorderKV_perm d.root).mem_iff.1 hkv)
  obtain ⟨d2, hfold, hord2, -, hsz2, hperm⟩ := cloneFold_spec hL
    (d := dict_new) Ordered.nil rfl hnzPre
    (fun kv _ e he => absurd he (List.not_mem_nil e)) hdistPre
  have hclone : dict_clone cmp d = some d2 := by
    rw [dict_clone, hpre]
    exact hfold
  have hperm2 : (inorderKV d2.root).Perm (inorderKV d.root) := by
    refine hperm.trans ?_
    rw [show inorderKV dict_new.root = [] from rfl, List.append_nil]
    exact preorderKV_perm d.root
  have hanti : IsAntisymm (Ptr × Ptr) (fun a b => cmp a.1 b.1 < 0) := by
    refine ⟨fun a b h1 h2 => ?_⟩
    have h3 := (hL.asymm a.1 b.1).1 h1
    exact absurd h3 (by omega)
  have heq : inorderKV d2.root = inorderKV d.root :=
    @List.eq_of_perm_of_sorted _ _ hanti _ _ hperm2
      ((ordered_iff_pairwise hL).1 hord2) hpairs
  have hsize : d2.size = d.size := by
    rw [hsz2, (show dict_new.size = 0 from rfl),
      (preorderKV_perm d.root).length_eq, inorderKV_length, hsz]
    omega
  exact ⟨d2, hclone, heq, hsize, hpre⟩

/-- Witness for `dict_clone_fidelity` on the reachable one-node dictionary
`{5 -> 50}`. -/
theorem dict_clone_fidelity_witness :
    ∃ d2, dict_clone natCmp ⟨.node .black 5 50 .nil .nil, 1⟩ = some d2 ∧
      inorderKV d2.root = inorderKV (Tree.node .black 5 50 .nil .nil) ∧
      d2.size = (1 : Nat) ∧
      dictTraverse ⟨.node .black 5 50 .nil .nil, 1⟩ .preOrder
        = some (preorderKV (Tree.node .black 5 50 .nil .nil)) :=
  dict_clone_fidelity natCmp_lawful
    (@Reachable.put natCmp dict_new 5 50 0 ⟨.node .black 5 50 .nil .nil, 1⟩
      Reachable.new (by decide))

/-- C1: every dictionary state reachable from `Dictionary_new` by completed
`dict_put`, `dict_remove` and `dict_clear` calls satisfies the red-black
invariants: the root is BLACK (in particular when the tree is empty), no RED
node has a RED parent (equivalently, a RED child), every path from any node
to a descendant null leaf passes the same number of BLACK nodes (the
recursive black height is well defined), and the in-order key sequence is
strictly increasing in comparator order, hence duplicate-free. -/
theorem dict_rb_invariants {cmp : Ptr → Ptr → Int} (hL : CmpLawful cmp)
    {d : Dict} (hreach : Reachable cmp d) :
    (d.root = Tree.nil ∨ colorOf d.root = .black) ∧
    colorOf d.root = .black ∧
    noRedRed d.root = true ∧
    (blackHeight? d.root).isSome ∧
    List.Pairwise (fun a b => cmp a b < 0) ((inorderKV d.root).map Prod.fst) ∧
    ((inorderKV d.root).map Prod.fst).Nodup ∧
    rbValid cmp d.root = true := by
  have hrb : noRedRed d.root = true ∧ (blackHeight? d.root).isSome := by
    induction hreach with
    | new => exact ⟨rfl, rfl⟩
    | put hr hp ih => exact dict_put_rb hp ih.1 ih.2
    | remove hr hp ih =>
      exact dict_remove_rb hp (reachable_sound hL hr).2.1 ih.1 ih.2
    | clear hr ih => exact ⟨rfl, rfl⟩
  obtain ⟨hord, hblack, -, -⟩ := reachable_sound hL hreach
  have hpw : List.Pairwise (fun a b => cmp a b < 0)
      ((inorderKV d.root).map Prod.fst) := by
    rw [List.pairwise_map]
    exact (ordered_iff_pairwise hL).1 hord
  have hks : keysSorted cmp ((inorderKV d.root).map Prod.fst) = true :=
    (keysSorted_iff_pairwise hL).2 hpw
  refine ⟨Or.inr hblack, hblack, hrb.1, hrb.2, hpw,
    ordered_keys_distinct hL hord, ?_⟩
  rw [rbValid]
  simp [hblack, hrb.1, hrb.2, hks]

/-- Witness for `dict_rb_invariants` on the reachable one-node dictionary
`{5 -> 50}`. -/
theorem dict_rb_invariants_witness :
    ((Tree.node .black 5 50 .nil .nil : Tree) = Tree.nil ∨
      colorOf (Tree.node .black 5 50 .nil .nil) = .black) ∧
    colorOf (Tree.node .black 5 50 .nil .nil) = .black ∧
    noRedRed (Tree.node .black 5 50 .nil .nil) = true ∧
    (blackHeight? (Tree.node .black 5 50 .nil .nil)).isSome ∧
    List.Pairwise (fun a b => natCmp a b < 0)
      ((inorderKV (Tree.node .black 5 50 .nil .nil)).map Prod.fst) ∧
    ((inorderKV (Tree.node .black 5 50 .nil .nil)).map Prod.fst).Nodup ∧
    rbValid natCmp (Tree.node .black 5 50 .nil .nil) = true :=
  dict_rb_invariants natCmp_lawful
    (@Reachable.put natCmp dict_new 5 50 0 ⟨.node .black 5 50 .nil .nil, 1⟩
      Reachable.new (by decide))

end CDS
